import Mathlib

/-!
# Arbitrary-order elements `EdgeN` and `QuadNSq`

A shallow embedding of `src/geom/edge_edgen.C`, `include/geom/edge_edgen.h`,
`src/geom/face_quadn2.C` and `include/geom/face_quadn2.h`, followed by the
conversion routine `NCD4_convert` of
`contrib/netcdf/netcdf-c-4.6.2/libdap4/d4cvt.c` and the renumbering loops of
`tests/mesh/mesh_elem_test.h`.

Conventions of the embedding.

* The template parameter `N` is an explicit first argument.
* `unsigned int` index arithmetic is done in `Nat`.  `num_nodes = N*N` is a
  `static const int`, so every index expression that occurs for a valid
  element stays far below `2^32`, and the subtractions of the operations
  embedded here never go below zero for `N ≥ 2`.  The one exception is
  `n-4` in `QuadNSq::is_node_on_side`, which wraps for `n < 4` and is
  written with `% 2^32`.
* A call that ends in a failed `libmesh_assert...` or in
  `libmesh_not_implemented()` returns `Res.fail`; otherwise `Res.ok`.  The
  functions are embedded as compiled with assertions enabled; `permute_in`
  also gives `permute` as compiled without them.
* Node, neighbour and boundary tables are lists; `node_ptr(i)` and
  `set_node(i)` carry the range assertion of `elem.h`.
* `Point` is a triple of rationals (exact arithmetic); the comparison
  `relative_fuzzy_equals(., affine_tol)` is a parameter `feq`.
* For `d4cvt.c` the buffers are lists of bytes, the constants of `netcdf.h`
  and the properties of the C implementation are parameters, and undefined
  behaviour (an access outside a buffer, an `int` overflow) is a failure.
-/

namespace LibMesh

/-! ## Outcomes of a call -/

/-- The ways a call can end without a value: a failed assertion, the
not-implemented condition, an integer division by zero, an access outside a
buffer, and a signed integer overflow. -/
inductive Failure where
  | assertion
  | notImplemented
  | divisionByZero
  | outOfBounds
  | overflow
deriving DecidableEq, Repr

/-- Result of a call: a value, or one of the failure conditions. -/
inductive Res (α : Type) where
  | ok (a : α)
  | fail (e : Failure)
deriving DecidableEq, Repr

namespace Res

/-- Sequencing: a failure ends the computation. -/
def bind {α β : Type} (r : Res α) (f : α → Res β) : Res β :=
  match r with
  | ok a => f a
  | fail e => fail e

instance : Monad Res where
  pure := Res.ok
  bind := Res.bind

end Res

/-- The macro family `libmesh_assert`, `libmesh_assert_less`, ... as it expands in a
build with assertions enabled. -/
def libmesh_assert (c : Bool) : Res Unit :=
  if c then .ok () else .fail .assertion

/-- The macro family `libmesh_assert`, `libmesh_assert_less`, ... in either build: with
assertions enabled (`debug = true`) it is `libmesh_assert`; in a build without them it
expands to nothing (the reason why parameters that only assertions read are wrapped in
`libmesh_dbg_var`). -/
def libmesh_assert_in (debug : Bool) (c : Bool) : Res Unit :=
  if debug then libmesh_assert c else .ok ()

/-- The macro `libmesh_not_implemented()`. -/
def libmesh_not_implemented {α : Type} : Res α := .fail .notImplemented

/-- The loop `for (auto i : make_range(lo, lo+n)) body`: iterations
`lo, lo+1, ..., lo+n-1` in this order, a failure ending the loop. -/
def forRange {σ : Type} (body : Nat → σ → Res σ) (lo : Nat) : Nat → σ → Res σ
  | 0, s => .ok s
  | n + 1, s => (forRange body lo n s).bind (body (lo + n))

/-- A `make_range(lo, lo+n)` loop whose body may `return false`: the result is
`false` at the first iteration whose body yields `false`, `true` when all
iterations pass. -/
def allRange (body : Nat → Res Bool) (lo : Nat) : Nat → Res Bool
  | 0 => .ok true
  | n + 1 => (allRange body lo n).bind fun r => if r then body (lo + n) else .ok false

/-! ## Indexed tables (`elem.h`) -/

/-- Modelled from the spec: `Elem::node_ptr(i)` / `neighbor_ptr(i)` of `elem.h`
(not among the sources): indexed read of a reference table, an out-of-range
index being a precondition violation. -/
def node_ptr {α : Type} (l : List α) (i : Nat) : Res α :=
  match l[i]? with
  | some x => .ok x
  | none => .fail .assertion

/-- Modelled from the spec: `Elem::set_node(i)` / `set_neighbor(i)` of `elem.h`
(not among the sources): indexed write of a reference table, an out-of-range
index being a precondition violation. -/
def set_node {α : Type} (l : List α) (i : Nat) (x : α) : Res (List α) :=
  if i < l.length then .ok (l.set i x) else .fail .assertion

/-- Modelled from the spec: `Elem::swap2nodes(n1,n2)` of `elem.h` (not among the
sources), also used for `swap2neighbors` and for the boundary-record swaps
`swap2boundarysides` / `swap2boundaryedges`: exchange two table entries. -/
def swap2nodes {α : Type} (l : List α) (n1 n2 : Nat) : Res (List α) := do
  let temp ← node_ptr l n1
  let other ← node_ptr l n2
  let l ← set_node l n1 other
  set_node l n2 temp

/-- Modelled from the spec: `Elem::swap4nodes(n1,n2,n3,n4)` of `elem.h` (not
among the sources), also used for `swap4neighbors`: three successive
exchanges, which rotate the four entries. -/
def swap4nodes {α : Type} (l : List α) (n1 n2 n3 n4 : Nat) : Res (List α) := do
  let l ← swap2nodes l n1 n2
  let l ← swap2nodes l n2 n3
  swap2nodes l n3 n4

/-- The algorithm `std::iota` on a range of cells: consecutive values from `v`. -/
def iota : List Nat → Nat → List Nat
  | [], _ => []
  | _ :: xs, v => v :: iota xs (v + 1)

/-! ## `QuadNSq`: node classification and side tables -/

namespace QuadNSq

/-- `QuadNSq::n_sides()` (inherited from `Quad`). -/
def n_sides : Nat := 4

/-- `QuadNSq::num_nodes`. -/
def num_nodes (N : Nat) : Nat := N * N

/-- `QuadNSq::nodes_per_side`. -/
def nodes_per_side (N : Nat) : Nat := N

/-- `QuadNSq::is_vertex`. -/
def is_vertex (_N i : Nat) : Bool :=
  if i < 4 then true else false

/-- `QuadNSq::is_edge`. -/
def is_edge (N i : Nat) : Bool :=
  if i < 4 then false
  else if i ≥ 4 * N - 4 then false
  else true

/-- `QuadNSq::is_face`. -/
def is_face (N i : Nat) : Bool :=
  if i ≥ 4 * N - 4 then true else false

/-- `QuadNSq::nodes_on_side`. -/
def nodes_on_side (N s : Nat) : Res (List Nat) := do
  libmesh_assert (s < n_sides)
  let returnval := List.replicate N 0
  let returnval := returnval.set 0 s
  let returnval := returnval.set 1 ((s + 1) % 4)
  pure (returnval.take 2 ++ iota (returnval.drop 2) (4 + s * (N - 2)))

/-- `QuadNSq::nodes_on_edge`. -/
def nodes_on_edge (N e : Nat) : Res (List Nat) :=
  nodes_on_side N e

/-- `QuadNSq::local_side_node`. -/
def local_side_node (N side side_node : Nat) : Res Nat := do
  libmesh_assert (side < n_sides)
  libmesh_assert (side_node < nodes_per_side N)
  if side_node = 0 then pure side
  else if side_node = 1 then pure ((side + 1) % 4)
  else pure (side * (N - 2) + 2)

/-- The node loop of `QuadNSq::build_side_ptr(side, i)`: side node `n` becomes
`this->node_ptr(this->local_side_node(i,n))`, for `n` over the `N` nodes of
the side. -/
def build_side_nodes {ν : Type} (N : Nat) (nodes : List ν) (i : Nat) : Res (List ν) :=
  forRange (fun n side => do
      let k ← local_side_node N i n
      let p ← node_ptr nodes k
      pure (side ++ [p])) 0 N []

end QuadNSq

/-! ## Element state -/

/-- The part of an element that the orientation operations act on: the node
table `_nodes` and the neighbour table. -/
structure Elem (ν η : Type) where
  nodes : List ν
  neighbors : List η
deriving DecidableEq, Repr

/-- The boundary records of one element held by a `BoundaryInfo`: one record
per side and one per edge. -/
structure BoundaryInfo (β : Type) where
  sides : List β
  edges : List β
deriving DecidableEq, Repr

/-- Modelled from the spec: `Elem::swap2neighbors` of `elem.h` (not among the
sources): exchange two neighbour-table entries. -/
def swap2neighbors {η : Type} (l : List η) (n1 n2 : Nat) : Res (List η) :=
  swap2nodes l n1 n2

/-- Modelled from the spec: `Elem::swap4neighbors` of `elem.h` (not among the
sources): rotate four neighbour-table entries. -/
def swap4neighbors {η : Type} (l : List η) (n1 n2 n3 n4 : Nat) : Res (List η) :=
  swap4nodes l n1 n2 n3 n4

/-- Modelled from the spec: `Elem::swap2boundarysides` (not among the sources):
exchange the boundary records of two sides of this element. -/
def swap2boundarysides {β : Type} (bi : BoundaryInfo β) (s1 s2 : Nat) :
    Res (BoundaryInfo β) := do
  let sides ← swap2nodes bi.sides s1 s2
  pure { bi with sides := sides }

/-- Modelled from the spec: `Elem::swap2boundaryedges` (not among the sources):
exchange the boundary records of two edges of this element. -/
def swap2boundaryedges {β : Type} (bi : BoundaryInfo β) (e1 e2 : Nat) :
    Res (BoundaryInfo β) := do
  let edges ← swap2nodes bi.edges e1 e2
  pure { bi with edges := edges }

/-! ## Points -/

/-- A `Point`: three coordinates, exact arithmetic. -/
abbrev Point := Fin 3 → ℚ

/-- `Point::operator/ (scalar)`: every coordinate divided by the factor. -/
def Point.div (v : Point) (f : ℚ) : Point := fun k => v k / f

/-- `Point::operator* (scalar)`: every coordinate multiplied by the factor. -/
def Point.mul (v : Point) (f : ℚ) : Point := fun k => v k * f

/-- `Elem::point(i)`: position of the node in slot `i`. -/
def point (pts : List Point) (i : Nat) : Res Point :=
  node_ptr pts i

namespace QuadNSq

/-- `QuadNSq::has_affine_map`; `feq a b` stands for
`a.relative_fuzzy_equals(b, affine_tol)`. -/
def has_affine_map (feq : Point → Point → Bool) (N : Nat) (pts : List Point) : Res Bool := do
  let p1 ← point pts 1
  let p0 ← point pts 0
  let v01 : Point := p1 - p0
  let p3 ← point pts 3
  let v03 : Point := p3 - p0
  let p2 ← point pts 2
  if !(feq v01 (p2 - p3)) then pure false
  else
    let vxi := v01.div ((N - 1 : Nat) : ℚ)
    let veta := v03.div ((N - 1 : Nat) : ℚ)
    allRange (fun i => do
      let vhoriz := vxi.mul (i : ℚ)
      let vvert := veta.mul (i : ℚ)
      let a ← point pts (3 + i)
      if !(feq vhoriz (a - p0)) then pure false
      else
        let b ← point pts (3 * N - 2 - i)
        if !(feq vhoriz (b - p3)) then pure false
        else
          let c ← point pts (N + 1 + i)
          if !(feq vvert (c - p1)) then pure false
          else
            let d ← point pts (4 * N - 4 - i)
            if !(feq vvert (d - p0)) then pure false
            else
              allRange (fun j => do
                let v : Point := vvert + vxi.mul (j : ℚ)
                let f ← point pts (3 * N - 3 + (N - 2) * i + j)
                pure (feq v (f - p0))) 1 (N - 1 - 1)) 1 (N - 1 - 1)

/-- One pass of the outer loop of `QuadNSq::permute`. -/
def permute_step {ν η : Type} (N : Nat) (e : Elem ν η) : Res (Elem ν η) := do
  let nodes ← swap4nodes e.nodes 0 1 2 3
  let nodes ← forRange (fun j nodes =>
    swap4nodes nodes (4 + j) (4 + j + N - 2) (4 + j + 2 * N - 4) (4 + j + 3 * N - 6))
    0 (N - 2) nodes
  let neighbors ← swap4neighbors e.neighbors 0 1 2 3
  pure { nodes := nodes, neighbors := neighbors }

/-- `QuadNSq::permute`. -/
def permute {ν η : Type} (N : Nat) (e : Elem ν η) (perm_num : Nat) : Res (Elem ν η) := do
  libmesh_assert (perm_num < 4)
  forRange (fun _ e => permute_step N e) 0 perm_num e

/-- `QuadNSq::permute` in either build: with `debug = false` the assertion macro is
empty and the loop runs `perm_num` times whatever `perm_num` is. -/
def permute_in {ν η : Type} (debug : Bool) (N : Nat) (e : Elem ν η) (perm_num : Nat) :
    Res (Elem ν η) := do
  libmesh_assert_in debug (perm_num < 4)
  forRange (fun _ e => permute_step N e) 0 perm_num e

/-- `QuadNSq::flip`, the index `i` of the second loop read as its variable `j`.
A null `boundary_info` is `none`. -/
def flip {ν η β : Type} (N : Nat) (e : Elem ν η) (boundary_info : Option (BoundaryInfo β)) :
    Res (Elem ν η × BoundaryInfo β) :=
  match boundary_info with
  | none => .fail .assertion
  | some bi => do
    let nodes ← swap2nodes e.nodes 0 1
    let nodes ← swap2nodes nodes 2 3
    let nodes ← forRange (fun i nodes => swap2nodes nodes (N + 1 + i) (4 * (N - 1) - i))
      0 (N - 2) nodes
    let nodes ← forRange (fun j nodes => do
      let nodes ← swap2nodes nodes (3 + j) (N + 2 - j)
      swap2nodes nodes (2 * N - 1 + j) (3 * N - 2 - j)) 0 ((N - 2) / 2) nodes
    let neighbors ← swap2neighbors e.neighbors 1 3
    let bi ← swap2boundarysides bi 1 3
    let bi ← swap2boundaryedges bi 1 3
    pure ({ nodes := nodes, neighbors := neighbors }, bi)

end QuadNSq

/-! ## `EdgeN` -/

namespace EdgeN

/-- `EdgeN::num_nodes`. -/
def num_nodes (N : Nat) : Nat := N

/-- `EdgeN::has_affine_map`; `feq a b` stands for
`a.relative_fuzzy_equals(b, affine_tol)`. -/
def has_affine_map (feq : Point → Point → Bool) (N : Nat) (pts : List Point) : Res Bool := do
  let p1 ← point pts 1
  let p0 ← point pts 0
  let vxi : Point := (p1 - p0).div ((N - 1 : Nat) : ℚ)
  allRange (fun i => do
    let v := vxi.mul (i : ℚ)
    let q ← point pts (i + 1)
    pure (feq v (q - p0))) 1 (N - 1 - 1)

/-- `EdgeN::flip`, the index `i` of the loop read as its variable `j`.
A null `boundary_info` is `none`. -/
def flip {ν η β : Type} (N : Nat) (e : Elem ν η) (boundary_info : Option (BoundaryInfo β)) :
    Res (Elem ν η × BoundaryInfo β) :=
  match boundary_info with
  | none => .fail .assertion
  | some bi => do
    let nodes ← swap2nodes e.nodes 0 1
    let nodes ← forRange (fun j nodes => swap2nodes nodes (2 + j) (N - j)) 0 ((N - 2) / 2) nodes
    let neighbors ← swap2neighbors e.neighbors 0 1
    let bi ← swap2boundarysides bi 0 1
    pure ({ nodes := nodes, neighbors := neighbors }, bi)

end EdgeN

/-! ## The documented numbering (`face_quadn2.h`, `edge_edgen.h`) -/

/-- Reference-grid coordinates `(a, b)`, `0 ≤ a, b ≤ N-1`, of node `n` of a
`QuadNSq` in the numbering documented in `face_quadn2.h`: corners `0..3`
counter-clockwise from the lower left, the interior run of side `s` ordered
from corner `s` to corner `(s+1) mod 4`, the face interior row by row. -/
def gridCoord (N n : Nat) : Nat × Nat :=
  if n = 0 then (0, 0)
  else if n = 1 then (N - 1, 0)
  else if n = 2 then (N - 1, N - 1)
  else if n = 3 then (0, N - 1)
  else if n < 4 + (N - 2) then (n - 4 + 1, 0)
  else if n < 4 + 2 * (N - 2) then (N - 1, n - (4 + (N - 2)) + 1)
  else if n < 4 + 3 * (N - 2) then (N - 1 - (n - (4 + 2 * (N - 2)) + 1), N - 1)
  else if n < 4 + 4 * (N - 2) then (0, N - 1 - (n - (4 + 3 * (N - 2)) + 1))
  else ((n - (4 + 4 * (N - 2))) % (N - 2) + 1, (n - (4 + 4 * (N - 2))) / (N - 2) + 1)

/-- Position of node `n` on the regular grid spanned from `P0` by the steps
`vxi` and `veta`. -/
def gridPoint (N : Nat) (P0 vxi veta : Point) (n : Nat) : Point :=
  P0 + ((gridCoord N n).1 : ℚ) • vxi + ((gridCoord N n).2 : ℚ) • veta

/-- The node positions form a perfectly regular `N x N` grid over the
parallelogram of the corners: node `n` sits at
`P0 + a*vxi + b*veta` with `vxi = (P1-P0)/(N-1)`, `veta = (P3-P0)/(N-1)` and
`(a, b)` its reference-grid coordinates. -/
def RegularGrid (N : Nat) (pts : List Point) : Prop :=
  pts.length = N * N ∧
    ∀ n, n < N * N →
      pts[n]? = some (gridPoint N (pts.getD 0 0)
        ((pts.getD 1 0 - pts.getD 0 0).div ((N - 1 : Nat) : ℚ))
        ((pts.getD 3 0 - pts.getD 0 0).div ((N - 1 : Nat) : ℚ)) n)

instance (N : Nat) (pts : List Point) : Decidable (RegularGrid N pts) := by
  unfold RegularGrid
  infer_instance

/-! ## Index maps of the orientation operations -/

/-- Slot read by slot `p` after the exchange of slots `a` and `b`. -/
def swapIdx (a b p : Nat) : Nat := if p = a then b else if p = b then a else p

namespace QuadNSq

/-- Slot read by slot `p` after the first `j` passes of the inner loop of `permute`
(`M = N-2`). -/
def rotPart (M j p : Nat) : Nat :=
  if 4 ≤ p ∧ p < 4 + j then p + M
  else if 4 + M ≤ p ∧ p < 4 + M + j then p + M
  else if 4 + 2 * M ≤ p ∧ p < 4 + 2 * M + j then p + M
  else if 4 + 3 * M ≤ p ∧ p < 4 + 3 * M + j then p - 3 * M
  else p

/-- Slot read by slot `p` after one pass of the outer loop of `permute` (`M = N-2`). -/
def rot (M p : Nat) : Nat :=
  if p < 3 then p + 1
  else if p = 3 then 0
  else if p < 4 + 3 * M then p + M
  else if p < 4 + 4 * M then p - 3 * M
  else p

end QuadNSq

/-! ## Properties used in the statements -/

namespace EdgeN

/-- Every interior node `k` in `2..N-1` sits at `P0 + (k-1)*(P1-P0)/(N-1)`. -/
def Uniform (N : Nat) (pts : List Point) : Prop :=
  ∀ k, 2 ≤ k → k < N →
    pts.getD k 0 - pts.getD 0 0 = (((k : ℚ) - 1) / ((N : ℚ) - 1)) • (pts.getD 1 0 - pts.getD 0 0)

instance (N : Nat) (pts : List Point) : Decidable (Uniform N pts) := by
  unfold Uniform
  infer_instance

end EdgeN

namespace QuadNSq

/-- The checks of `has_affine_map` at outer index `i`. -/
def SideChecks (feq : Point → Point → Bool) (N : Nat) (pts : List Point) (i : Nat) : Prop :=
  feq (((pts.getD 1 0 - pts.getD 0 0).div ((N - 1 : Nat) : ℚ)).mul (i : ℚ))
      (pts.getD (3 + i) 0 - pts.getD 0 0) = true ∧
  feq (((pts.getD 1 0 - pts.getD 0 0).div ((N - 1 : Nat) : ℚ)).mul (i : ℚ))
      (pts.getD (3 * N - 2 - i) 0 - pts.getD 3 0) = true ∧
  feq (((pts.getD 3 0 - pts.getD 0 0).div ((N - 1 : Nat) : ℚ)).mul (i : ℚ))
      (pts.getD (N + 1 + i) 0 - pts.getD 1 0) = true ∧
  feq (((pts.getD 3 0 - pts.getD 0 0).div ((N - 1 : Nat) : ℚ)).mul (i : ℚ))
      (pts.getD (4 * N - 4 - i) 0 - pts.getD 0 0) = true ∧
  ∀ j, j < N - 2 →
    feq (((pts.getD 3 0 - pts.getD 0 0).div ((N - 1 : Nat) : ℚ)).mul (i : ℚ) +
          ((pts.getD 1 0 - pts.getD 0 0).div ((N - 1 : Nat) : ℚ)).mul ((1 + j : Nat) : ℚ))
      (pts.getD (3 * N - 3 + (N - 2) * i + (1 + j)) 0 - pts.getD 0 0) = true

instance (feq : Point → Point → Bool) (N : Nat) (pts : List Point) (i : Nat) :
    Decidable (SideChecks feq N pts i) := by
  unfold SideChecks
  infer_instance

/-- The corner from which the check of `has_affine_map` that reads the non-corner node
`n` measures it: `point(0)` for the nodes `3+i` of side 0, `point(1)` for the nodes
`N+1+i` of side 1, `point(3)` for the nodes `3*N-2-i` of side 2, `point(0)` for the nodes
`4*N-4-i` of side 3 and for the face nodes. -/
def check_corner (N n : Nat) : Nat :=
  if n < 4 + (N - 2) then 0
  else if n < 4 + 2 * (N - 2) then 1
  else if n < 4 + 3 * (N - 2) then 3
  else 0

end QuadNSq

/-! ## Node-on-side predicates, reference points and side node lists -/

/-- Mathematical value of the `unsigned int` expression `a - b` for
`a, b < 2^32`: the difference modulo `2^32`. -/
def usub32 (a b : Nat) : Nat := (a + 2 ^ 32 - b) % 2 ^ 32

namespace QuadNSq

/-- `QuadNSq::is_node_on_side`; `n-4` is computed in `unsigned int`, and a zero
divisor `N-2` is an integer division by zero. -/
def is_node_on_side (N n s : Nat) : Res Bool := do
  libmesh_assert (s < n_sides)
  if N - 2 = 0 then .fail .divisionByZero
  else if usub32 n 4 / (N - 2) = s then pure true
  else pure false

/-- `QuadNSq::is_node_on_edge`. -/
def is_node_on_edge (N n e : Nat) : Res Bool :=
  is_node_on_side N n e

/-- The list of nodes of side `s`: `nodes_on_side(s)` mapped through the node
table (`none` for an index outside the table). -/
def side_nodes {ν : Type} (N : Nat) (nodes : List ν) (s : Nat) : Res (List (Option ν)) := do
  let l ← nodes_on_side N s
  pure (l.map fun k => nodes[k]?)

end QuadNSq

namespace EdgeN

/-- `EdgeN::n_nodes`. -/
def n_nodes (N : Nat) : Nat := num_nodes N

/-- `EdgeN::master_point`; `Point(x,0,0)` is the triple `![x, 0, 0]`. -/
def master_point (N i : Nat) : Res Point := do
  libmesh_assert (i < n_nodes N)
  if i < 2 then pure ![2 * (i : ℚ) - 1, 0, 0]
  else pure ![0, 0, 0]

/-- `EdgeN::is_vertex`. -/
def is_vertex (_N i : Nat) : Bool :=
  if i < 2 then true else false

/-- `EdgeN::is_edge`. -/
def is_edge (_N i : Nat) : Bool :=
  if i < 2 then false else true

/-- `EdgeN::is_face`. -/
def is_face (_N _i : Nat) : Bool := false

/-- `EdgeN::is_node_on_side`. -/
def is_node_on_side (N n s : Nat) : Res Bool := do
  libmesh_assert (s < 2)
  libmesh_assert (n < num_nodes N)
  pure (s == n)

end EdgeN

/-! ## Side types, side construction and the operations without a general-`N` definition -/

/-- The enumerators of `ElemType` that `side_type` names (`enum_elem_type.h`,
not among the sources), as numbers. -/
structure ElemTypeTags where
  EDGE2 : Nat
  EDGE3 : Nat
  EDGE4 : Nat
  EDGEN : Nat
deriving DecidableEq, Repr

/-- Modelled from the spec: what the enumerators of `ElemType`
(`enum_elem_type.h`, not among the sources) must satisfy: the three fixed tags
are different enumerators, and the generic tag `EDGEN+N` is "distinct from
every fixed tag" for every `N ≥ 5`, which is to say each fixed tag is below
`EDGEN+5`. -/
def ElemTypeTags.Distinct (T : ElemTypeTags) : Prop :=
  T.EDGE2 ≠ T.EDGE3 ∧ T.EDGE2 ≠ T.EDGE4 ∧ T.EDGE3 ≠ T.EDGE4 ∧
    T.EDGE2 < T.EDGEN + 5 ∧ T.EDGE3 < T.EDGEN + 5 ∧ T.EDGE4 < T.EDGEN + 5

instance (T : ElemTypeTags) : Decidable T.Distinct := by
  unfold ElemTypeTags.Distinct
  infer_instance

/-- The data of an element that `build_side_ptr` reads or writes: its type tag,
node table, parent and interior-parent links (element handles of type `ι`),
mapping type, subdomain id and p-level. -/
structure ElemData (ν ι : Type) where
  type : Nat
  nodes : List ν
  parent : Option ι
  interior_parent : Option ι
  mapping_type : Nat
  subdomain_id : Nat
  p_level : Nat
deriving DecidableEq, Repr

/-- Modelled from the spec: `Elem::build(type)` of `elem.C` (not among the
sources): a fresh element of the given type, with no parent, no node bound
yet and default attributes. -/
def Elem_build {ν ι : Type} (type : Nat) : ElemData ν ι :=
  { type := type, nodes := [], parent := none, interior_parent := none,
    mapping_type := 0, subdomain_id := 0, p_level := 0 }

/-- The constant `invalid_uint` of `libmesh_common.h`: `static_cast<unsigned int>(-1)`. -/
def invalid_uint : Nat := 2 ^ 32 - 1

namespace QuadNSq

/-- `QuadNSq::n_vertices()` (inherited from `Quad`). -/
def n_vertices : Nat := 4

/-- `QuadNSq::n_nodes`. -/
def n_nodes (N : Nat) : Nat := num_nodes N

/-- `QuadNSq::side_type`. -/
def side_type (T : ElemTypeTags) (N s : Nat) : Res Nat := do
  libmesh_assert (s < 4)
  if N = 2 then pure T.EDGE2
  else if N = 3 then pure T.EDGE3
  else if N = 4 then pure T.EDGE4
  else pure (T.EDGEN + N)

/-- `QuadNSq::build_side_ptr(side, i)`; `self` is the handle of the quad (`this`),
`amr` says whether `LIBMESH_ENABLE_AMR` is defined. When the type of `side` does
not match, the one-argument overload replaces it by `Elem::build(side_type(i))`
and runs the same steps on the fresh element. The result is the quad and the side
after the call. -/
def build_side_ptr {ν ι : Type} (amr : Bool) (T : ElemTypeTags) (N : Nat) (self : ι)
    (quad side : ElemData ν ι) (i : Nat) : Res (ElemData ν ι × ElemData ν ι) := do
  libmesh_assert (i < n_sides)
  let edgeNtype ← side_type T N i
  let side := if side.type ≠ edgeNtype then Elem_build edgeNtype else side
  let nodes ← build_side_nodes N quad.nodes i
  let side := { side with nodes := nodes }
  let side := { side with parent := none }
  let side := { side with interior_parent := some self }
  let side := { side with mapping_type := quad.mapping_type }
  let side := { side with subdomain_id := quad.subdomain_id }
  let side := if amr then { side with p_level := quad.p_level } else side
  pure (quad, side)

/-- `QuadNSq::connectivity`; the result would be the filled vector `conn`. -/
def connectivity (_N _sf _iop : Nat) (_conn : List Nat) : Res (List Nat) :=
  libmesh_not_implemented

/-- `QuadNSq::loose_bounding_box`; a `BoundingBox` is a pair of points. -/
def loose_bounding_box (_N : Nat) (_pts : List Point) : Res (Point × Point) := do
  let _ ← (libmesh_not_implemented : Res Unit)
  pure (0, 0)

/-- `QuadNSq::n_second_order_adjacent_vertices`. -/
def n_second_order_adjacent_vertices (_N _n : Nat) : Res Nat :=
  libmesh_not_implemented

/-- `QuadNSq::second_order_adjacent_vertex`. -/
def second_order_adjacent_vertex (_N _n _v : Nat) : Res Nat :=
  libmesh_not_implemented

/-- `QuadNSq::second_order_child_vertex`. -/
def second_order_child_vertex (N n : Nat) : Res (Nat × Nat) := do
  libmesh_assert (n ≥ n_vertices)
  libmesh_assert (n < n_nodes N)
  libmesh_not_implemented

/-- `QuadNSq::center_node_on_side`. -/
def center_node_on_side (_N _side : Nat) : Res Nat := do
  let _ ← (libmesh_not_implemented : Res Unit)
  pure invalid_uint

end QuadNSq

namespace EdgeN

/-- `EdgeN::connectivity`; the result would be the filled vector `conn`. -/
def connectivity (_N _sc _iop : Nat) (_conn : List Nat) : Res (List Nat) :=
  libmesh_not_implemented

/-- `EdgeN::second_order_child_vertex`. -/
def second_order_child_vertex (_N _n : Nat) : Res (Nat × Nat) := do
  let _ ← (libmesh_not_implemented : Res Unit)
  pure (0, 0)

/-- `EdgeN::loose_bounding_box`; a `BoundingBox` is a pair of points. -/
def loose_bounding_box (_N : Nat) (_pts : List Point) : Res (Point × Point) := do
  let _ ← (libmesh_not_implemented : Res Unit)
  pure (0, 0)

/-- `EdgeN::n_second_order_adjacent_vertices`. -/
def n_second_order_adjacent_vertices (_N _n : Nat) : Res Nat :=
  libmesh_not_implemented

/-- `EdgeN::second_order_adjacent_vertex`. -/
def second_order_adjacent_vertex (_N _n _v : Nat) : Res Nat := do
  let _ ← (libmesh_not_implemented : Res Unit)
  pure 0

end EdgeN

/-! ## `NCD4_convert` (`contrib/netcdf/netcdf-c-4.6.2/libdap4/d4cvt.c`) -/

namespace Netcdf

/-- The constants of `netcdf.h` (not among the sources) that `d4cvt.c` names: the two
status codes and the `nc_type` codes. They are parameters of the embedding. -/
structure NcConst where
  NC_NOERR : Int
  NC_EINVAL : Int
  NC_BYTE : Int
  NC_CHAR : Int
  NC_SHORT : Int
  NC_INT : Int
  NC_FLOAT : Int
  NC_DOUBLE : Int
  NC_UBYTE : Int
  NC_USHORT : Int
  NC_UINT : Int
  NC_INT64 : Int
  NC_UINT64 : Int
  NC_STRING : Int
deriving DecidableEq, Repr

/-- The properties of the C implementation that `d4cvt.c` depends on: whether plain
`char` is signed, the byte order of objects, whether `assert` is compiled out
(`NDEBUG`), and `sizeof(char*)`. -/
structure Target where
  char_signed : Bool
  big_endian : Bool
  ndebug : Bool
  sizeof_ptr : Nat
deriving DecidableEq, Repr

/-- The C types that occur in the arms of the conversion switch. -/
inductive CType where
  | char
  | schar
  | uchar
  | short
  | ushort
  | int
  | uint
  | llong
  | ullong
  | float
  | double
deriving DecidableEq, Repr

/-- Object sizes in bytes, `sizeof(t)`, as in the ILP32, LP64 and LLP64 data models. -/
def sizeof : CType → Nat
  | .char => 1
  | .schar => 1
  | .uchar => 1
  | .short => 2
  | .ushort => 2
  | .int => 4
  | .uint => 4
  | .llong => 8
  | .ullong => 8
  | .float => 4
  | .double => 8

/-- Whether an integer type is signed; plain `char` follows the target. -/
def is_signed (A : Target) : CType → Bool
  | .char => A.char_signed
  | .schar => true
  | .short => true
  | .int => true
  | .llong => true
  | _ => false

/-- The floating types. -/
def is_floating : CType → Bool
  | .float => true
  | .double => true
  | _ => false

/-- The `w` low-order bytes of `x`, least significant first. -/
def bytes_le : Nat → Nat → List Nat
  | 0, _ => []
  | w + 1, x => x % 256 :: bytes_le w (x / 256)

/-- The number whose bytes, least significant first, are `bs`. -/
def value_le : List Nat → Nat
  | [] => 0
  | b :: bs => b + 256 * value_le bs

/-- Object representation, `w` bytes, of the bit pattern `x`. -/
def encode (A : Target) (w x : Nat) : List Nat :=
  if A.big_endian then (bytes_le w x).reverse else bytes_le w x

/-- Bit pattern of an object representation. -/
def decode (A : Target) (bs : List Nat) : Nat :=
  if A.big_endian then value_le bs.reverse else value_le bs

/-- The read `*(t *)p` with `p` at byte offset `off` of the buffer `buf`: the bit
pattern of the `sizeof(t)` bytes there. A read past the end of the buffer is
undefined behaviour. -/
def load (A : Target) (t : CType) (buf : List Nat) (off : Nat) : Res Nat :=
  if off + sizeof t ≤ buf.length then .ok (decode A ((buf.drop off).take (sizeof t)))
  else .fail .outOfBounds

/-- The write `*(t *)p = v` with `p` at byte offset `off` of the buffer `buf`, `v` given by
its bit pattern. A write past the end of the buffer is undefined behaviour. -/
def store (A : Target) (t : CType) (buf : List Nat) (off : Nat) (bits : Nat) :
    Res (List Nat) :=
  if off + sizeof t ≤ buf.length then
    .ok (buf.take off ++ encode A (sizeof t) bits ++ buf.drop (off + sizeof t))
  else .fail .outOfBounds

/-- Value of an object of an integer type of `w` bytes with bit pattern `bits`
(two's complement when signed). -/
def to_value (w : Nat) (signed : Bool) (bits : Nat) : Int :=
  if signed && decide (2 ^ (8 * w - 1) ≤ bits) then (bits : Int) - 2 ^ (8 * w) else bits

/-- Bit pattern of the value `v` converted to an integer type of `w` bytes: reduction
modulo `2^(8w)`. -/
def of_value (w : Nat) (v : Int) : Nat := (v % 2 ^ (8 * w)).toNat

/-- The cast `(td)vs` on bit patterns, `vs` of type `ts`. Between integer types it is
the value reduced modulo `2^width` of `td`; a conversion to or from `float` or `double`
is the parameter `fcvt`. -/
def c_cast (A : Target) (fcvt : CType → CType → Nat → Nat) (ts td : CType) (bits : Nat) :
    Nat :=
  if is_floating ts || is_floating td then fcvt ts td bits
  else of_value (sizeof td) (to_value (sizeof ts) (is_signed A ts) bits)

/-- Arithmetic in `int` (32 bits): a result out of range is undefined behaviour. -/
def int_arith (v : Int) : Res Int :=
  if -(2 ^ 31) ≤ v ∧ v < 2 ^ 31 then .ok v else .fail .overflow

/-- The macro `CASE(nc1,nc2)`, `nc1*256+nc2` in `int`. -/
def CASE (nc1 nc2 : Int) : Res Int := do
  let m ← int_arith (nc1 * 256)
  int_arith (m + nc2)

/-- The body of the macro `ARM(vs,ncs,ts,vd,ncd,td)`: `vs = *(ts *)value;`
`*(td *)memory = (td)vs;`, with `value` and `memory` at byte offsets `vo` and `mo` of
two separate buffers. The result is the destination buffer. -/
def ARM (A : Target) (fcvt : CType → CType → Nat → Nat) (ts td : CType)
    (value : List Nat) (vo : Nat) (memory : List Nat) (mo : Nat) : Res (List Nat) := do
  let vs ← load A ts value vo
  store A td memory mo (c_cast A fcvt ts td vs)

/-- The `nc_type` code and the C type of each convertible type, in the order in which
the arms of the switch list them. -/
def type_table (K : NcConst) : List (Int × CType) :=
  [(K.NC_CHAR, .char), (K.NC_BYTE, .schar), (K.NC_UBYTE, .uchar), (K.NC_SHORT, .short),
   (K.NC_USHORT, .ushort), (K.NC_INT, .int), (K.NC_UINT, .uint), (K.NC_INT64, .llong),
   (K.NC_UINT64, .ullong), (K.NC_FLOAT, .float), (K.NC_DOUBLE, .double)]

/-- The 121 `ARM` lines of the switch, each as its case label, source C type and
destination C type: all pairs of table entries, the source type varying slowest. -/
def arms (K : NcConst) : List (Res Int × CType × CType) :=
  (type_table K).flatMap fun s => (type_table K).map fun d => (CASE s.1 d.1, s.2, d.2)

/-- The arm of the switch selected by the value `sel`, if any. -/
def select_arm (K : NcConst) (sel : Int) : Option (CType × CType) :=
  ((arms K).find? fun a => decide (a.1 = .ok sel)).map fun a => a.2

/-- `nctypesizeof`; the `default` branch is `assert(0)` followed by `return 0`. -/
def nctypesizeof (K : NcConst) (A : Target) (nctype : Int) : Res Nat :=
  if nctype = K.NC_CHAR then .ok (sizeof .char)
  else if nctype = K.NC_BYTE then .ok (sizeof .schar)
  else if nctype = K.NC_UBYTE then .ok (sizeof .uchar)
  else if nctype = K.NC_SHORT then .ok (sizeof .short)
  else if nctype = K.NC_USHORT then .ok (sizeof .ushort)
  else if nctype = K.NC_INT then .ok (sizeof .int)
  else if nctype = K.NC_UINT then .ok (sizeof .uint)
  else if nctype = K.NC_INT64 then .ok (sizeof .llong)
  else if nctype = K.NC_UINT64 then .ok (sizeof .ullong)
  else if nctype = K.NC_FLOAT then .ok (sizeof .float)
  else if nctype = K.NC_DOUBLE then .ok (sizeof .double)
  else if nctype = K.NC_STRING then .ok A.sizeof_ptr
  else if A.ndebug then .ok 0
  else .fail .assertion

/-- The loop of `NCD4_convert` with `n` iterations left, `memory` and `value` at byte
offsets `mo` and `vo`. The result is the status and the destination buffer. -/
def convert_loop (K : NcConst) (A : Target) (fcvt : CType → CType → Nat → Nat)
    (srctype dsttype : Int) (value : List Nat) :
    Nat → List Nat → Nat → Nat → Res (Int × List Nat)
  | 0, memory, _, _ => .ok (K.NC_NOERR, memory)
  | n + 1, memory, mo, vo => do
    let sel ← CASE srctype dsttype
    match select_arm K sel with
    | none => pure (K.NC_EINVAL, memory)
    | some (ts, td) => do
      let memory ← ARM A fcvt ts td value vo memory mo
      let vstep ← nctypesizeof K A srctype
      let mstep ← nctypesizeof K A dsttype
      convert_loop K A fcvt srctype dsttype value n memory (mo + mstep) (vo + vstep)

/-- `NCD4_convert(srctype, dsttype, memory0, value0, count)`: the source buffer `value0`
and the destination buffer `memory0` are separate byte arrays; the result is the
returned status and the destination buffer after the call. -/
def NCD4_convert (K : NcConst) (A : Target) (fcvt : CType → CType → Nat → Nat)
    (srctype dsttype : Int) (memory0 value0 : List Nat) (count : Nat) :
    Res (Int × List Nat) :=
  convert_loop K A fcvt srctype dsttype value0 count memory0 0 0

/-- The convertible type codes. -/
def convertible (K : NcConst) : List Int := (type_table K).map Prod.fst

/-- The type codes are pairwise different and lie in `0..255`, so that the case labels
of the switch are pairwise different. -/
def NcConst.Valid (K : NcConst) : Prop :=
  (convertible K).Nodup ∧ ∀ c ∈ convertible K, 0 ≤ c ∧ c < 256

instance (K : NcConst) : Decidable K.Valid := by
  unfold NcConst.Valid
  infer_instance

/-- The object representation of an array: the elements one after the other. -/
def encode_array (A : Target) (t : CType) (elems : List Nat) : List Nat :=
  (elems.map (encode A (sizeof t))).flatten

end Netcdf

/-! ## The renumbering of `MeshPerElemTest::meshes_equal_enough` (`tests/mesh/mesh_elem_test.h`) -/

namespace MeshPerElemTest

/-- Modelled from the spec: `MeshBase::renumber_elem(old_id, new_id)` (not among the
sources) on the id assignment of a mesh, a map from its elements to their ids: the
element whose id is `old_id` gets the id `new_id`, every other id is kept. -/
def renumber_elem {ι : Type} (ids : ι → Nat) (old_id new_id : Nat) : ι → Nat :=
  fun e => if ids e = old_id then new_id else ids e

/-- Modelled from the spec: `MeshBase::renumber_node(old_id, new_id)` (not among the
sources) on the id assignment of the nodes of a mesh: the node whose id is `old_id` gets
the id `new_id`, every other id is kept. -/
def renumber_node {μ : Type} (ids : μ → Nat) (old_id new_id : Nat) : μ → Nat :=
  fun n => if ids n = old_id then new_id else ids n

/-- The element loop of `meshes_equal_enough`. `elems` is `element_ptr_range()` of this
mesh, `id1` gives the ids in this mesh, `locator e1` is the element of `other_mesh` that
the point locator returns at the vertex average of `e1` (`none` for a null pointer), and
`ids` is the id assignment of `other_mesh`, which the loop updates. The assignments of
`processor_id` and `unique_id` do not touch the ids and are left out. -/
def elem_loop {α ι : Type} (max_elem_id : Nat) (id1 : α → Nat) (locator : α → Option ι) :
    List α → (ι → Nat) → Res (ι → Nat)
  | [], ids => .ok ids
  | e1 :: rest, ids =>
    match locator e1 with
    | none => .fail .assertion
    | some e2 =>
      let e1_id := id1 e1
      let e2_id := ids e2
      let ids :=
        if e1_id ≠ e2_id then
          let ids := renumber_elem ids e1_id max_elem_id
          let ids := renumber_elem ids e2_id e1_id
          renumber_elem ids max_elem_id e2_id
        else ids
      elem_loop max_elem_id id1 locator rest ids

/-- The inner loop of the node loop: the last node `n` of the located element with
`Point(*n1) == Point(n)`, if any (`same n` is that comparison). -/
def find_n2 {μ : Type} (same : μ → Bool) (nodes : List μ) : Option μ :=
  nodes.foldl (fun n2 n => if same n then some n else n2) none

/-- The node loop of `meshes_equal_enough`. `nodes` is `node_ptr_range()` of this mesh,
`id1` gives the node ids in this mesh, `pt1` and `pt2` are the positions of the nodes of
this mesh and of `other_mesh`, `locator n1` is the element of `other_mesh` that the point
locator returns at `n1` (`none` for a null pointer), `elem_nodes` lists the nodes of an
element of `other_mesh`, and `ids` is the node id assignment of `other_mesh`, which the
loop updates. The branch for higher-precision builds is left out. -/
def node_loop {ν μ ε P : Type} [DecidableEq P] (max_node_id : Nat) (id1 : ν → Nat)
    (pt1 : ν → P) (pt2 : μ → P) (locator : ν → Option ε) (elem_nodes : ε → List μ) :
    List ν → (μ → Nat) → Res (μ → Nat)
  | [], ids => .ok ids
  | n1 :: rest, ids =>
    match locator n1 with
    | none => .fail .assertion
    | some e1c =>
      match find_n2 (fun n => decide (pt1 n1 = pt2 n)) (elem_nodes e1c) with
      | none => .fail .assertion
      | some n2 =>
        let n1_id := id1 n1
        let n2_id := ids n2
        let ids :=
          if n1_id ≠ n2_id then
            let ids := renumber_node ids n1_id max_node_id
            let ids := renumber_node ids n2_id n1_id
            renumber_node ids max_node_id n2_id
          else ids
        node_loop max_node_id id1 pt1 pt2 locator elem_nodes rest ids

/-- The node of `other_mesh` that the node loop pairs with `n1`. -/
def node_match {ν μ ε P : Type} [DecidableEq P] (pt1 : ν → P) (pt2 : μ → P)
    (locator : ν → Option ε) (elem_nodes : ε → List μ) (n1 : ν) : Option μ :=
  (locator n1).bind fun e1c => find_n2 (fun n => decide (pt1 n1 = pt2 n)) (elem_nodes e1c)

end MeshPerElemTest

/-! # Theorems -/

namespace Res

@[simp] theorem bind_ok {α β : Type} (a : α) (f : α → Res β) :
    (Res.ok a).bind f = f a := rfl

@[simp] theorem bind_fail {α β : Type} (e : Failure) (f : α → Res β) :
    (Res.fail e : Res α).bind f = Res.fail e := rfl

@[simp] theorem bind_eq_bind {α β : Type} (r : Res α) (f : α → Res β) :
    (r >>= f) = r.bind f := rfl

@[simp] theorem pure_eq_ok {α : Type} (a : α) : (pure a : Res α) = Res.ok a := rfl

end Res

@[simp] theorem libmesh_assert_true : libmesh_assert true = .ok () := rfl

theorem libmesh_assert_of {c : Bool} (h : c = true) : libmesh_assert c = .ok () := by
  subst h; rfl

theorem iota_eq_range (l : List Nat) (v : Nat) : iota l v = List.range' v l.length := by
  induction l generalizing v with
  | nil => rfl
  | cons x xs ih => simp [iota, ih, List.range'_succ]

namespace QuadNSq

/-- Closed form of the side table. -/
theorem nodes_on_side_eq (N s : Nat) (hN : 2 ≤ N) (hs : s < 4) :
    nodes_on_side N s = .ok (s :: (s + 1) % 4 :: List.range' (4 + s * (N - 2)) (N - 2)) := by
  obtain ⟨M, rfl⟩ : ∃ M, N = M + 2 := ⟨N - 2, by omega⟩
  have h : libmesh_assert (decide (s < n_sides)) = .ok () :=
    libmesh_assert_of (by simp [n_sides, hs])
  simp [nodes_on_side, h, List.replicate_succ, iota_eq_range]

/-- Entry `k` of the closed form. -/
theorem side_entry (N s k : Nat) (hk2 : 2 ≤ k) (hkN : k < N) :
    (s :: (s + 1) % 4 :: List.range' (4 + s * (N - 2)) (N - 2))[k]? =
      some (4 + s * (N - 2) + (k - 2)) := by
  obtain ⟨j, rfl⟩ : ∃ j, k = j + 2 := ⟨k - 2, by omega⟩
  have hj : j < N - 2 := by omega
  simp [List.getElem?_range', hj]

/-- C6: for `N ≥ 2` and a side `s < 4`, `nodes_on_side(s)` returns a list of length
exactly `N` whose entry 0 is `s`, whose entry 1 is `(s+1) mod 4` and whose entry `k`,
`2 ≤ k < N`, is `4 + s*(N-2) + (k-2)`; `nodes_on_edge(s)` returns the same list. -/
theorem nodes_on_side_layout (N s : Nat) (hN : 2 ≤ N) (hs : s < 4) :
    ∃ l, nodes_on_side N s = .ok l ∧ l.length = N ∧ l[0]? = some s ∧
      l[1]? = some ((s + 1) % 4) ∧
      (∀ k, 2 ≤ k → k < N → l[k]? = some (4 + s * (N - 2) + (k - 2))) ∧
      nodes_on_edge N s = .ok l := by
  refine ⟨_, nodes_on_side_eq N s hN hs, ?_, rfl, by simp, ?_, ?_⟩
  · simp; omega
  · intro k hk2 hkN
    exact side_entry N s k hk2 hkN
  · exact nodes_on_side_eq N s hN hs

/-- Witness of C6 at `N = 4`, side 2: the table is `[2, 3, 8, 9]`. -/
theorem nodes_on_side_layout_witness :
    ∃ l, nodes_on_side 4 2 = .ok l ∧ l.length = 4 ∧ l[0]? = some 2 ∧
      l[1]? = some ((2 + 1) % 4) ∧
      (∀ k, 2 ≤ k → k < 4 → l[k]? = some (4 + 2 * (4 - 2) + (k - 2))) ∧
      nodes_on_edge 4 2 = .ok l :=
  nodes_on_side_layout 4 2 (by decide) (by decide)

/-- C7: for `N ≥ 2` and two distinct sides `s ≠ t`, the interior entries (positions
`2..N-1`) of `nodes_on_side(s)` and `nodes_on_side(t)` share no index; every entry of
`nodes_on_side(s)` is below `N^2`, every interior entry satisfies `is_edge`, and no
entry satisfies `is_face`. -/
theorem nodes_on_side_disjoint (N s t : Nat) (hN : 2 ≤ N) (hs : s < 4) (ht : t < 4)
    (hst : s ≠ t) :
    ∃ ls lt, nodes_on_side N s = .ok ls ∧ nodes_on_side N t = .ok lt ∧
      (∀ j k, 2 ≤ j → j < N → 2 ≤ k → k < N → ls[j]? ≠ lt[k]?) ∧
      (∀ k, k < N → ∃ v, ls[k]? = some v ∧ v < N * N ∧ is_face N v = false ∧
        (2 ≤ k → is_edge N v = true)) := by
  refine ⟨_, _, nodes_on_side_eq N s hN hs, nodes_on_side_eq N t hN ht, ?_, ?_⟩
  · intro j k hj2 hjN hk2 hkN
    rw [side_entry N s j hj2 hjN, side_entry N t k hk2 hkN]
    intro h
    have h' : 4 + s * (N - 2) + (j - 2) = 4 + t * (N - 2) + (k - 2) := Option.some.inj h
    obtain ⟨M, rfl⟩ : ∃ M, N = M + 2 := ⟨N - 2, by omega⟩
    simp only [Nat.add_sub_cancel] at h'
    interval_cases s <;> interval_cases t <;> simp at hst <;> omega
  · intro k hkN
    obtain ⟨M, rfl⟩ : ∃ M, N = M + 2 := ⟨N - 2, by omega⟩
    have hsq : 4 * M + 4 ≤ (M + 2) * (M + 2) := by nlinarith
    have hsM : s * M ≤ 3 * M := Nat.mul_le_mul_right M (by omega)
    rcases Nat.lt_or_ge k 2 with hk | hk
    · interval_cases k
      · refine ⟨s, rfl, by omega, ?_, by omega⟩
        simp [is_face]; omega
      · refine ⟨(s + 1) % 4, by simp, by omega, ?_, by omega⟩
        simp [is_face]; omega
    · refine ⟨4 + s * (M + 2 - 2) + (k - 2), side_entry (M + 2) s k hk hkN, ?_, ?_, ?_⟩
      · simp only [Nat.add_sub_cancel]; omega
      · simp only [Nat.add_sub_cancel, is_face]; simp; omega
      · intro _
        simp only [Nat.add_sub_cancel, is_edge]; simp; omega

/-- Witness of C7 at `N = 4`, sides 0 and 3. -/
theorem nodes_on_side_disjoint_witness :
    ∃ ls lt, nodes_on_side 4 0 = .ok ls ∧ nodes_on_side 4 3 = .ok lt ∧
      (∀ j k, 2 ≤ j → j < 4 → 2 ≤ k → k < 4 → ls[j]? ≠ lt[k]?) ∧
      (∀ k, k < 4 → ∃ v, ls[k]? = some v ∧ v < 4 * 4 ∧ is_face 4 v = false ∧
        (2 ≤ k → is_edge 4 v = true)) :=
  nodes_on_side_disjoint 4 0 3 (by decide) (by decide) (by decide) (by decide)

/-- C1 (the code departs from the claim): on a 9-node quad (`N = 3`) the third node of
side 0 is taken from slot `local_side_node(0,2) = 2`, a corner, while
`nodes_on_side(0)` is `[0, 1, 4]`; `build_side_ptr` therefore yields the nodes of
slots `0, 1, 2` instead of those of slots `0, 1, 4`. -/
theorem local_side_node_interior_mismatch :
    local_side_node 3 0 2 = .ok 2 ∧ nodes_on_side 3 0 = .ok [0, 1, 4] ∧
      build_side_nodes 3 [10, 11, 12, 13, 14, 15, 16, 17, 18] 0 = .ok [10, 11, 12] := by
  decide

end QuadNSq

theorem node_ptr_eq {α : Type} (l : List α) (i : Nat) (h : i < l.length) :
    node_ptr l i = .ok l[i] := by
  simp [node_ptr, List.getElem?_eq_getElem h]

theorem swap2nodes_spec {α : Type} (l : List α) (a b : Nat) (ha : a < l.length)
    (hb : b < l.length) :
    ∃ r, swap2nodes l a b = .ok r ∧ r.length = l.length ∧
      ∀ p, r[p]? = l[swapIdx a b p]? := by
  refine ⟨(l.set a l[b]).set b l[a], ?_, by simp, ?_⟩
  · simp [swap2nodes, node_ptr_eq, set_node, ha, hb]
  · intro p
    simp only [List.getElem?_set, List.length_set, swapIdx]
    by_cases hpb : p = b
    · subst hpb
      by_cases hpa : p = a
      · subst hpa; simp [ha]
      · simp [hb, hpa, List.getElem?_eq_getElem ha]
    · by_cases hpa : p = a
      · subst hpa; simp [ha, List.getElem?_eq_getElem hb, Ne.symm hpb]
      · simp [Ne.symm hpb, Ne.symm hpa, hpb, hpa]

theorem swap4nodes_spec {α : Type} (l : List α) (a b c d : Nat) (ha : a < l.length)
    (hb : b < l.length) (hc : c < l.length) (hd : d < l.length) :
    ∃ r, swap4nodes l a b c d = .ok r ∧ r.length = l.length ∧
      ∀ p, r[p]? = l[swapIdx a b (swapIdx b c (swapIdx c d p))]? := by
  obtain ⟨r1, h1, hl1, hg1⟩ := swap2nodes_spec l a b ha hb
  obtain ⟨r2, h2, hl2, hg2⟩ := swap2nodes_spec r1 b c (by omega) (by omega)
  obtain ⟨r3, h3, hl3, hg3⟩ := swap2nodes_spec r2 c d (by omega) (by omega)
  refine ⟨r3, ?_, by omega, ?_⟩
  · simp [swap4nodes, h1, h2, h3]
  · intro p
    rw [hg3, hg2, hg1]

namespace QuadNSq

theorem swapIdx_left (a b : Nat) : swapIdx a b a = b := by simp [swapIdx]

theorem swapIdx_right (a b : Nat) : swapIdx a b b = a := by
  simp only [swapIdx]; split_ifs with h <;> simp [h]

theorem swapIdx_other (a b p : Nat) (ha : p ≠ a) (hb : p ≠ b) : swapIdx a b p = p := by
  simp [swapIdx, ha, hb]

/-- Index map of a rotation of four distinct slots. -/
theorem swapIdx_cycle (a b c d p : Nat) (hab : a ≠ b) (hac : a ≠ c) (had : a ≠ d)
    (hbc : b ≠ c) (hbd : b ≠ d) (hcd : c ≠ d) :
    swapIdx a b (swapIdx b c (swapIdx c d p)) =
      if p = a then b else if p = b then c else if p = c then d else if p = d then a else p := by
  by_cases h1 : p = a
  · subst h1
    rw [if_pos rfl, swapIdx_other c d p hac had, swapIdx_other b c p hab hac, swapIdx_left]
  · rw [if_neg h1]
    by_cases h2 : p = b
    · subst h2
      rw [if_pos rfl, swapIdx_other c d p hbc hbd, swapIdx_left,
        swapIdx_other a p c hac.symm hbc.symm]
    · rw [if_neg h2]
      by_cases h3 : p = c
      · subst h3
        rw [if_pos rfl, swapIdx_left, swapIdx_other b p d hbd.symm hcd.symm,
          swapIdx_other a b d had.symm hbd.symm]
      · rw [if_neg h3]
        by_cases h4 : p = d
        · subst h4
          rw [if_pos rfl, swapIdx_right, swapIdx_right, swapIdx_right]
        · rw [if_neg h4, swapIdx_other c d p h3 h4, swapIdx_other b c p h2 h3,
            swapIdx_other a b p h1 h2]

theorem rotPart_blk0 (M j p : Nat) (h1 : 4 ≤ p) (h2 : p < 4 + j) :
    rotPart M j p = p + M := by
  rw [rotPart, if_pos ⟨h1, h2⟩]

theorem rotPart_blk1 (M j p : Nat) (hj : j ≤ M) (h1 : 4 + M ≤ p) (h2 : p < 4 + M + j) :
    rotPart M j p = p + M := by
  have n0 : ¬ (4 ≤ p ∧ p < 4 + j) := by omega
  rw [rotPart, if_neg n0, if_pos ⟨h1, h2⟩]

theorem rotPart_blk2 (M j p : Nat) (hj : j ≤ M) (h1 : 4 + 2 * M ≤ p)
    (h2 : p < 4 + 2 * M + j) : rotPart M j p = p + M := by
  have n0 : ¬ (4 ≤ p ∧ p < 4 + j) := by omega
  have n1 : ¬ (4 + M ≤ p ∧ p < 4 + M + j) := by omega
  rw [rotPart, if_neg n0, if_neg n1, if_pos ⟨h1, h2⟩]

theorem rotPart_blk3 (M j p : Nat) (hj : j ≤ M) (h1 : 4 + 3 * M ≤ p)
    (h2 : p < 4 + 3 * M + j) : rotPart M j p = p - 3 * M := by
  have n0 : ¬ (4 ≤ p ∧ p < 4 + j) := by omega
  have n1 : ¬ (4 + M ≤ p ∧ p < 4 + M + j) := by omega
  have n2 : ¬ (4 + 2 * M ≤ p ∧ p < 4 + 2 * M + j) := by omega
  rw [rotPart, if_neg n0, if_neg n1, if_neg n2, if_pos ⟨h1, h2⟩]

theorem rotPart_off (M j p : Nat) (n0 : ¬ (4 ≤ p ∧ p < 4 + j))
    (n1 : ¬ (4 + M ≤ p ∧ p < 4 + M + j)) (n2 : ¬ (4 + 2 * M ≤ p ∧ p < 4 + 2 * M + j))
    (n3 : ¬ (4 + 3 * M ≤ p ∧ p < 4 + 3 * M + j)) : rotPart M j p = p := by
  rw [rotPart, if_neg n0, if_neg n1, if_neg n2, if_neg n3]

/-- One more pass of the inner loop of `permute` extends the rotated blocks by one slot. -/
theorem rotPart_step (M j p : Nat) (hj : j < M) :
    rotPart M j (swapIdx (4 + j) (4 + j + (M + 2) - 2)
      (swapIdx (4 + j + (M + 2) - 2) (4 + j + 2 * (M + 2) - 4)
        (swapIdx (4 + j + 2 * (M + 2) - 4) (4 + j + 3 * (M + 2) - 6) p))) =
      rotPart M (j + 1) p := by
  rw [swapIdx_cycle _ _ _ _ _ (by omega) (by omega) (by omega) (by omega) (by omega) (by omega)]
  have hle : j ≤ M := by omega
  have hle' : j + 1 ≤ M := by omega
  by_cases h1 : p = 4 + j
  · rw [if_pos h1, rotPart_off M j _ (by omega) (by omega) (by omega) (by omega),
      rotPart_blk0 M (j + 1) p (by omega) (by omega)]
    omega
  · rw [if_neg h1]
    by_cases h2 : p = 4 + j + (M + 2) - 2
    · rw [if_pos h2, rotPart_off M j _ (by omega) (by omega) (by omega) (by omega),
        rotPart_blk1 M (j + 1) p hle' (by omega) (by omega)]
      omega
    · rw [if_neg h2]
      by_cases h3 : p = 4 + j + 2 * (M + 2) - 4
      · rw [if_pos h3, rotPart_off M j _ (by omega) (by omega) (by omega) (by omega),
          rotPart_blk2 M (j + 1) p hle' (by omega) (by omega)]
        omega
      · rw [if_neg h3]
        by_cases h4 : p = 4 + j + 3 * (M + 2) - 6
        · rw [if_pos h4, rotPart_off M j _ (by omega) (by omega) (by omega) (by omega),
            rotPart_blk3 M (j + 1) p hle' (by omega) (by omega)]
          omega
        · rw [if_neg h4]
          have e1 : (4 ≤ p ∧ p < 4 + (j + 1)) ↔ (4 ≤ p ∧ p < 4 + j) := by omega
          have e2 : (4 + M ≤ p ∧ p < 4 + M + (j + 1)) ↔ (4 + M ≤ p ∧ p < 4 + M + j) := by omega
          have e3 : (4 + 2 * M ≤ p ∧ p < 4 + 2 * M + (j + 1)) ↔
              (4 + 2 * M ≤ p ∧ p < 4 + 2 * M + j) := by omega
          have e4 : (4 + 3 * M ≤ p ∧ p < 4 + 3 * M + (j + 1)) ↔
              (4 + 3 * M ≤ p ∧ p < 4 + 3 * M + j) := by omega
          simp only [rotPart, e1, e2, e3, e4]

theorem rot_low (M p : Nat) (h : p < 3) : rot M p = p + 1 := by
  rw [rot, if_pos h]

theorem rot_three (M : Nat) : rot M 3 = 0 := by
  rw [rot, if_neg (by omega), if_pos rfl]

theorem rot_mid (M p : Nat) (h1 : 4 ≤ p) (h2 : p < 4 + 3 * M) : rot M p = p + M := by
  rw [rot, if_neg (by omega), if_neg (by omega), if_pos h2]

theorem rot_high (M p : Nat) (h1 : 4 + 3 * M ≤ p) (h2 : p < 4 + 4 * M) :
    rot M p = p - 3 * M := by
  have n0 : ¬ p < 3 := by omega
  have n1 : ¬ p = 3 := by omega
  have n2 : ¬ p < 4 + 3 * M := by omega
  rw [rot, if_neg n0, if_neg n1, if_neg n2, if_pos h2]

theorem rot_out (M p : Nat) (h1 : 4 + 4 * M ≤ p) : rot M p = p := by
  have n0 : ¬ p < 3 := by omega
  have n1 : ¬ p = 3 := by omega
  have n2 : ¬ p < 4 + 3 * M := by omega
  have n3 : ¬ p < 4 + 4 * M := by omega
  rw [rot, if_neg n0, if_neg n1, if_neg n2, if_neg n3]

/-- After all `M` passes of the inner loop the edge-interior slots are rotated. -/
theorem rotPart_full (M p : Nat) :
    rotPart M M p = if 4 ≤ p then rot M p else p := by
  by_cases h4 : 4 ≤ p
  · rw [if_pos h4]
    by_cases h5 : p < 4 + M
    · rw [rot_mid M p h4 (by omega), rotPart_blk0 M M p h4 h5]
    · by_cases h6 : p < 4 + 2 * M
      · rw [rot_mid M p h4 (by omega), rotPart_blk1 M M p (le_refl M) (by omega) (by omega)]
      · by_cases h7 : p < 4 + 3 * M
        · rw [rot_mid M p h4 h7, rotPart_blk2 M M p (le_refl M) (by omega) (by omega)]
        · by_cases h8 : p < 4 + 4 * M
          · rw [rot_high M p (by omega) h8,
              rotPart_blk3 M M p (le_refl M) (by omega) (by omega)]
          · rw [rot_out M p (by omega),
              rotPart_off M M p (by omega) (by omega) (by omega) (by omega)]
  · rw [if_neg h4, rotPart_off M M p (by omega) (by omega) (by omega) (by omega)]

theorem rot0_eq (p : Nat) :
    swapIdx 0 1 (swapIdx 1 2 (swapIdx 2 3 p)) = rot 0 p := by
  rw [swapIdx_cycle _ _ _ _ _ (by omega) (by omega) (by omega) (by omega) (by omega) (by omega)]
  by_cases h0 : p = 0
  · subst h0; rfl
  · by_cases h1 : p = 1
    · subst h1; rfl
    · by_cases h2 : p = 2
      · subst h2; rfl
      · by_cases h3 : p = 3
        · subst h3; rfl
        · rw [if_neg h0, if_neg h1, if_neg h2, if_neg h3, rot_out 0 p (by omega)]

theorem rot_eq (M p : Nat) :
    swapIdx 0 1 (swapIdx 1 2 (swapIdx 2 3 (rotPart M M p))) = rot M p := by
  rw [rotPart_full]
  by_cases h4 : 4 ≤ p
  · rw [if_pos h4]
    have hge : 4 ≤ rot M p := by
      by_cases h5 : p < 4 + 3 * M
      · rw [rot_mid M p h4 h5]; omega
      · by_cases h6 : p < 4 + 4 * M
        · rw [rot_high M p (by omega) h6]; omega
        · rw [rot_out M p (by omega)]; omega
    rw [swapIdx_other 2 3 _ (by omega) (by omega), swapIdx_other 1 2 _ (by omega) (by omega),
      swapIdx_other 0 1 _ (by omega) (by omega)]
  · rw [if_neg h4, rot0_eq]
    have hp : p < 4 := by omega
    interval_cases p
    · rw [rot_low 0 0 (by omega), rot_low M 0 (by omega)]
    · rw [rot_low 0 1 (by omega), rot_low M 1 (by omega)]
    · rw [rot_low 0 2 (by omega), rot_low M 2 (by omega)]
    · rw [rot_three, rot_three]

theorem rot_four (M : Nat) : (rot M)^[4] = id := by
  funext p
  simp only [Function.iterate_succ, Function.iterate_zero, Function.comp_apply, id_eq]
  by_cases h4 : 4 ≤ p
  · by_cases h5 : p < 4 + M
    · rw [rot_mid M p h4 (by omega), rot_mid M (p + M) (by omega) (by omega),
        rot_mid M (p + M + M) (by omega) (by omega),
        rot_high M (p + M + M + M) (by omega) (by omega)]
      omega
    · by_cases h6 : p < 4 + 2 * M
      · rw [rot_mid M p h4 (by omega), rot_mid M (p + M) (by omega) (by omega),
          rot_high M (p + M + M) (by omega) (by omega),
          rot_mid M (p + M + M - 3 * M) (by omega) (by omega)]
        omega
      · by_cases h7 : p < 4 + 3 * M
        · rw [rot_mid M p h4 (by omega), rot_high M (p + M) (by omega) (by omega),
            rot_mid M (p + M - 3 * M) (by omega) (by omega),
            rot_mid M (p + M - 3 * M + M) (by omega) (by omega)]
          omega
        · by_cases h8 : p < 4 + 4 * M
          · rw [rot_high M p (by omega) (by omega), rot_mid M (p - 3 * M) (by omega) (by omega),
              rot_mid M (p - 3 * M + M) (by omega) (by omega),
              rot_mid M (p - 3 * M + M + M) (by omega) (by omega)]
            omega
          · rw [rot_out M p (by omega), rot_out M p (by omega), rot_out M p (by omega),
              rot_out M p (by omega)]
  · have hp : p < 4 := by omega
    interval_cases p
    · rw [rot_low M 0 (by omega), rot_low M 1 (by omega), rot_low M 2 (by omega), rot_three]
    · rw [rot_low M 1 (by omega), rot_low M 2 (by omega), rot_three, rot_low M 0 (by omega)]
    · rw [rot_low M 2 (by omega), rot_three, rot_low M 0 (by omega), rot_low M 1 (by omega)]
    · rw [rot_three, rot_low M 0 (by omega), rot_low M 1 (by omega), rot_low M 2 (by omega)]

theorem sq_bound (M : Nat) : 4 + 4 * M ≤ (M + 2) * (M + 2) := by nlinarith

theorem permute_inner_spec {ν : Type} (M : Nat) (l : List ν) (hl : l.length = (M + 2) * (M + 2))
    (j : Nat) (hj : j ≤ M) :
    ∃ r, forRange (fun j nodes =>
        swap4nodes nodes (4 + j) (4 + j + (M + 2) - 2) (4 + j + 2 * (M + 2) - 4)
          (4 + j + 3 * (M + 2) - 6)) 0 j l = .ok r ∧
      r.length = l.length ∧ ∀ p, r[p]? = l[rotPart M j p]? := by
  induction j with
  | zero =>
    refine ⟨l, rfl, rfl, ?_⟩
    intro p
    have : rotPart M 0 p = p := by
      simp only [rotPart]; split_ifs <;> omega
    rw [this]
  | succ j ih =>
    obtain ⟨r, hr, hlen, hget⟩ := ih (by omega)
    have hb := sq_bound M
    obtain ⟨r', hr', hlen', hget'⟩ := swap4nodes_spec r (4 + j) (4 + j + (M + 2) - 2)
      (4 + j + 2 * (M + 2) - 4) (4 + j + 3 * (M + 2) - 6)
      (by omega) (by omega) (by omega) (by omega)
    refine ⟨r', ?_, by omega, ?_⟩
    · simp only [forRange, hr, Res.bind_ok, Nat.zero_add]
      exact hr'
    · intro p
      rw [hget', hget, rotPart_step M j p (by omega)]

theorem permute_step_spec {ν η : Type} (N : Nat) (hN : 2 ≤ N) (e : Elem ν η)
    (hn : e.nodes.length = N * N) (hnb : e.neighbors.length = 4) :
    ∃ e', permute_step N e = .ok e' ∧ e'.nodes.length = N * N ∧ e'.neighbors.length = 4 ∧
      (∀ p, e'.nodes[p]? = e.nodes[rot (N - 2) p]?) ∧
      (∀ p, e'.neighbors[p]? = e.neighbors[rot 0 p]?) := by
  obtain ⟨M, rfl⟩ : ∃ M, N = M + 2 := ⟨N - 2, by omega⟩
  have hb := sq_bound M
  obtain ⟨l1, h1, hl1, hg1⟩ := swap4nodes_spec e.nodes 0 1 2 3
    (by omega) (by omega) (by omega) (by omega)
  obtain ⟨l2, h2, hl2, hg2⟩ := permute_inner_spec M l1 (by omega) M (le_refl M)
  obtain ⟨n1, h3, hl3, hg3⟩ := swap4nodes_spec e.neighbors 0 1 2 3
    (by omega) (by omega) (by omega) (by omega)
  refine ⟨⟨l2, n1⟩, ?_, by simp; omega, by simp; omega, ?_, ?_⟩
  · simp only [permute_step, Res.bind_eq_bind, h1, Res.bind_ok, Nat.add_sub_cancel, swap4neighbors,
      h3, Res.pure_eq_ok]
    rw [h2]
    rfl
  · intro p
    simp only [Nat.add_sub_cancel]
    rw [hg2, hg1, rot_eq]
  · intro p
    simp only
    rw [hg3, rot0_eq]

theorem permute_loop_spec {ν η : Type} (N : Nat) (hN : 2 ≤ N) (k : Nat) (e : Elem ν η)
    (hn : e.nodes.length = N * N) (hnb : e.neighbors.length = 4) :
    ∃ e', forRange (fun _ e => permute_step N e) 0 k e = .ok e' ∧
      e'.nodes.length = N * N ∧ e'.neighbors.length = 4 ∧
      (∀ p, e'.nodes[p]? = e.nodes[(rot (N - 2))^[k] p]?) ∧
      (∀ p, e'.neighbors[p]? = e.neighbors[(rot 0)^[k] p]?) := by
  induction k with
  | zero => exact ⟨e, rfl, hn, hnb, fun _ => rfl, fun _ => rfl⟩
  | succ k ih =>
    obtain ⟨e1, h1, hn1, hnb1, hg1, hb1⟩ := ih
    obtain ⟨e2, h2, hn2, hnb2, hg2, hb2⟩ := permute_step_spec N hN e1 hn1 hnb1
    refine ⟨e2, ?_, hn2, hnb2, ?_, ?_⟩
    · simp only [forRange, h1, Res.bind_ok]
      exact h2
    · intro p
      rw [hg2, hg1, Function.iterate_succ_apply]
    · intro p
      rw [hb2, hb1, Function.iterate_succ_apply]

/-- Effect of `permute(k)`: slot `p` afterwards holds what slot `rot^k p` held. -/
theorem permute_spec {ν η : Type} (N : Nat) (hN : 2 ≤ N) (k : Nat) (hk : k < 4) (e : Elem ν η)
    (hn : e.nodes.length = N * N) (hnb : e.neighbors.length = 4) :
    ∃ e', permute N e k = .ok e' ∧
      e'.nodes.length = N * N ∧ e'.neighbors.length = 4 ∧
      (∀ p, e'.nodes[p]? = e.nodes[(rot (N - 2))^[k] p]?) ∧
      (∀ p, e'.neighbors[p]? = e.neighbors[(rot 0)^[k] p]?) := by
  obtain ⟨e', h, rest⟩ := permute_loop_spec N hN k e hn hnb
  refine ⟨e', ?_, rest⟩
  simp only [permute, Res.bind_eq_bind, libmesh_assert_of (decide_eq_true hk), Res.bind_ok]
  exact h

theorem iterate_four_mul (f : Nat → Nat) (h : f^[4] = id) (k : Nat) (p : Nat) :
    f^[k] (f^[k] (f^[k] (f^[k] p))) = p := by
  have h1 : f^[k] (f^[k] (f^[k] (f^[k] p))) = (f^[k])^[4] p := by
    simp only [Function.iterate_succ, Function.iterate_zero, Function.comp_apply, id_eq]
  rw [h1, ← Function.iterate_mul, Nat.mul_comm, Function.iterate_mul, h, Function.iterate_id]
  rfl

/-- C5: for `N ≥ 2`, `k` in `0..3` and a quad state with `N^2` node slots and 4 neighbour
entries, four successive calls of `permute(k)` all succeed and return the node table and
the neighbour table to their original contents. -/
theorem permute_four_times {ν η : Type} (N k : Nat) (e : Elem ν η) (hN : 2 ≤ N) (hk : k < 4)
    (hn : e.nodes.length = N * N) (hnb : e.neighbors.length = 4) :
    (((permute N e k).bind (fun e1 => permute N e1 k)).bind
      (fun e2 => permute N e2 k)).bind (fun e3 => permute N e3 k) = .ok e := by
  obtain ⟨e1, h1, hn1, hnb1, hg1, hb1⟩ := permute_spec N hN k hk e hn hnb
  obtain ⟨e2, h2, hn2, hnb2, hg2, hb2⟩ := permute_spec N hN k hk e1 hn1 hnb1
  obtain ⟨e3, h3, hn3, hnb3, hg3, hb3⟩ := permute_spec N hN k hk e2 hn2 hnb2
  obtain ⟨e4, h4, hn4, hnb4, hg4, hb4⟩ := permute_spec N hN k hk e3 hn3 hnb3
  simp only [h1, h2, h3, h4, Res.bind_ok]
  congr 1
  have hnodes : e4.nodes = e.nodes := by
    apply List.ext_getElem?
    intro p
    rw [hg4, hg3, hg2, hg1, iterate_four_mul _ (rot_four _)]
  have hneigh : e4.neighbors = e.neighbors := by
    apply List.ext_getElem?
    intro p
    rw [hb4, hb3, hb2, hb1, iterate_four_mul _ (rot_four _)]
  cases e4; cases e
  simp only at hnodes hneigh
  rw [hnodes, hneigh]

/-- Witness of C5: a 9-node quad turned four times by `permute(1)`. -/
theorem permute_four_times_witness :
    (((permute 3 (⟨[10, 11, 12, 13, 14, 15, 16, 17, 18], [0, 1, 2, 3]⟩ : Elem Nat Nat) 1).bind
      (fun e1 => permute 3 e1 1)).bind (fun e2 => permute 3 e2 1)).bind
        (fun e3 => permute 3 e3 1) = .ok ⟨[10, 11, 12, 13, 14, 15, 16, 17, 18], [0, 1, 2, 3]⟩ :=
  permute_four_times 3 1 _ (by decide) (by decide) (by decide) (by decide)

end QuadNSq

/-- A loop with early `return false` yields `true` exactly when every pass does. -/
theorem allRange_spec (body : Nat → Res Bool) (lo n : Nat) (P : Nat → Prop)
    (h : ∀ i, i < n → ∃ r, body (lo + i) = .ok r ∧ (r = true ↔ P (lo + i))) :
    ∃ r, allRange body lo n = .ok r ∧ (r = true ↔ ∀ i, i < n → P (lo + i)) := by
  induction n with
  | zero => exact ⟨true, rfl, by simp⟩
  | succ n ih =>
    obtain ⟨r, hr, hiff⟩ := ih (fun i hi => h i (by omega))
    obtain ⟨b, hb, hbiff⟩ := h n (by omega)
    cases r with
    | false =>
      refine ⟨false, by simp [allRange, hr], ?_⟩
      constructor
      · intro hf; cases hf
      · intro hall
        have : (false = true) := hiff.mpr (fun i hi => hall i (by omega))
        cases this
    | true =>
      refine ⟨b, by simp [allRange, hr, hb], ?_⟩
      constructor
      · intro hbt i hi
        rcases Nat.lt_succ_iff_lt_or_eq.mp hi with hlt | heq
        · exact hiff.mp rfl i hlt
        · subst heq; exact hbiff.mp hbt
      · intro hall
        exact hbiff.mpr (hall n (by omega))

theorem point_eq (pts : List Point) (k : Nat) (h : k < pts.length) :
    point pts k = .ok (pts.getD k 0) := by
  simp [point, node_ptr, List.getD, List.getElem?_eq_getElem h]

theorem Point.div_apply (v : Point) (c : ℚ) (k : Fin 3) : Point.div v c k = v k / c := rfl

theorem Point.mul_eq_smul (v : Point) (a : ℚ) : v.mul a = a • v := by
  funext x
  simp only [Point.mul, Pi.smul_apply, smul_eq_mul]
  ring

theorem Point.smul_div_cancel (v : Point) (c : ℚ) (hc : c ≠ 0) : c • v.div c = v := by
  funext x
  simp only [Point.div, Pi.smul_apply, smul_eq_mul]
  field_simp

theorem getD_of_getElem? {α : Type} (l : List α) (n : Nat) (d x : α) (h : l[n]? = some x) :
    l.getD n d = x := by
  simp [List.getD, h]

theorem getD_set_ne {α : Type} (l : List α) (n k : Nat) (d x : α) (h : k ≠ n) :
    (l.set n x).getD k d = l.getD k d := by
  simp [List.getD, List.getElem?_set, Ne.symm h]

theorem getD_set_self {α : Type} (l : List α) (n : Nat) (d x : α) (h : n < l.length) :
    (l.set n x).getD n d = x := by
  simp [List.getD, List.getElem?_set, h]

theorem Point.div_mul_eq (v : Point) (c a : ℚ) : (v.div c).mul a = (a / c) • v := by
  funext x
  simp only [Point.div, Point.mul, Pi.smul_apply, smul_eq_mul]
  ring

namespace EdgeN

/-- `EdgeN::has_affine_map` returns, and returns `true` exactly when every check passes. -/
theorem edge_affine_spec (feq : Point → Point → Bool) (N : Nat) (hN : 2 ≤ N)
    (pts : List Point) (hlen : pts.length = N) :
    ∃ r, has_affine_map feq N pts = .ok r ∧
      (r = true ↔ ∀ i, i < N - 2 →
        feq (((pts.getD 1 0 - pts.getD 0 0).div ((N - 1 : Nat) : ℚ)).mul ((1 + i : Nat) : ℚ))
          (pts.getD (1 + i + 1) 0 - pts.getD 0 0) = true) := by
  have h0 : point pts 0 = .ok (pts.getD 0 0) := point_eq pts 0 (by omega)
  have h1 : point pts 1 = .ok (pts.getD 1 0) := point_eq pts 1 (by omega)
  simp only [has_affine_map, Res.bind_eq_bind, h0, h1, Res.bind_ok]
  have e : N - 1 - 1 = N - 2 := by omega
  rw [e]
  apply allRange_spec _ 1 (N - 2) (fun i =>
    feq (((pts.getD 1 0 - pts.getD 0 0).div ((N - 1 : Nat) : ℚ)).mul ((i : Nat) : ℚ))
          (pts.getD (i + 1) 0 - pts.getD 0 0) = true)
  intro i hi
  refine ⟨_, ?_, Iff.rfl⟩
  simp only [point_eq pts (1 + i + 1) (by omega), Res.bind_ok, Res.pure_eq_ok]

theorem expected_eq (N i : Nat) (hN : 2 ≤ N) (v : Point) :
    (v.div ((N - 1 : Nat) : ℚ)).mul ((1 + i : Nat) : ℚ) =
      ((((i + 2 : Nat) : ℚ) - 1) / ((N : ℚ) - 1)) • v := by
  rw [Point.div_mul_eq, Nat.cast_sub (by omega : 1 ≤ N)]
  push_cast
  congr 2
  ring

/-- C10: for `N ≥ 2`, in exact arithmetic, `EdgeN::has_affine_map` returns `true` whenever
every interior node `k` in `2..N-1` satisfies `P_k - P0 = (k-1)*(P1-P0)/(N-1)` (the
comparison accepting equal vectors); with zero tolerance (the comparison being equality)
it returns `true` only in that case; and for `N = 2` it returns `true` for every pair of
endpoints. -/
theorem has_affine_map_uniform (N : Nat) (pts : List Point) (hN : 2 ≤ N)
    (hlen : pts.length = N) :
    (∀ feq : Point → Point → Bool, (∀ v, feq v v = true) → Uniform N pts →
        has_affine_map feq N pts = .ok true) ∧
    (∀ feq : Point → Point → Bool, (∀ a b, feq a b = true ↔ a = b) →
        (has_affine_map feq N pts = .ok true ↔ Uniform N pts)) ∧
    (N = 2 → ∀ feq : Point → Point → Bool, has_affine_map feq N pts = .ok true) := by
  refine ⟨?_, ?_, ?_⟩
  · intro feq hrefl hu
    obtain ⟨r, hr, hiff⟩ := edge_affine_spec feq N hN pts hlen
    have : r = true := by
      apply hiff.mpr
      intro i hi
      rw [expected_eq N i hN, ← hu (i + 2) (by omega) (by omega)]
      have e : 1 + i + 1 = i + 2 := by omega
      rw [e]
      exact hrefl _
    rw [hr, this]
  · intro feq hex
    obtain ⟨r, hr, hiff⟩ := edge_affine_spec feq N hN pts hlen
    rw [hr]
    constructor
    · intro h k hk2 hkN
      have hrt : r = true := by injection h
      have := hiff.mp hrt (k - 2) (by omega)
      rw [hex, expected_eq N (k - 2) hN] at this
      have e1 : 1 + (k - 2) + 1 = k := by omega
      have e2 : k - 2 + 2 = k := by omega
      rw [e1, e2] at this
      exact this.symm
    · intro hu
      have : r = true := by
        apply hiff.mpr
        intro i hi
        rw [hex, expected_eq N i hN, ← hu (i + 2) (by omega) (by omega)]
        have e : 1 + i + 1 = i + 2 := by omega
        rw [e]
      rw [this]
  · intro h2 feq
    obtain ⟨r, hr, hiff⟩ := edge_affine_spec feq N hN pts hlen
    have : r = true := by
      apply hiff.mpr
      intro i hi
      omega
    rw [hr, this]

/-- Witness of C10: a 3-node edge with its midpoint node. -/
theorem has_affine_map_uniform_witness :
    (∀ feq : Point → Point → Bool, (∀ v, feq v v = true) →
        Uniform 3 [![0, 0, 0], ![2, 4, 0], ![1, 2, 0]] →
        has_affine_map feq 3 [![0, 0, 0], ![2, 4, 0], ![1, 2, 0]] = .ok true) ∧
    (∀ feq : Point → Point → Bool, (∀ a b, feq a b = true ↔ a = b) →
        (has_affine_map feq 3 [![0, 0, 0], ![2, 4, 0], ![1, 2, 0]] = .ok true ↔
          Uniform 3 [![0, 0, 0], ![2, 4, 0], ![1, 2, 0]])) ∧
    (3 = 2 → ∀ feq : Point → Point → Bool,
        has_affine_map feq 3 [![0, 0, 0], ![2, 4, 0], ![1, 2, 0]] = .ok true) :=
  has_affine_map_uniform 3 [![0, 0, 0], ![2, 4, 0], ![1, 2, 0]] (by decide) (by decide)

/-- C3 (the code departs from the claim): on a 4-node edge (`N = 4`) `flip` does not
complete: its loop calls `swap2nodes(2, 4)` and slot 4 does not exist, so neither one
call nor two calls return the original state. -/
theorem flip_four_nodes_fails :
    flip 4 (⟨[0, 1, 2, 3], [100, 101]⟩ : Elem Nat Nat)
        (some (⟨[20, 21], []⟩ : BoundaryInfo Nat)) = .fail .assertion ∧
      (flip 4 (⟨[0, 1, 2, 3], [100, 101]⟩ : Elem Nat Nat)
          (some (⟨[20, 21], []⟩ : BoundaryInfo Nat))).bind
        (fun r => flip 4 r.1 (some r.2)) ≠
        .ok (⟨[0, 1, 2, 3], [100, 101]⟩, ⟨[20, 21], []⟩) := by
  decide

/-- C4 (the code departs from the claim): on a 5-node edge (`N = 5`) `flip` does not
return the reversed edge `[1, 0, 4, 3, 2]`: after exchanging slots 0 and 1 its loop
calls `swap2nodes(2, 5)`, which is out of range, where the mirrored slot is 4. -/
theorem flip_five_nodes_not_reversed :
    swap2nodes [1, 0, 2, 3, 4] (2 + 0) (5 - 0) = .fail .assertion ∧
      flip 5 (⟨[0, 1, 2, 3, 4], [100, 101]⟩ : Elem Nat Nat)
          (some (⟨[20, 21], []⟩ : BoundaryInfo Nat)) ≠
        .ok (⟨[1, 0, 4, 3, 2], [101, 100]⟩, ⟨[21, 20], []⟩) := by
  decide

end EdgeN

namespace QuadNSq

theorem face_index_bound (M i j : Nat) (hi : i < M) (hj : j < M) :
    3 * (M + 2) - 3 + (M + 2 - 2) * (1 + i) + (1 + j) < (M + 2) * (M + 2) := by
  have h1 : M * (1 + i) ≤ M * M := Nat.mul_le_mul_left M (by omega)
  have h2 : (M + 2) * (M + 2) = M * M + 4 * M + 4 := by ring
  have h3 : 3 * (M + 2) - 3 = 3 * M + 3 := by omega
  rw [Nat.add_sub_cancel, h2, h3]
  omega

/-- `QuadNSq::has_affine_map` returns, and returns `true` exactly when the parallelogram
check and every check of every pass hold. -/
theorem quad_affine_spec (feq : Point → Point → Bool) (N : Nat) (hN : 2 ≤ N)
    (pts : List Point) (hlen : pts.length = N * N) :
    ∃ r, has_affine_map feq N pts = .ok r ∧
      (r = true ↔
        feq (pts.getD 1 0 - pts.getD 0 0) (pts.getD 2 0 - pts.getD 3 0) = true ∧
        ∀ i, i < N - 2 → SideChecks feq N pts (1 + i)) := by
  obtain ⟨M, rfl⟩ : ∃ M, N = M + 2 := ⟨N - 2, by omega⟩
  have hb := sq_bound M
  have h0 : point pts 0 = .ok (pts.getD 0 0) := point_eq pts 0 (by omega)
  have h1 : point pts 1 = .ok (pts.getD 1 0) := point_eq pts 1 (by omega)
  have h2 : point pts 2 = .ok (pts.getD 2 0) := point_eq pts 2 (by omega)
  have h3 : point pts 3 = .ok (pts.getD 3 0) := point_eq pts 3 (by omega)
  simp only [has_affine_map, Res.bind_eq_bind, h0, h1, h2, h3, Res.bind_ok]
  cases hc : feq (pts.getD 1 0 - pts.getD 0 0) (pts.getD 2 0 - pts.getD 3 0) with
  | false => exact ⟨false, by simp, by simp⟩
  | true =>
    have e : M + 2 - 1 - 1 = M + 2 - 2 := by omega
    simp only [Bool.not_true, Bool.false_eq_true, if_false, e, true_and]
    apply allRange_spec _ 1 (M + 2 - 2) (SideChecks feq (M + 2) pts)
    intro i hi
    have hi' : i < M := by omega
    have ha : point pts (3 + (1 + i)) = .ok (pts.getD (3 + (1 + i)) 0) :=
      point_eq pts _ (by omega)
    have hbb : point pts (3 * (M + 2) - 2 - (1 + i)) =
        .ok (pts.getD (3 * (M + 2) - 2 - (1 + i)) 0) := point_eq pts _ (by omega)
    have hcc : point pts (M + 2 + 1 + (1 + i)) = .ok (pts.getD (M + 2 + 1 + (1 + i)) 0) :=
      point_eq pts _ (by omega)
    have hd : point pts (4 * (M + 2) - 4 - (1 + i)) =
        .ok (pts.getD (4 * (M + 2) - 4 - (1 + i)) 0) := point_eq pts _ (by omega)
    obtain ⟨ri, hri, hiffi⟩ := allRange_spec (fun j => do
        let v : Point := ((pts.getD 3 0 - pts.getD 0 0).div ((M + 2 - 1 : Nat) : ℚ)).mul
            ((1 + i : Nat) : ℚ) +
          ((pts.getD 1 0 - pts.getD 0 0).div ((M + 2 - 1 : Nat) : ℚ)).mul (j : ℚ)
        let f ← point pts (3 * (M + 2) - 3 + (M + 2 - 2) * (1 + i) + j)
        pure (feq v (f - pts.getD 0 0))) 1 (M + 2 - 2)
      (fun j => feq (((pts.getD 3 0 - pts.getD 0 0).div ((M + 2 - 1 : Nat) : ℚ)).mul
            ((1 + i : Nat) : ℚ) +
          ((pts.getD 1 0 - pts.getD 0 0).div ((M + 2 - 1 : Nat) : ℚ)).mul ((j : Nat) : ℚ))
          (pts.getD (3 * (M + 2) - 3 + (M + 2 - 2) * (1 + i) + j) 0 - pts.getD 0 0) = true)
      (by
        intro j hj
        refine ⟨_, ?_, Iff.rfl⟩
        simp only [point_eq pts _ (by rw [hlen]; exact face_index_bound M i j hi' (by omega)),
          Res.bind_eq_bind, Res.bind_ok, Res.pure_eq_ok])
    simp only [Res.bind_eq_bind, ha, hbb, hcc, hd, Res.bind_ok, Res.pure_eq_ok]
    simp only [Res.bind_eq_bind] at hri
    unfold SideChecks
    cases hc1 : feq (((pts.getD 1 0 - pts.getD 0 0).div ((M + 2 - 1 : Nat) : ℚ)).mul
        ((1 + i : Nat) : ℚ)) (pts.getD (3 + (1 + i)) 0 - pts.getD 0 0) with
    | false => exact ⟨false, by simp, by simp⟩
    | true =>
      cases hc2 : feq (((pts.getD 1 0 - pts.getD 0 0).div ((M + 2 - 1 : Nat) : ℚ)).mul
          ((1 + i : Nat) : ℚ)) (pts.getD (3 * (M + 2) - 2 - (1 + i)) 0 - pts.getD 3 0) with
      | false => exact ⟨false, by simp, by simp⟩
      | true =>
        cases hc3 : feq (((pts.getD 3 0 - pts.getD 0 0).div ((M + 2 - 1 : Nat) : ℚ)).mul
            ((1 + i : Nat) : ℚ)) (pts.getD (M + 2 + 1 + (1 + i)) 0 - pts.getD 1 0) with
        | false => exact ⟨false, by simp, by simp⟩
        | true =>
          cases hc4 : feq (((pts.getD 3 0 - pts.getD 0 0).div ((M + 2 - 1 : Nat) : ℚ)).mul
              ((1 + i : Nat) : ℚ)) (pts.getD (4 * (M + 2) - 4 - (1 + i)) 0 - pts.getD 0 0) with
          | false => exact ⟨false, by simp, by simp⟩
          | true =>
            refine ⟨ri, ?_, ?_⟩
            · simp only [Bool.not_true, Bool.false_eq_true, if_false]
              exact hri
            · simp only [true_and]
              exact hiffi


/-- Grid coordinates of a non-corner node. -/
theorem gridCoord_noncorner (N n : Nat) (h : 4 ≤ n) :
    gridCoord N n =
      if n < 4 + (N - 2) then (n - 4 + 1, 0)
      else if n < 4 + 2 * (N - 2) then (N - 1, n - (4 + (N - 2)) + 1)
      else if n < 4 + 3 * (N - 2) then (N - 1 - (n - (4 + 2 * (N - 2)) + 1), N - 1)
      else if n < 4 + 4 * (N - 2) then (0, N - 1 - (n - (4 + 3 * (N - 2)) + 1))
      else ((n - (4 + 4 * (N - 2))) % (N - 2) + 1, (n - (4 + 4 * (N - 2))) / (N - 2) + 1) := by
  have h0 : ¬ n = 0 := by omega
  have h1 : ¬ n = 1 := by omega
  have h2 : ¬ n = 2 := by omega
  have h3 : ¬ n = 3 := by omega
  rw [gridCoord, if_neg h0, if_neg h1, if_neg h2, if_neg h3]

theorem gridCoord_side0 (N i : Nat) (h1 : 1 ≤ i) (h2 : i ≤ N - 2) :
    gridCoord N (3 + i) = (i, 0) := by
  rw [gridCoord_noncorner N _ (by omega), if_pos (by omega)]
  congr 1
  omega

theorem gridCoord_side1 (N i : Nat) (h1 : 1 ≤ i) (h2 : i ≤ N - 2) :
    gridCoord N (N + 1 + i) = (N - 1, i) := by
  rw [gridCoord_noncorner N _ (by omega), if_neg (by omega), if_pos (by omega)]
  congr 1
  omega

theorem gridCoord_side2 (N i : Nat) (h1 : 1 ≤ i) (h2 : i ≤ N - 2) :
    gridCoord N (3 * N - 2 - i) = (i, N - 1) := by
  rw [gridCoord_noncorner N _ (by omega), if_neg (by omega), if_neg (by omega),
    if_pos (by omega)]
  congr 1
  omega

theorem gridCoord_side3 (N i : Nat) (h1 : 1 ≤ i) (h2 : i ≤ N - 2) :
    gridCoord N (4 * N - 4 - i) = (0, i) := by
  rw [gridCoord_noncorner N _ (by omega), if_neg (by omega), if_neg (by omega),
    if_neg (by omega), if_pos (by omega)]
  congr 1
  omega

theorem gridCoord_face (N i j : Nat) (hi1 : 1 ≤ i) (hi2 : i ≤ N - 2) (hj1 : 1 ≤ j)
    (hj2 : j ≤ N - 2) :
    gridCoord N (3 * N - 3 + (N - 2) * i + j) = (j, i) := by
  obtain ⟨M, rfl⟩ : ∃ M, N = M + 2 := ⟨N - 2, by omega⟩
  obtain ⟨i', rfl⟩ : ∃ i', i = i' + 1 := ⟨i - 1, by omega⟩
  obtain ⟨j', rfl⟩ : ∃ j', j = j' + 1 := ⟨j - 1, by omega⟩
  have hj' : j' < M := by omega
  have e : 3 * (M + 2) - 3 + (M + 2 - 2) * (i' + 1) + (j' + 1) =
      4 + 4 * M + (M * i' + j') := by
    have e0 : M * (i' + 1) = M * i' + M := by ring
    rw [Nat.add_sub_cancel, e0]
    omega
  have c3 : ¬ 4 + 4 * M + (M * i' + j') < 4 + 3 * (M + 2 - 2) := by omega
  have c4 : ¬ 4 + 4 * M + (M * i' + j') < 4 + 4 * (M + 2 - 2) := by omega
  rw [e, gridCoord_noncorner _ _ (by omega), if_neg (by omega), if_neg (by omega), if_neg c3,
    if_neg c4]
  have e2 : 4 + 4 * M + (M * i' + j') - (4 + 4 * (M + 2 - 2)) = M * i' + j' := by omega
  rw [e2, Nat.add_sub_cancel, Nat.mul_add_mod, Nat.mod_eq_of_lt hj',
    Nat.mul_add_div (by omega), Nat.div_eq_of_lt hj']

theorem gridCoord_two (N : Nat) : gridCoord N 2 = (N - 1, N - 1) := by
  rw [gridCoord, if_neg (by omega), if_neg (by omega), if_pos rfl]


/-- On a regular grid every node is at its grid position. -/
theorem regularGrid_getD {N : Nat} {pts : List Point} (h : RegularGrid N pts) (n : Nat)
    (hn : n < N * N) :
    pts.getD n 0 = gridPoint N (pts.getD 0 0)
        ((pts.getD 1 0 - pts.getD 0 0).div ((N - 1 : Nat) : ℚ))
        ((pts.getD 3 0 - pts.getD 0 0).div ((N - 1 : Nat) : ℚ)) n :=
  getD_of_getElem? pts n 0 _ (h.2 n hn)

/-- Offsets of the nodes of a regular grid from the corner each check uses. -/
theorem grid_offsets (N : Nat) (hN : 2 ≤ N) (P0 P1 P3 : Point) :
    (gridPoint N P0 ((P1 - P0).div ((N - 1 : Nat) : ℚ)) ((P3 - P0).div ((N - 1 : Nat) : ℚ)) 2
        - P3 = P1 - P0) ∧
    ∀ i, 1 ≤ i → i ≤ N - 2 →
      (gridPoint N P0 ((P1 - P0).div ((N - 1 : Nat) : ℚ)) ((P3 - P0).div ((N - 1 : Nat) : ℚ))
          (3 + i) - P0 = ((P1 - P0).div ((N - 1 : Nat) : ℚ)).mul (i : ℚ)) ∧
      (gridPoint N P0 ((P1 - P0).div ((N - 1 : Nat) : ℚ)) ((P3 - P0).div ((N - 1 : Nat) : ℚ))
          (3 * N - 2 - i) - P3 = ((P1 - P0).div ((N - 1 : Nat) : ℚ)).mul (i : ℚ)) ∧
      (gridPoint N P0 ((P1 - P0).div ((N - 1 : Nat) : ℚ)) ((P3 - P0).div ((N - 1 : Nat) : ℚ))
          (N + 1 + i) - P1 = ((P3 - P0).div ((N - 1 : Nat) : ℚ)).mul (i : ℚ)) ∧
      (gridPoint N P0 ((P1 - P0).div ((N - 1 : Nat) : ℚ)) ((P3 - P0).div ((N - 1 : Nat) : ℚ))
          (4 * N - 4 - i) - P0 = ((P3 - P0).div ((N - 1 : Nat) : ℚ)).mul (i : ℚ)) ∧
      ∀ j, 1 ≤ j → j ≤ N - 2 →
        gridPoint N P0 ((P1 - P0).div ((N - 1 : Nat) : ℚ)) ((P3 - P0).div ((N - 1 : Nat) : ℚ))
          (3 * N - 3 + (N - 2) * i + j) - P0 =
          ((P3 - P0).div ((N - 1 : Nat) : ℚ)).mul (i : ℚ) +
            ((P1 - P0).div ((N - 1 : Nat) : ℚ)).mul (j : ℚ) := by
  have hc : ((N - 1 : Nat) : ℚ) ≠ 0 := Nat.cast_ne_zero.mpr (by omega)
  have hu := Point.smul_div_cancel (P1 - P0) _ hc
  have hw := Point.smul_div_cancel (P3 - P0) _ hc
  generalize (P1 - P0).div ((N - 1 : Nat) : ℚ) = u at hu ⊢
  generalize (P3 - P0).div ((N - 1 : Nat) : ℚ) = w at hw ⊢
  refine ⟨?_, ?_⟩
  · rw [gridPoint, gridCoord_two, hu, hw]
    abel
  · intro i h1 h2
    refine ⟨?_, ?_, ?_, ?_, ?_⟩
    · rw [gridPoint, gridCoord_side0 N i h1 h2, Point.mul_eq_smul]
      simp
    · rw [gridPoint, gridCoord_side2 N i h1 h2, Point.mul_eq_smul, hw]
      abel
    · rw [gridPoint, gridCoord_side1 N i h1 h2, Point.mul_eq_smul, hu]
      abel
    · rw [gridPoint, gridCoord_side3 N i h1 h2, Point.mul_eq_smul]
      simp
    · intro j hj1 hj2
      rw [gridPoint, gridCoord_face N i j h1 h2 hj1 hj2, Point.mul_eq_smul, Point.mul_eq_smul]
      abel

/-- A concrete regular grid: nine nodes with unit steps. -/
theorem grid3_regular :
    RegularGrid 3 [![0, 0, 0], ![2, 0, 0], ![2, 2, 0], ![0, 2, 0], ![1, 0, 0], ![2, 1, 0],
      ![1, 2, 0], ![0, 1, 0], ![1, 1, 0]] := by
  refine ⟨rfl, ?_⟩
  intro n hn
  have hn' : n < 9 := hn
  interval_cases n <;>
    simp only [gridPoint, gridCoord, List.getD, List.getElem?_cons_zero, List.getElem?_cons_succ,
      Option.getD_some, Option.some.injEq] <;>
    (funext k
     simp only [Pi.add_apply, Pi.smul_apply, Pi.sub_apply, Point.div_apply, smul_eq_mul]
     fin_cases k <;> norm_num)

/-- C8: for `N ≥ 2`, in exact arithmetic and with a tolerance comparison that accepts
equal vectors, `has_affine_map` returns `true` when the nodes form a perfectly regular
`N x N` grid over a parallelogram in the documented numbering. -/
theorem has_affine_map_regular_grid (feq : Point → Point → Bool) (N : Nat) (pts : List Point)
    (hfeq : ∀ v, feq v v = true) (hN : 2 ≤ N) (hgrid : RegularGrid N pts) :
    has_affine_map feq N pts = .ok true := by
  obtain ⟨r, hr, hiff⟩ := quad_affine_spec feq N hN pts hgrid.1
  have hb : 4 + 4 * (N - 2) ≤ N * N := by
    obtain ⟨M, rfl⟩ : ∃ M, N = M + 2 := ⟨N - 2, by omega⟩
    exact sq_bound M
  obtain ⟨hpar, hoff⟩ := grid_offsets N hN (pts.getD 0 0) (pts.getD 1 0) (pts.getD 3 0)
  have hrt : r = true := by
    apply hiff.mpr
    refine ⟨?_, ?_⟩
    · rw [regularGrid_getD hgrid 2 (by omega), hpar]
      exact hfeq _
    · intro i hi
      obtain ⟨o0, o2, o1, o3, oface⟩ := hoff (1 + i) (by omega) (by omega)
      refine ⟨?_, ?_, ?_, ?_, ?_⟩
      · rw [regularGrid_getD hgrid (3 + (1 + i)) (by omega), o0]
        exact hfeq _
      · rw [regularGrid_getD hgrid (3 * N - 2 - (1 + i)) (by omega), o2]
        exact hfeq _
      · rw [regularGrid_getD hgrid (N + 1 + (1 + i)) (by omega), o1]
        exact hfeq _
      · rw [regularGrid_getD hgrid (4 * N - 4 - (1 + i)) (by omega), o3]
        exact hfeq _
      · intro j hj
        have hlt : 3 * N - 3 + (N - 2) * (1 + i) + (1 + j) < N * N := by
          obtain ⟨M, rfl⟩ : ∃ M, N = M + 2 := ⟨N - 2, by omega⟩
          exact face_index_bound M i j (by omega) (by omega)
        rw [regularGrid_getD hgrid _ hlt, oface (1 + j) (by omega) (by omega)]
        exact hfeq _
  rw [hr, hrt]


/-- Witness of C8: the 9-node unit-step grid over the square with corners
`(0,0), (2,0), (2,2), (0,2)`, compared exactly. -/
theorem has_affine_map_regular_grid_witness :
    has_affine_map (fun a b => decide (a = b)) 3
      [![0, 0, 0], ![2, 0, 0], ![2, 2, 0], ![0, 2, 0], ![1, 0, 0], ![2, 1, 0],
        ![1, 2, 0], ![0, 1, 0], ![1, 1, 0]] = .ok true :=
  has_affine_map_regular_grid _ 3 _ (fun v => by simp) (by decide) grid3_regular

/-- C9: for `N ≥ 3`, starting from a perfectly regular grid, moving a single edge-interior
or face-interior node `n` (`4 ≤ n < N^2`) to a position `Q` that fails the tolerance
comparison against its regular grid position (the old position of node `n`, both taken
relative to the one corner from which the code measures node `n`) makes
`has_affine_map` return `false`: every non-corner node is compared with its own grid
position by some check. -/
theorem has_affine_map_perturbed (feq : Point → Point → Bool) (N : Nat) (pts : List Point)
    (n : Nat) (Q : Point) (hN : 3 ≤ N) (hgrid : RegularGrid N pts) (h4 : 4 ≤ n)
    (hn : n < N * N)
    (hQ : feq (pts.getD n 0 - pts.getD (check_corner N n) 0)
      (Q - pts.getD (check_corner N n) 0) = false) :
    has_affine_map feq N (pts.set n Q) = .ok false := by
  have hlen : (pts.set n Q).length = N * N := by rw [List.length_set]; exact hgrid.1
  obtain ⟨r, hr, hiff⟩ := quad_affine_spec feq N (by omega) (pts.set n Q) hlen
  rw [hr]
  congr 1
  cases r with
  | false => rfl
  | true =>
    exfalso
    obtain ⟨_, hall⟩ := hiff.mp rfl
    have c0 : (pts.set n Q).getD 0 0 = pts.getD 0 0 := getD_set_ne pts n 0 0 Q (by omega)
    have c1 : (pts.set n Q).getD 1 0 = pts.getD 1 0 := getD_set_ne pts n 1 0 Q (by omega)
    have c3 : (pts.set n Q).getD 3 0 = pts.getD 3 0 := getD_set_ne pts n 3 0 Q (by omega)
    have cn : (pts.set n Q).getD n 0 = Q := getD_set_self pts n 0 Q (by rw [hgrid.1]; exact hn)
    simp only [SideChecks, c0, c1, c3] at hall
    obtain ⟨_, hoff⟩ := grid_offsets N (by omega) (pts.getD 0 0) (pts.getD 1 0) (pts.getD 3 0)
    have hpos := regularGrid_getD hgrid n hn
    rw [hpos] at hQ
    by_cases s0 : n < 4 + (N - 2)
    · have q0 := hQ
      rw [check_corner, if_pos s0] at q0
      have e : 3 + (1 + (n - 4)) = n := by omega
      have hk := (hall (n - 4) (by omega)).1
      have ho := (hoff (1 + (n - 4)) (by omega) (by omega)).1
      rw [e] at hk ho
      rw [cn, ← ho, q0] at hk
      cases hk
    · by_cases s1 : n < 4 + 2 * (N - 2)
      · have q1 := hQ
        rw [check_corner, if_neg s0, if_pos s1] at q1
        have e : N + 1 + (1 + (n - (N + 2))) = n := by omega
        have hk := (hall (n - (N + 2)) (by omega)).2.2.1
        have ho := (hoff (1 + (n - (N + 2))) (by omega) (by omega)).2.2.1
        rw [e] at hk ho
        rw [cn, ← ho, q1] at hk
        cases hk
      · by_cases s2 : n < 4 + 3 * (N - 2)
        · have q3 := hQ
          rw [check_corner, if_neg s0, if_neg s1, if_pos s2] at q3
          have e : 3 * N - 2 - (1 + (3 * N - 3 - n)) = n := by omega
          have hk := (hall (3 * N - 3 - n) (by omega)).2.1
          have ho := (hoff (1 + (3 * N - 3 - n)) (by omega) (by omega)).2.1
          rw [e] at hk ho
          rw [cn, ← ho, q3] at hk
          cases hk
        · have q0 := hQ
          rw [check_corner, if_neg s0, if_neg s1, if_neg s2] at q0
          by_cases s3 : n < 4 + 4 * (N - 2)
          · have e : 4 * N - 4 - (1 + (4 * N - 5 - n)) = n := by omega
            have hk := (hall (4 * N - 5 - n) (by omega)).2.2.2.1
            have ho := (hoff (1 + (4 * N - 5 - n)) (by omega) (by omega)).2.2.2.1
            rw [e] at hk ho
            rw [cn, ← ho, q0] at hk
            cases hk
          · obtain ⟨M, rfl⟩ : ∃ M, N = M + 2 := ⟨N - 2, by omega⟩
            have hM : 0 < M := by omega
            have hd := Nat.div_add_mod (n - (4 + 4 * M)) M
            have hm := Nat.mod_lt (n - (4 + 4 * M)) hM
            have hq : (n - (4 + 4 * M)) / M < M := by
              apply Nat.div_lt_of_lt_mul
              have : (M + 2) * (M + 2) = M * M + 4 * M + 4 := by ring
              omega
            obtain ⟨qd, rm, hrm, hqd, hnq⟩ :
                ∃ qd rm, rm < M ∧ qd < M ∧ n = 4 + 4 * M + (M * qd + rm) :=
              ⟨(n - (4 + 4 * M)) / M, (n - (4 + 4 * M)) % M, hm, hq, by omega⟩
            have e : 3 * (M + 2) - 3 + (M + 2 - 2) * (1 + qd) + (1 + rm) = n := by
              have e0 : M * (1 + qd) = M + M * qd := by ring
              rw [Nat.add_sub_cancel, e0]
              omega
            have hk := (hall qd (by omega)).2.2.2.2 rm (by omega)
            have ho := (hoff (1 + qd) (by omega) (by omega)).2.2.2.2 (1 + rm) (by omega)
              (by omega)
            rw [e] at hk ho
            rw [cn, ← ho, q0] at hk
            cases hk

/-- Witness of C9: the face node 8 of the 9-node grid moved from `(1, 1)` to `(7, 7)`,
compared exactly. -/
theorem has_affine_map_perturbed_witness :
    has_affine_map (fun a b => decide (a = b)) 3
      ([![0, 0, 0], ![2, 0, 0], ![2, 2, 0], ![0, 2, 0], ![1, 0, 0], ![2, 1, 0],
        ![1, 2, 0], ![0, 1, 0], ![1, 1, 0]].set 8 ![7, 7, 0]) = .ok false :=
  has_affine_map_perturbed _ 3 _ 8 ![7, 7, 0] (by decide) grid3_regular (by decide) (by decide)
    (by
      simp only [decide_eq_false_iff_not, sub_left_inj]
      intro h
      have h0 := congrFun h 0
      simp [List.getD] at h0)

/-- C2 (the code departs from the claim): on a 16-node quad (`N = 4`) two successive calls
of `flip` both succeed but do not restore the node table: slots 2, 3, 6 and 11 end up
holding the nodes of slots 11, 6, 3 and 2 (the swaps `(2,3)`, `(6,11)` and `(3,6)`
overlap); neighbours and boundary records are restored. -/
theorem flip_twice_moves_nodes :
    (flip 4 (⟨[0, 1, 2, 3, 4, 5, 6, 7, 8, 9, 10, 11, 12, 13, 14, 15],
          [100, 101, 102, 103]⟩ : Elem Nat Nat)
        (some (⟨[20, 21, 22, 23], [30, 31, 32, 33]⟩ : BoundaryInfo Nat))).bind
      (fun r => flip 4 r.1 (some r.2)) =
    .ok (⟨[0, 1, 11, 6, 4, 5, 3, 7, 8, 9, 10, 2, 12, 13, 14, 15], [100, 101, 102, 103]⟩,
      ⟨[20, 21, 22, 23], [30, 31, 32, 33]⟩) := by
  decide

end QuadNSq

namespace QuadNSq

/-- C11: for `N ≥ 2` and a node index `i`, `is_vertex(i)` holds iff `i < 4`, `is_edge(i)`
holds iff `4 ≤ i < 4N-4`, and `is_face(i)` holds iff `i ≥ 4N-4` (the bound `4N-4`
written without subtraction). -/
theorem node_classes (N i : Nat) (hN : 2 ≤ N) :
    (is_vertex N i = true ↔ i < 4) ∧
    (is_edge N i = true ↔ 4 ≤ i ∧ i + 4 < 4 * N) ∧
    (is_face N i = true ↔ 4 * N ≤ i + 4) := by
  refine ⟨?_, ?_, ?_⟩
  · simp [is_vertex]
  · simp only [is_edge]
    split_ifs <;> simp <;> omega
  · simp only [is_face]
    split_ifs <;> simp <;> omega

/-- Witness of C11 at `N = 4`, node 7 (an edge node). -/
theorem node_classes_witness :
    (is_vertex 4 7 = true ↔ 7 < 4) ∧
    (is_edge 4 7 = true ↔ 4 ≤ 7 ∧ 7 + 4 < 4 * 4) ∧
    (is_face 4 7 = true ↔ 4 * 4 ≤ 7 + 4) :=
  node_classes 4 7 (by decide)

theorem vertex_filter (N : Nat) (hN : 2 ≤ N) :
    (Finset.range (N * N)).filter (fun i => is_vertex N i = true) = Finset.range 4 := by
  obtain ⟨M, rfl⟩ : ∃ M, N = M + 2 := ⟨N - 2, by omega⟩
  have hb := sq_bound M
  ext i
  simp only [Finset.mem_filter, Finset.mem_range, (node_classes (M + 2) i hN).1]
  omega

theorem edge_filter (N : Nat) (hN : 2 ≤ N) :
    (Finset.range (N * N)).filter (fun i => is_edge N i = true) =
      Finset.Ico 4 (4 + 4 * (N - 2)) := by
  obtain ⟨M, rfl⟩ : ∃ M, N = M + 2 := ⟨N - 2, by omega⟩
  have hb := sq_bound M
  ext i
  simp only [Finset.mem_filter, Finset.mem_range, Finset.mem_Ico,
    (node_classes (M + 2) i hN).2.1]
  omega

theorem face_filter (N : Nat) (hN : 2 ≤ N) :
    (Finset.range (N * N)).filter (fun i => is_face N i = true) =
      Finset.Ico (4 + 4 * (N - 2)) (N * N) := by
  obtain ⟨M, rfl⟩ : ∃ M, N = M + 2 := ⟨N - 2, by omega⟩
  ext i
  simp only [Finset.mem_filter, Finset.mem_range, Finset.mem_Ico,
    (node_classes (M + 2) i hN).2.2]
  omega

/-- C12: for `N ≥ 2`, every node index `i < N^2` satisfies exactly one of `is_vertex`,
`is_edge`, `is_face`, and among the `N^2` indices exactly 4 are vertices, exactly
`4*(N-2)` are edge nodes and exactly `(N-2)^2` are face nodes. -/
theorem node_class_partition (N : Nat) (hN : 2 ≤ N) :
    (∀ i, i < N * N →
      (is_vertex N i = true ∧ is_edge N i = false ∧ is_face N i = false) ∨
      (is_vertex N i = false ∧ is_edge N i = true ∧ is_face N i = false) ∨
      (is_vertex N i = false ∧ is_edge N i = false ∧ is_face N i = true)) ∧
    ((Finset.range (N * N)).filter (fun i => is_vertex N i = true)).card = 4 ∧
    ((Finset.range (N * N)).filter (fun i => is_edge N i = true)).card = 4 * (N - 2) ∧
    ((Finset.range (N * N)).filter (fun i => is_face N i = true)).card = (N - 2) ^ 2 := by
  refine ⟨?_, ?_, ?_, ?_⟩
  · intro i _
    obtain ⟨hv, he, hf⟩ := node_classes N i hN
    by_cases h1 : i < 4
    · left
      refine ⟨hv.mpr h1, ?_, ?_⟩
      · rw [Bool.eq_false_iff]; intro h; have := he.mp h; omega
      · rw [Bool.eq_false_iff]; intro h; have := hf.mp h; omega
    · by_cases h2 : i + 4 < 4 * N
      · right; left
        refine ⟨?_, he.mpr ⟨by omega, h2⟩, ?_⟩
        · rw [Bool.eq_false_iff]; intro h; exact h1 (hv.mp h)
        · rw [Bool.eq_false_iff]; intro h; have := hf.mp h; omega
      · right; right
        refine ⟨?_, ?_, hf.mpr (by omega)⟩
        · rw [Bool.eq_false_iff]; intro h; exact h1 (hv.mp h)
        · rw [Bool.eq_false_iff]; intro h; have := he.mp h; omega
  · rw [vertex_filter N hN, Finset.card_range]
  · rw [edge_filter N hN, Nat.card_Ico]
    omega
  · rw [face_filter N hN, Nat.card_Ico]
    obtain ⟨M, rfl⟩ : ∃ M, N = M + 2 := ⟨N - 2, by omega⟩
    have e : (M + 2) * (M + 2) = M ^ 2 + (4 + 4 * M) := by ring
    rw [Nat.add_sub_cancel, e]
    omega

/-- Witness of C12 at `N = 3`: 4 vertices, 4 edge nodes, 1 face node. -/
theorem node_class_partition_witness :
    (∀ i, i < 3 * 3 →
      (is_vertex 3 i = true ∧ is_edge 3 i = false ∧ is_face 3 i = false) ∨
      (is_vertex 3 i = false ∧ is_edge 3 i = true ∧ is_face 3 i = false) ∨
      (is_vertex 3 i = false ∧ is_edge 3 i = false ∧ is_face 3 i = true)) ∧
    ((Finset.range (3 * 3)).filter (fun i => is_vertex 3 i = true)).card = 4 ∧
    ((Finset.range (3 * 3)).filter (fun i => is_edge 3 i = true)).card = 4 * (3 - 2) ∧
    ((Finset.range (3 * 3)).filter (fun i => is_face 3 i = true)).card = (3 - 2) ^ 2 :=
  node_class_partition 3 (by decide)

/-- C18: for `N ≥ 2` and every side `< 4`, `local_side_node(side,0) = side` and
`local_side_node(side,1) = (side+1) mod 4`. -/
theorem local_side_node_corners (N side : Nat) (hN : 2 ≤ N) (hs : side < 4) :
    local_side_node N side 0 = .ok side ∧
      local_side_node N side 1 = .ok ((side + 1) % 4) := by
  have h1 : libmesh_assert (decide (side < n_sides)) = .ok () :=
    libmesh_assert_of (by simp [n_sides, hs])
  have h2 : libmesh_assert (decide (0 < nodes_per_side N)) = .ok () :=
    libmesh_assert_of (by simp [nodes_per_side]; omega)
  have h3 : libmesh_assert (decide (1 < nodes_per_side N)) = .ok () :=
    libmesh_assert_of (by simp [nodes_per_side]; omega)
  constructor
  · simp [local_side_node, h1, h2]
  · simp [local_side_node, h1, h3]

/-- Witness of C18 at `N = 5`, side 3: the corners are slots 3 and 0. -/
theorem local_side_node_corners_witness :
    local_side_node 5 3 0 = .ok 3 ∧ local_side_node 5 3 1 = .ok ((3 + 1) % 4) :=
  local_side_node_corners 5 3 (by decide) (by decide)

end QuadNSq

namespace EdgeN

/-- C19: for `N ≥ 2` and a node index `i`, `EdgeN::is_vertex(i)` holds iff `i < 2`,
`is_edge(i)` holds iff `i ≥ 2`, and `is_face(i)` is always false, so every node index is
in exactly one of the vertex and edge classes. -/
theorem edge_node_classes (N i : Nat) :
    (is_vertex N i = true ↔ i < 2) ∧ (is_edge N i = true ↔ 2 ≤ i) ∧ is_face N i = false ∧
      (is_vertex N i = true ∧ is_edge N i = false ∨
        is_vertex N i = false ∧ is_edge N i = true) := by
  by_cases h : i < 2
  · simp [is_vertex, is_edge, is_face, h]
  · simp [is_vertex, is_edge, is_face, h]
    omega

/-- C20: for `N ≥ 2`, a side `s` in `{0,1}` and a node index `n < N`,
`EdgeN::is_node_on_side(n,s)` returns, and is true iff `n = s`; hence each side carries
exactly one node and no interior node (`n ≥ 2`) is on any side. -/
theorem is_node_on_side_iff (N s : Nat) (hN : 2 ≤ N) (hs : s < 2) :
    (∀ n, n < N → is_node_on_side N n s = .ok (decide (n = s))) ∧
    (∃! n, n < N ∧ is_node_on_side N n s = .ok true) ∧
    (∀ n, 2 ≤ n → n < N → is_node_on_side N n s = .ok false) := by
  have key : ∀ n, n < N → is_node_on_side N n s = .ok (decide (n = s)) := by
    intro n hn
    have h1 : libmesh_assert (decide (s < 2)) = .ok () := libmesh_assert_of (by simp [hs])
    have h2 : libmesh_assert (decide (n < num_nodes N)) = .ok () :=
      libmesh_assert_of (by simp [num_nodes, hn])
    simp only [is_node_on_side, Res.bind_eq_bind, h1, h2, Res.bind_ok, Res.pure_eq_ok]
    congr 1
    by_cases h : n = s
    · subst h; simp
    · have h' : ¬ s = n := fun e => h e.symm
      simp [h, h']
  refine ⟨key, ?_, ?_⟩
  · refine ⟨s, ⟨by omega, ?_⟩, ?_⟩
    · rw [key s (by omega)]; simp
    · rintro n ⟨hn, hon⟩
      rw [key n hn] at hon
      have : decide (n = s) = true := by injection hon
      exact of_decide_eq_true this
  · intro n h2 hn
    rw [key n hn]
    have : ¬ n = s := by omega
    simp [this]

/-- Witness of C20 at `N = 4`, side 1. -/
theorem is_node_on_side_iff_witness :
    (∀ n, n < 4 → is_node_on_side 4 n 1 = .ok (decide (n = 1))) ∧
    (∃! n, n < 4 ∧ is_node_on_side 4 n 1 = .ok true) ∧
    (∀ n, 2 ≤ n → n < 4 → is_node_on_side 4 n 1 = .ok false) :=
  is_node_on_side_iff 4 1 (by decide) (by decide)

end EdgeN


/-- Where the minuend is at least the subtrahend, `unsigned int` subtraction is the
ordinary one. -/
theorem usub32_eq (a b : Nat) (hb : b ≤ a) (ha : a < 2 ^ 32) : usub32 a b = a - b := by
  have h : (2 : Nat) ^ 32 = 4294967296 := by norm_num
  rw [usub32, h]
  rw [h] at ha
  omega

theorem div_eq_iff_bounds (a b c : Nat) (hb : 0 < b) :
    a / b = c ↔ c * b ≤ a ∧ a < c * b + b := by
  constructor
  · intro h
    subst h
    have h1 := Nat.div_mul_le_self a b
    have h2 := Nat.lt_div_mul_add hb (a := a)
    exact ⟨h1, h2⟩
  · rintro ⟨h1, h2⟩
    apply Nat.le_antisymm
    · apply Nat.le_of_lt_succ
      rw [Nat.div_lt_iff_lt_mul hb]
      have e : (c + 1) * b = c * b + b := by ring
      rw [e]; exact h2
    · rw [Nat.le_div_iff_mul_le hb]; exact h1

namespace QuadNSq

/-- What `is_node_on_side` returns for `N ≥ 3`. -/
theorem is_node_on_side_eq (N n s : Nat) (hN : 3 ≤ N) (hs : s < 4) :
    ∃ b, is_node_on_side N n s = .ok b ∧ (b = true ↔ usub32 n 4 / (N - 2) = s) := by
  have h1 : libmesh_assert (decide (s < n_sides)) = .ok () :=
    libmesh_assert_of (by simp [n_sides, hs])
  have h2 : ¬ N - 2 = 0 := by omega
  unfold is_node_on_side
  simp only [Res.bind_eq_bind, h1, Res.bind_ok]
  rw [if_neg h2]
  by_cases h : usub32 n 4 / (N - 2) = s
  · rw [if_pos h]
    exact ⟨true, rfl, ⟨fun _ => h, fun _ => rfl⟩⟩
  · rw [if_neg h]
    exact ⟨false, rfl, ⟨fun hf => Bool.noConfusion hf, fun hh => absurd hh h⟩⟩

/-- C13: for `N ≥ 3` (with `N^2` node indices that fit in `unsigned int`), a non-corner
node index `n`, `4 ≤ n < N^2`, and a side `s < 4`, `is_node_on_side(n,s)` returns, and is
true iff `floor((n-4)/(N-2)) = s`, which holds iff `n` is one of the entries `2..N-1` of
`nodes_on_side(s)`; in particular a face-interior node is on no side. -/
theorem is_node_on_side_interior (N n s : Nat) (hN : 3 ≤ N) (h4 : 4 ≤ n) (hn : n < N * N)
    (hfit : N * N ≤ 2 ^ 32) (hs : s < 4) :
    ∃ b l, is_node_on_side N n s = .ok b ∧ nodes_on_side N s = .ok l ∧
      (b = true ↔ (n - 4) / (N - 2) = s) ∧
      ((n - 4) / (N - 2) = s ↔ ∃ k, 2 ≤ k ∧ k < N ∧ l[k]? = some n) ∧
      (is_face N n = true → b = false) := by
  have hu : usub32 n 4 = n - 4 := usub32_eq n 4 h4 (by omega)
  have hdiv := div_eq_iff_bounds (n - 4) (N - 2) s (by omega)
  obtain ⟨b, hb, hbiff⟩ := is_node_on_side_eq N n s hN hs
  rw [hu] at hbiff
  refine ⟨b, _, hb, nodes_on_side_eq N s (by omega) hs, hbiff, ?_, ?_⟩
  · rw [hdiv]
    constructor
    · rintro ⟨h1, h2⟩
      refine ⟨n - 4 - s * (N - 2) + 2, by omega, by omega, ?_⟩
      rw [side_entry N s _ (by omega) (by omega)]
      exact congrArg some (by omega)
    · rintro ⟨k, hk2, hkN, hk⟩
      rw [side_entry N s k hk2 hkN] at hk
      have := Option.some.inj hk
      omega
  · intro hf
    have hf' := (node_classes N n (by omega)).2.2.mp hf
    have hsM : s * (N - 2) + (N - 2) ≤ 4 * (N - 2) := by
      have h5 : (s + 1) * (N - 2) ≤ 4 * (N - 2) := Nat.mul_le_mul_right _ (by omega)
      have e : (s + 1) * (N - 2) = s * (N - 2) + (N - 2) := by ring
      omega
    cases b with
    | false => rfl
    | true =>
      have h6 := hdiv.mp (hbiff.mp rfl)
      omega

/-- Witness of C13 at `N = 4`: node 9 is the second interior node of side 2. -/
theorem is_node_on_side_interior_witness :
    ∃ b l, is_node_on_side 4 9 2 = .ok b ∧ nodes_on_side 4 2 = .ok l ∧
      (b = true ↔ (9 - 4) / (4 - 2) = 2) ∧
      ((9 - 4) / (4 - 2) = 2 ↔ ∃ k, 2 ≤ k ∧ k < 4 ∧ l[k]? = some 9) ∧
      (is_face 4 9 = true → b = false) :=
  is_node_on_side_interior 4 9 2 (by decide) (by decide) (by decide) (by decide) (by decide)

/-- C14 (the code departs from the claim): on a 9-node quad (`N = 3`) corner 0 is entry 0
and corner 1 is entry 1 of `nodes_on_side(0) = [0, 1, 4]`, but `is_node_on_side(0,0)` and
`is_node_on_side(1,0)` return `false`: `n-4` wraps to `2^32-4+n`, whose quotient by
`N-2` is not a side number. -/
theorem is_node_on_side_misses_corners :
    nodes_on_side 3 0 = .ok [0, 1, 4] ∧ is_node_on_side 3 0 0 = .ok false ∧
      is_node_on_side 3 1 0 = .ok false ∧ usub32 0 4 / (3 - 2) = 4294967292 := by
  decide

/-- C15 (the code departs from the claim): on a 9-node quad (`N = 3`) `flip` exchanges
slot 4, the interior node of side 0, with slot 8, the face node, and leaves slots 5 and 7
in place. Afterwards side 0 reads `[n1, n0, n8]` where the mirror image of the old side 0
is `[n1, n0, n4]`, and side 1 reads `[n0, n3, n5]` where the mirror image of the old
side 3 `[n3, n0, n7]` is `[n0, n3, n7]`. -/
theorem flip_does_not_mirror_sides :
    (flip 3 (⟨[0, 1, 2, 3, 4, 5, 6, 7, 8], [100, 101, 102, 103]⟩ : Elem Nat Nat)
        (some (⟨[20, 21, 22, 23], [30, 31, 32, 33]⟩ : BoundaryInfo Nat))).bind
      (fun r => (side_nodes 3 r.1.nodes 0).bind fun s0 =>
        (side_nodes 3 r.1.nodes 1).bind fun s1 => .ok (r.1.nodes, s0, s1)) =
      .ok ([1, 0, 3, 2, 8, 5, 6, 7, 4], [some 1, some 0, some 8], [some 0, some 3, some 5]) ∧
    side_nodes 3 [0, 1, 2, 3, 4, 5, 6, 7, 8] 0 = .ok [some 0, some 1, some 4] ∧
    side_nodes 3 [0, 1, 2, 3, 4, 5, 6, 7, 8] 3 = .ok [some 3, some 0, some 7] := by
  decide

end QuadNSq

namespace EdgeN

/-- C17 (the code departs from the claim): on a 4-node edge (`N = 4`) `master_point`
returns the origin for both interior nodes 2 and 3, where the uniform subdivision puts
node 2 at `-1 + 2*(2-1)/(4-1) = -1/3` and node 3 at `+1/3`; the endpoints are at `-1`
and `+1`. -/
theorem master_point_interior_at_origin :
    master_point 4 2 = .ok ![0, 0, 0] ∧ master_point 4 3 = .ok ![0, 0, 0] ∧
      master_point 4 2 ≠ .ok ![-1 + 2 * (2 - 1) / (4 - 1), 0, 0] ∧
      master_point 4 0 = .ok ![-1, 0, 0] ∧ master_point 4 1 = .ok ![1, 0, 0] := by
  have a0 : libmesh_assert (decide (0 < n_nodes 4)) = .ok () := rfl
  have a1 : libmesh_assert (decide (1 < n_nodes 4)) = .ok () := rfl
  have a2 : libmesh_assert (decide (2 < n_nodes 4)) = .ok () := rfl
  have a3 : libmesh_assert (decide (3 < n_nodes 4)) = .ok () := rfl
  have m2 : master_point 4 2 = .ok ![0, 0, 0] := by
    simp [master_point, a2]
  have m3 : master_point 4 3 = .ok ![0, 0, 0] := by
    simp [master_point, a3]
  refine ⟨m2, m3, ?_, ?_, ?_⟩
  · rw [m2]
    intro h
    have h' : (![0, 0, 0] : Point) = ![-1 + 2 * (2 - 1) / (4 - 1), 0, 0] := by
      injection h
    have h0 := congrFun h' 0
    norm_num at h0
  · simp [master_point, a0]
  · simp [master_point, a1]
    norm_num

end EdgeN

theorem map_range'_shift {α : Type} (f g : Nat → α) (a a' M : Nat)
    (h : ∀ t, t < M → f (a + t) = g (a' + t)) :
    (List.range' a M).map f = (List.range' a' M).map g := by
  rw [List.range'_eq_map_range, List.range'_eq_map_range, List.map_map, List.map_map]
  apply List.map_congr_left
  intro t ht
  exact h t (List.mem_range.mp ht)

namespace QuadNSq

/-- The node list of a side in closed form. -/
theorem side_nodes_eq {ν : Type} (N : Nat) (nodes : List ν) (s : Nat) (hN : 2 ≤ N)
    (hs : s < 4) :
    side_nodes N nodes s = .ok (nodes[s]? :: nodes[(s + 1) % 4]? ::
      (List.range' (4 + s * (N - 2)) (N - 2)).map fun k => nodes[k]?) := by
  simp only [side_nodes, Res.bind_eq_bind, nodes_on_side_eq N s hN hs, Res.bind_ok,
    Res.pure_eq_ok, List.map_cons]

/-- C16: for `N ≥ 2`, `permute(1)` is a quarter turn that keeps sides and neighbours
consistent: with the one fixed `r = 1` (a member of `{1,3}`), for every side `s < 4` the
node list of side `s` after the call (`nodes_on_side(s)` mapped through the node table)
equals the node list of side `(s+r) mod 4` before the call, and neighbour entry `s` after
equals neighbour entry `(s+r) mod 4` before. -/
theorem permute_one_quarter_turn {ν η : Type} (N : Nat) (e : Elem ν η) (hN : 2 ≤ N)
    (hn : e.nodes.length = N * N) (hnb : e.neighbors.length = 4) :
    ∃ r, (r = 1 ∨ r = 3) ∧ r = 1 ∧
      ∃ e', permute N e 1 = .ok e' ∧ ∀ s, s < 4 →
        (∃ l, side_nodes N e'.nodes s = .ok l ∧ side_nodes N e.nodes ((s + r) % 4) = .ok l ∧
          l.length = N) ∧
        e'.neighbors[s]? = e.neighbors[(s + r) % 4]? := by
  refine ⟨1, Or.inl rfl, rfl, ?_⟩
  obtain ⟨e', he', _, _, hg, hb⟩ := permute_spec N hN 1 (by omega) e hn hnb
  simp only [Function.iterate_succ, Function.iterate_zero, Function.comp_apply, id_eq] at hg hb
  refine ⟨e', he', ?_⟩
  intro s hs
  have hs' : (s + 1) % 4 < 4 := Nat.mod_lt _ (by omega)
  refine ⟨⟨_, side_nodes_eq N e'.nodes s hN hs, ?_, ?_⟩, ?_⟩
  · rw [side_nodes_eq N e.nodes ((s + 1) % 4) hN hs']
    congr 1
    have c0 : e'.nodes[s]? = e.nodes[(s + 1) % 4]? := by
      rw [hg]
      interval_cases s
      · rw [rot_low _ 0 (by omega)]
      · rw [rot_low _ 1 (by omega)]
      · rw [rot_low _ 2 (by omega)]
      · rw [rot_three]
    have c1 : e'.nodes[(s + 1) % 4]? = e.nodes[((s + 1) % 4 + 1) % 4]? := by
      rw [hg]
      interval_cases s
      · rw [rot_low _ 1 (by omega)]
      · rw [rot_low _ 2 (by omega)]
      · rw [rot_three]
      · rw [rot_low _ 0 (by omega)]
    have c2 : (List.range' (4 + s * (N - 2)) (N - 2)).map (fun k => e'.nodes[k]?) =
        (List.range' (4 + (s + 1) % 4 * (N - 2)) (N - 2)).map (fun k => e.nodes[k]?) := by
      apply map_range'_shift
      intro t ht
      show e'.nodes[4 + s * (N - 2) + t]? = e.nodes[4 + (s + 1) % 4 * (N - 2) + t]?
      rw [hg]
      interval_cases s
      · rw [rot_mid _ _ (by omega) (by omega)]
        exact congrArg (fun k => e.nodes[k]?) (by omega)
      · rw [rot_mid _ _ (by omega) (by omega)]
        exact congrArg (fun k => e.nodes[k]?) (by omega)
      · rw [rot_mid _ _ (by omega) (by omega)]
        exact congrArg (fun k => e.nodes[k]?) (by omega)
      · rw [rot_high _ _ (by omega) (by omega)]
        exact congrArg (fun k => e.nodes[k]?) (by omega)
    rw [c0, c1, c2]
  · simp
    omega
  · rw [hb]
    interval_cases s
    · rw [rot_low _ 0 (by omega)]
    · rw [rot_low _ 1 (by omega)]
    · rw [rot_low _ 2 (by omega)]
    · rw [rot_three]

/-- Witness of C16: a 9-node quad with nodes `10..18` and neighbours `0..3`. -/
theorem permute_one_quarter_turn_witness :
    ∃ r, (r = 1 ∨ r = 3) ∧ r = 1 ∧
      ∃ e', permute 3 (⟨[10, 11, 12, 13, 14, 15, 16, 17, 18], [0, 1, 2, 3]⟩ : Elem Nat Nat) 1 =
          .ok e' ∧ ∀ s, s < 4 →
        (∃ l, side_nodes 3 e'.nodes s = .ok l ∧
          side_nodes 3 [10, 11, 12, 13, 14, 15, 16, 17, 18] ((s + r) % 4) = .ok l ∧
          l.length = 3) ∧
        e'.neighbors[s]? = [0, 1, 2, 3][(s + r) % 4]? :=
  permute_one_quarter_turn 3 ⟨[10, 11, 12, 13, 14, 15, 16, 17, 18], [0, 1, 2, 3]⟩ (by decide)
    (by decide) (by decide)

end QuadNSq

namespace QuadNSq

/-- What `side_type` returns for a side `s < 4`. -/
theorem side_type_eq (T : ElemTypeTags) (N s : Nat) (hs : s < 4) :
    side_type T N s = .ok (if N = 2 then T.EDGE2 else if N = 3 then T.EDGE3
      else if N = 4 then T.EDGE4 else T.EDGEN + N) := by
  have h : libmesh_assert (decide (s < 4)) = .ok () := libmesh_assert_of (by simp [hs])
  simp only [side_type, Res.bind_eq_bind, h, Res.bind_ok, Res.pure_eq_ok]
  split_ifs <;> rfl

/-- C21: `side_type(s)` does not depend on the side `s < 4` and, as a function of `N`,
returns the fixed tags `EDGE2`, `EDGE3`, `EDGE4` for `N = 2, 3, 4` and the generic tag
`EDGEN+N` for `N ≥ 5`; with enumerators as the spec requires them (`T.Distinct`) the
generic tag differs from each fixed tag, and tags of different `N ≥ 2` never collide. -/
theorem side_type_tags (T : ElemTypeTags) (hT : T.Distinct) :
    (∀ N s t, s < 4 → t < 4 → side_type T N s = side_type T N t) ∧
    (∀ s, s < 4 → side_type T 2 s = .ok T.EDGE2 ∧ side_type T 3 s = .ok T.EDGE3 ∧
      side_type T 4 s = .ok T.EDGE4) ∧
    (∀ N s, 5 ≤ N → s < 4 → side_type T N s = .ok (T.EDGEN + N) ∧
      T.EDGEN + N ≠ T.EDGE2 ∧ T.EDGEN + N ≠ T.EDGE3 ∧ T.EDGEN + N ≠ T.EDGE4) ∧
    (∀ N N' s t, 2 ≤ N → 2 ≤ N' → s < 4 → t < 4 →
      side_type T N s = side_type T N' t → N = N') := by
  obtain ⟨h23, h24, h34, g2, g3, g4⟩ := hT
  refine ⟨?_, ?_, ?_, ?_⟩
  · intro N s t hs ht
    rw [side_type_eq T N s hs, side_type_eq T N t ht]
  · intro s hs
    refine ⟨?_, ?_, ?_⟩
    · rw [side_type_eq T 2 s hs]; rfl
    · rw [side_type_eq T 3 s hs]; rfl
    · rw [side_type_eq T 4 s hs]; rfl
  · intro N s hN hs
    refine ⟨?_, by omega, by omega, by omega⟩
    rw [side_type_eq T N s hs, if_neg (by omega), if_neg (by omega), if_neg (by omega)]
  · intro N N' s t hN hN' hs ht h
    rw [side_type_eq T N s hs, side_type_eq T N' t ht] at h
    have h' := Res.ok.inj h
    by_cases a2 : N = 2
    · by_cases b2 : N' = 2
      · omega
      · by_cases b3 : N' = 3
        · rw [if_pos a2, if_neg b2, if_pos b3] at h'; exact absurd h' h23
        · by_cases b4 : N' = 4
          · rw [if_pos a2, if_neg b2, if_neg b3, if_pos b4] at h'; exact absurd h' h24
          · rw [if_pos a2, if_neg b2, if_neg b3, if_neg b4] at h'; omega
    · by_cases a3 : N = 3
      · by_cases b2 : N' = 2
        · rw [if_neg a2, if_pos a3, if_pos b2] at h'; exact absurd h'.symm h23
        · by_cases b3 : N' = 3
          · omega
          · by_cases b4 : N' = 4
            · rw [if_neg a2, if_pos a3, if_neg b2, if_neg b3, if_pos b4] at h'
              exact absurd h' h34
            · rw [if_neg a2, if_pos a3, if_neg b2, if_neg b3, if_neg b4] at h'; omega
      · by_cases a4 : N = 4
        · by_cases b2 : N' = 2
          · rw [if_neg a2, if_neg a3, if_pos a4, if_pos b2] at h'; exact absurd h'.symm h24
          · by_cases b3 : N' = 3
            · rw [if_neg a2, if_neg a3, if_pos a4, if_neg b2, if_pos b3] at h'
              exact absurd h'.symm h34
            · by_cases b4 : N' = 4
              · omega
              · rw [if_neg a2, if_neg a3, if_pos a4, if_neg b2, if_neg b3, if_neg b4] at h'
                omega
        · rw [if_neg a2, if_neg a3, if_neg a4] at h'
          by_cases b2 : N' = 2
          · rw [if_pos b2] at h'; omega
          · by_cases b3 : N' = 3
            · rw [if_neg b2, if_pos b3] at h'; omega
            · by_cases b4 : N' = 4
              · rw [if_neg b2, if_neg b3, if_pos b4] at h'; omega
              · rw [if_neg b2, if_neg b3, if_neg b4] at h'; omega

/-- Witness of C21: the fixed tags `0, 1, 2` and the generic base `50`. -/
theorem side_type_tags_witness :
    (∀ N s t, s < 4 → t < 4 → side_type ⟨0, 1, 2, 50⟩ N s = side_type ⟨0, 1, 2, 50⟩ N t) ∧
    (∀ s, s < 4 → side_type ⟨0, 1, 2, 50⟩ 2 s = .ok 0 ∧ side_type ⟨0, 1, 2, 50⟩ 3 s = .ok 1 ∧
      side_type ⟨0, 1, 2, 50⟩ 4 s = .ok 2) ∧
    (∀ N s, 5 ≤ N → s < 4 → side_type ⟨0, 1, 2, 50⟩ N s = .ok (50 + N) ∧
      50 + N ≠ 0 ∧ 50 + N ≠ 1 ∧ 50 + N ≠ 2) ∧
    (∀ N N' s t, 2 ≤ N → 2 ≤ N' → s < 4 → t < 4 →
      side_type ⟨0, 1, 2, 50⟩ N s = side_type ⟨0, 1, 2, 50⟩ N' t → N = N') :=
  side_type_tags ⟨0, 1, 2, 50⟩ (by decide)

/-- C24 (the code departs from the claim): `QuadNSq::is_node_on_side` only asserts
`s < 4`. On a 9-node quad (`N = 3`) the out-of-range node indices 9 and 100 are not
rejected: the call returns `false`. A side `s = 4` is rejected, and `EdgeN`
`is_node_on_side` rejects both a node index `n = N` and a side `s = 2`. -/
theorem is_node_on_side_accepts_bad_node :
    is_node_on_side 3 9 0 = .ok false ∧ is_node_on_side 3 100 3 = .ok false ∧
      is_node_on_side 3 9 4 = .fail .assertion ∧
      EdgeN.is_node_on_side 3 3 0 = .fail .assertion ∧
      EdgeN.is_node_on_side 3 0 2 = .fail .assertion := by
  decide

end QuadNSq

/-- C22: for every `N` and every argument, the operations without a general-`N`
definition end in the not-implemented condition and yield no value: `QuadNSq`
`connectivity`, `loose_bounding_box`, `n_second_order_adjacent_vertices`,
`second_order_adjacent_vertex`, `second_order_child_vertex` (for an in-range `n`,
`4 ≤ n < N^2`), `center_node_on_side`, and `EdgeN` `connectivity`, `loose_bounding_box`,
`n_second_order_adjacent_vertices`, `second_order_adjacent_vertex`,
`second_order_child_vertex`. None of them returns an element state. -/
theorem not_implemented_operations (N : Nat) :
    (∀ sf iop conn, QuadNSq.connectivity N sf iop conn = .fail .notImplemented) ∧
    (∀ pts, QuadNSq.loose_bounding_box N pts = .fail .notImplemented) ∧
    (∀ m, QuadNSq.n_second_order_adjacent_vertices N m = .fail .notImplemented) ∧
    (∀ m v, QuadNSq.second_order_adjacent_vertex N m v = .fail .notImplemented) ∧
    (∀ n, 4 ≤ n → n < N * N →
      QuadNSq.second_order_child_vertex N n = .fail .notImplemented) ∧
    (∀ side, QuadNSq.center_node_on_side N side = .fail .notImplemented) ∧
    (∀ sc iop conn, EdgeN.connectivity N sc iop conn = .fail .notImplemented) ∧
    (∀ pts, EdgeN.loose_bounding_box N pts = .fail .notImplemented) ∧
    (∀ m, EdgeN.n_second_order_adjacent_vertices N m = .fail .notImplemented) ∧
    (∀ m v, EdgeN.second_order_adjacent_vertex N m v = .fail .notImplemented) ∧
    (∀ m, EdgeN.second_order_child_vertex N m = .fail .notImplemented) := by
  refine ⟨fun _ _ _ => rfl, fun _ => rfl, fun _ => rfl, fun _ _ => rfl, ?_, fun _ => rfl,
    fun _ _ _ => rfl, fun _ => rfl, fun _ => rfl, fun _ _ => rfl, fun _ => rfl⟩
  intro n h4 hn
  have a1 : libmesh_assert (decide (n ≥ QuadNSq.n_vertices)) = .ok () :=
    libmesh_assert_of (by simp [QuadNSq.n_vertices]; omega)
  have a2 : libmesh_assert (decide (n < QuadNSq.n_nodes N)) = .ok () :=
    libmesh_assert_of (by simp [QuadNSq.n_nodes, QuadNSq.num_nodes]; omega)
  simp only [QuadNSq.second_order_child_vertex, Res.bind_eq_bind, a1, a2, Res.bind_ok]
  rfl

/-- Witness of C22: the 4-node quad and the 2-node edge (`N = 2`), where no node index is
in range for `second_order_child_vertex`, and node 8 of the 9-node quad. -/
theorem not_implemented_operations_witness :
    ((∀ sf iop conn, QuadNSq.connectivity 2 sf iop conn = .fail .notImplemented) ∧
    (∀ pts, QuadNSq.loose_bounding_box 2 pts = .fail .notImplemented) ∧
    (∀ m, QuadNSq.n_second_order_adjacent_vertices 2 m = .fail .notImplemented) ∧
    (∀ m v, QuadNSq.second_order_adjacent_vertex 2 m v = .fail .notImplemented) ∧
    (∀ n, 4 ≤ n → n < 2 * 2 →
      QuadNSq.second_order_child_vertex 2 n = .fail .notImplemented) ∧
    (∀ side, QuadNSq.center_node_on_side 2 side = .fail .notImplemented) ∧
    (∀ sc iop conn, EdgeN.connectivity 2 sc iop conn = .fail .notImplemented) ∧
    (∀ pts, EdgeN.loose_bounding_box 2 pts = .fail .notImplemented) ∧
    (∀ m, EdgeN.n_second_order_adjacent_vertices 2 m = .fail .notImplemented) ∧
    (∀ m v, EdgeN.second_order_adjacent_vertex 2 m v = .fail .notImplemented) ∧
    (∀ m, EdgeN.second_order_child_vertex 2 m = .fail .notImplemented)) ∧
    QuadNSq.second_order_child_vertex 3 8 = .fail .notImplemented :=
  ⟨not_implemented_operations 2,
    (not_implemented_operations 3).2.2.2.2.1 8 (by decide) (by decide)⟩

theorem iterate_mod_four (f : Nat → Nat) (h : f^[4] = id) (n : Nat) : f^[n] = f^[n % 4] := by
  have e : n = 4 * (n / 4) + n % 4 := (Nat.div_add_mod n 4).symm
  conv_lhs => rw [e]
  rw [Function.iterate_add, Function.iterate_mul, h, Function.iterate_id]
  rfl

namespace QuadNSq

theorem permute_one {ν η : Type} (N : Nat) (e : Elem ν η) :
    permute N e 1 = permute_step N e := by
  have ha : libmesh_assert (decide (1 < 4)) = .ok () := rfl
  simp only [permute, Res.bind_eq_bind, ha, Res.bind_ok, forRange, Nat.zero_add]

theorem elem_ext {ν η : Type} (e1 e2 : Elem ν η) (hn : ∀ p : Nat, e1.nodes[p]? = e2.nodes[p]?)
    (hb : ∀ p : Nat, e1.neighbors[p]? = e2.neighbors[p]?) : e1 = e2 := by
  cases e1; cases e2
  simp only [Elem.mk.injEq]
  exact ⟨List.ext_getElem? hn, List.ext_getElem? hb⟩

/-- C27: for `N ≥ 2`, `permute(0)` leaves the element unchanged, `permute(k)` (`k < 4`)
equals `k` successive calls of `permute(1)`, and for `a, b` in `0..3` the call
`permute(a)` followed by `permute(b)` succeeds with the same node table and neighbour
table as `permute((a+b) mod 4)`. -/
theorem permute_composition {ν η : Type} (N : Nat) (e : Elem ν η) (hN : 2 ≤ N)
    (hn : e.nodes.length = N * N) (hnb : e.neighbors.length = 4) :
    permute N e 0 = .ok e ∧
    (∀ k, k < 4 → permute N e k = forRange (fun _ e' => permute N e' 1) 0 k e) ∧
    (∀ a b, a < 4 → b < 4 →
      ∃ e', (permute N e a).bind (fun e1 => permute N e1 b) = .ok e' ∧
        permute N e ((a + b) % 4) = .ok e') := by
  refine ⟨rfl, ?_, ?_⟩
  · intro k hk
    have ha : libmesh_assert (decide (k < 4)) = .ok () := libmesh_assert_of (by simp [hk])
    have hf : (fun (_ : Nat) (e' : Elem ν η) => permute N e' 1) =
        fun _ e' => permute_step N e' := by
      funext _ e'
      exact permute_one N e'
    simp only [permute, Res.bind_eq_bind, ha, Res.bind_ok]
    rw [← hf]
    rfl
  · intro a b ha hb
    obtain ⟨e1, h1, hn1, hnb1, hg1, hb1⟩ := permute_spec N hN a ha e hn hnb
    obtain ⟨e2, h2, _, _, hg2, hb2⟩ := permute_spec N hN b hb e1 hn1 hnb1
    obtain ⟨e3, h3, _, _, hg3, hb3⟩ :=
      permute_spec N hN ((a + b) % 4) (Nat.mod_lt _ (by omega)) e hn hnb
    have heq : e3 = e2 := by
      apply elem_ext
      · intro p
        rw [hg3, hg2, hg1, ← Function.iterate_add_apply,
          iterate_mod_four _ (rot_four (N - 2)) (a + b)]
      · intro p
        rw [hb3, hb2, hb1, ← Function.iterate_add_apply,
          iterate_mod_four _ (rot_four 0) (a + b)]
    refine ⟨e2, ?_, ?_⟩
    · rw [h1, Res.bind_ok, h2]
    · rw [h3, heq]

/-- Witness of C27: a 9-node quad. -/
theorem permute_composition_witness :
    permute 3 (⟨[10, 11, 12, 13, 14, 15, 16, 17, 18], [0, 1, 2, 3]⟩ : Elem Nat Nat) 0 =
      .ok ⟨[10, 11, 12, 13, 14, 15, 16, 17, 18], [0, 1, 2, 3]⟩ ∧
    (∀ k, k < 4 →
      permute 3 (⟨[10, 11, 12, 13, 14, 15, 16, 17, 18], [0, 1, 2, 3]⟩ : Elem Nat Nat) k =
        forRange (fun _ e' => permute 3 e' 1) 0 k
          ⟨[10, 11, 12, 13, 14, 15, 16, 17, 18], [0, 1, 2, 3]⟩) ∧
    (∀ a b, a < 4 → b < 4 →
      ∃ e', (permute 3 (⟨[10, 11, 12, 13, 14, 15, 16, 17, 18], [0, 1, 2, 3]⟩ : Elem Nat Nat)
          a).bind (fun e1 => permute 3 e1 b) = .ok e' ∧
        permute 3 ⟨[10, 11, 12, 13, 14, 15, 16, 17, 18], [0, 1, 2, 3]⟩ ((a + b) % 4) =
          .ok e') :=
  permute_composition 3 ⟨[10, 11, 12, 13, 14, 15, 16, 17, 18], [0, 1, 2, 3]⟩ (by decide)
    (by decide) (by decide)

end QuadNSq

namespace QuadNSq

end QuadNSq

/-- C30: for `N ≥ 2`, every node index read by `has_affine_map` is in range. `EdgeN`
reads `0`, `1` and `i+1` for `1 ≤ i ≤ N-2`, all `< N`; `QuadNSq` reads `0..3` and `3+i`,
`3N-2-i`, `N+1+i`, `4N-4-i`, `3N-3+(N-2)i+j` for `1 ≤ i,j ≤ N-2`, all `< N^2`. Hence on a
node table of the right length neither call ever fails a range check: it returns a
boolean. -/
theorem has_affine_map_reads_in_range (N : Nat) (hN : 2 ≤ N) :
    (0 < N ∧ 1 < N ∧ ∀ i, 1 ≤ i → i ≤ N - 2 → i + 1 < N) ∧
    (3 < N * N ∧ ∀ i, 1 ≤ i → i ≤ N - 2 →
      3 + i < N * N ∧ 3 * N - 2 - i < N * N ∧ N + 1 + i < N * N ∧ 4 * N - 4 - i < N * N ∧
        ∀ j, 1 ≤ j → j ≤ N - 2 → 3 * N - 3 + (N - 2) * i + j < N * N) ∧
    (∀ (feq : Point → Point → Bool) (pts : List Point), pts.length = N →
      ∃ r, EdgeN.has_affine_map feq N pts = .ok r) ∧
    (∀ (feq : Point → Point → Bool) (pts : List Point), pts.length = N * N →
      ∃ r, QuadNSq.has_affine_map feq N pts = .ok r) := by
  have hb : 4 + 4 * (N - 2) ≤ N * N := by
    obtain ⟨M, rfl⟩ : ∃ M, N = M + 2 := ⟨N - 2, by omega⟩
    exact QuadNSq.sq_bound M
  refine ⟨⟨by omega, by omega, fun i h1 h2 => by omega⟩, ⟨by omega, ?_⟩, ?_, ?_⟩
  · intro i h1 h2
    refine ⟨by omega, by omega, by omega, by omega, ?_⟩
    intro j hj1 hj2
    obtain ⟨M, rfl⟩ : ∃ M, N = M + 2 := ⟨N - 2, by omega⟩
    have e1 : i = 1 + (i - 1) := by omega
    have e2 : j = 1 + (j - 1) := by omega
    rw [e1, e2]
    exact QuadNSq.face_index_bound M (i - 1) (j - 1) (by omega) (by omega)
  · intro feq pts hlen
    obtain ⟨r, hr, _⟩ := EdgeN.edge_affine_spec feq N hN pts hlen
    exact ⟨r, hr⟩
  · intro feq pts hlen
    obtain ⟨r, hr, _⟩ := QuadNSq.quad_affine_spec feq N hN pts hlen
    exact ⟨r, hr⟩

/-- Witness of C30 at `N = 4`. -/
theorem has_affine_map_reads_in_range_witness :
    (0 < 4 ∧ 1 < 4 ∧ ∀ i, 1 ≤ i → i ≤ 4 - 2 → i + 1 < 4) ∧
    (3 < 4 * 4 ∧ ∀ i, 1 ≤ i → i ≤ 4 - 2 →
      3 + i < 4 * 4 ∧ 3 * 4 - 2 - i < 4 * 4 ∧ 4 + 1 + i < 4 * 4 ∧ 4 * 4 - 4 - i < 4 * 4 ∧
        ∀ j, 1 ≤ j → j ≤ 4 - 2 → 3 * 4 - 3 + (4 - 2) * i + j < 4 * 4) ∧
    (∀ (feq : Point → Point → Bool) (pts : List Point), pts.length = 4 →
      ∃ r, EdgeN.has_affine_map feq 4 pts = .ok r) ∧
    (∀ (feq : Point → Point → Bool) (pts : List Point), pts.length = 4 * 4 →
      ∃ r, QuadNSq.has_affine_map feq 4 pts = .ok r) :=
  has_affine_map_reads_in_range 4 (by decide)

/-- A failing first pass makes the whole loop fail. -/
theorem forRange_fail_first {σ : Type} (body : Nat → σ → Res σ) (lo n : Nat) (s : σ)
    (e : Failure) (h : body lo s = .fail e) : forRange body lo (n + 1) s = .fail e := by
  induction n with
  | zero => simp only [forRange, Res.bind_ok, Nat.add_zero]; exact h
  | succ n ih => rw [forRange, ih, Res.bind_fail]

/-- Exchanging two entries, the second of which is at position `b`. -/
theorem perm_set_cons {α : Type} (xs : List α) (b : Nat) (x y : α) (h : xs[b]? = some y) :
    (y :: xs.set b x).Perm (x :: xs) := by
  induction xs generalizing b with
  | nil => simp at h
  | cons z zs ih =>
    cases b with
    | zero =>
      simp only [List.getElem?_cons_zero, Option.some.injEq] at h
      subst h
      simp only [List.set_cons_zero]
      exact List.Perm.swap x z zs
    | succ c =>
      simp only [List.getElem?_cons_succ] at h
      simp only [List.set_cons_succ]
      exact (List.Perm.swap z y _).trans (((ih c h).cons z).trans (List.Perm.swap x z zs))

/-- Exchanging two entries of a list gives a permutation of the list. -/
theorem perm_set_set {α : Type} (l : List α) (a b : Nat) (u v : α) (ha : l[a]? = some u)
    (hb : l[b]? = some v) : ((l.set a v).set b u).Perm l := by
  induction l generalizing a b with
  | nil => simp at ha
  | cons z zs ih =>
    cases a with
    | zero =>
      simp only [List.getElem?_cons_zero, Option.some.injEq] at ha
      subst ha
      cases b with
      | zero =>
        simp only [List.getElem?_cons_zero, Option.some.injEq] at hb
        subst hb
        simp
      | succ c =>
        simp only [List.getElem?_cons_succ] at hb
        simp only [List.set_cons_zero, List.set_cons_succ]
        exact perm_set_cons zs c z v hb
    | succ a' =>
      simp only [List.getElem?_cons_succ] at ha
      cases b with
      | zero =>
        simp only [List.getElem?_cons_zero, Option.some.injEq] at hb
        subst hb
        simp only [List.set_cons_zero, List.set_cons_succ]
        exact perm_set_cons zs a' z u ha
      | succ c =>
        simp only [List.getElem?_cons_succ] at hb
        simp only [List.set_cons_succ]
        exact (ih a' c ha hb).cons z

/-- A swap with both slots in range succeeds and permutes the table. -/
theorem swap2nodes_perm {α : Type} (l : List α) (a b : Nat) (ha : a < l.length)
    (hb : b < l.length) : ∃ r, swap2nodes l a b = .ok r ∧ r.Perm l := by
  refine ⟨(l.set a l[b]).set b l[a], ?_, ?_⟩
  · simp [swap2nodes, node_ptr_eq, set_node, ha, hb]
  · exact perm_set_set l a b l[a] l[b] (List.getElem?_eq_getElem ha)
      (List.getElem?_eq_getElem hb)

/-- A rotation of four slots in range succeeds and permutes the table. -/
theorem swap4nodes_perm {α : Type} (l : List α) (a b c d : Nat) (ha : a < l.length)
    (hb : b < l.length) (hc : c < l.length) (hd : d < l.length) :
    ∃ r, swap4nodes l a b c d = .ok r ∧ r.Perm l := by
  obtain ⟨r1, h1, p1⟩ := swap2nodes_perm l a b ha hb
  obtain ⟨r2, h2, p2⟩ := swap2nodes_perm r1 b c (by rw [p1.length_eq]; exact hb)
    (by rw [p1.length_eq]; exact hc)
  obtain ⟨r3, h3, p3⟩ := swap2nodes_perm r2 c d (by rw [p2.length_eq, p1.length_eq]; exact hc)
    (by rw [p2.length_eq, p1.length_eq]; exact hd)
  refine ⟨r3, ?_, (p3.trans p2).trans p1⟩
  simp [swap4nodes, h1, h2, h3]

/-- A loop whose passes each permute the table permutes the table. -/
theorem forRange_perm {α : Type} (body : Nat → List α → Res (List α)) (lo n : Nat)
    (l : List α)
    (h : ∀ j, j < n → ∀ l' : List α, l'.Perm l → ∃ r, body (lo + j) l' = .ok r ∧ r.Perm l') :
    ∃ r, forRange body lo n l = .ok r ∧ r.Perm l := by
  induction n with
  | zero => exact ⟨l, rfl, List.Perm.refl l⟩
  | succ n ih =>
    obtain ⟨r, hr, pr⟩ := ih (fun j hj => h j (by omega))
    obtain ⟨r', hr', pr'⟩ := h n (by omega) r pr
    exact ⟨r', by rw [forRange, hr, Res.bind_ok, hr'], pr'.trans pr⟩

namespace EdgeN

/-- C28 (the code departs from the claim): for every `N ≥ 4` and every `N`-node edge,
`flip` passes the index `N` to a node swap: after exchanging slots 0 and 1, the first
pass of its loop calls `swap2nodes(2, N)`, which is out of range, so the call ends in the
range assertion and returns no reordered node table. -/
theorem flip_swaps_out_of_range {ν η β : Type} (N : Nat) (e : Elem ν η) (bi : BoundaryInfo β)
    (hN : 4 ≤ N) (hn : e.nodes.length = N) :
    (∀ l : List ν, l.length = N → swap2nodes l (2 + 0) (N - 0) = .fail .assertion) ∧
      flip N e (some bi) = .fail .assertion := by
  have hswap : ∀ l : List ν, l.length = N → swap2nodes l (2 + 0) (N - 0) = .fail .assertion := by
    intro l hl
    have h2 : l[2]? = some l[2] := List.getElem?_eq_getElem (by omega)
    have hN' : l[N]? = none := List.getElem?_eq_none (by omega)
    simp [swap2nodes, node_ptr, h2, hN']
  refine ⟨hswap, ?_⟩
  obtain ⟨l1, h1, p1⟩ := swap2nodes_perm e.nodes 0 1 (by omega) (by omega)
  obtain ⟨c, hc⟩ : ∃ c, (N - 2) / 2 = c + 1 := ⟨(N - 2) / 2 - 1, by omega⟩
  have hloop : forRange (fun j nodes => swap2nodes nodes (2 + j) (N - j)) 0 ((N - 2) / 2) l1 =
      .fail .assertion := by
    rw [hc]
    exact forRange_fail_first _ 0 c l1 _ (hswap l1 (by rw [p1.length_eq]; exact hn))
  simp only [flip, Res.bind_eq_bind, h1, Res.bind_ok, hloop, Res.bind_fail]

/-- Witness of C28: a 6-node edge. -/
theorem flip_swaps_out_of_range_witness :
    (∀ l : List Nat, l.length = 6 → swap2nodes l (2 + 0) (6 - 0) = .fail .assertion) ∧
      flip 6 (⟨[0, 1, 2, 3, 4, 5], [100, 101]⟩ : Elem Nat Nat)
        (some (⟨[20, 21], []⟩ : BoundaryInfo Nat)) = .fail .assertion :=
  flip_swaps_out_of_range 6 _ _ (by decide) (by decide)

end EdgeN


namespace QuadNSq

/-- One pass of `permute` succeeds and permutes both tables. -/
theorem permute_step_perm {ν η : Type} (N : Nat) (e : Elem ν η) (hN : 2 ≤ N)
    (hn : e.nodes.length = N * N) (hnb : e.neighbors.length = 4) :
    ∃ e', permute_step N e = .ok e' ∧ e'.nodes.Perm e.nodes ∧
      e'.neighbors.Perm e.neighbors := by
  obtain ⟨M, rfl⟩ : ∃ M, N = M + 2 := ⟨N - 2, by omega⟩
  have hb := sq_bound M
  obtain ⟨l1, h1, p1⟩ := swap4nodes_perm e.nodes 0 1 2 3 (by omega) (by omega) (by omega)
    (by omega)
  obtain ⟨l2, h2, p2⟩ := forRange_perm (fun j nodes =>
      swap4nodes nodes (4 + j) (4 + j + (M + 2) - 2) (4 + j + 2 * (M + 2) - 4)
        (4 + j + 3 * (M + 2) - 6)) 0 (M + 2 - 2) l1
    (by
      intro j hj l' pl'
      have hl' : l'.length = (M + 2) * (M + 2) := by rw [pl'.length_eq, p1.length_eq, hn]
      rw [Nat.zero_add]
      exact swap4nodes_perm l' _ _ _ _ (by omega) (by omega) (by omega) (by omega))
  obtain ⟨n1, h3, p3⟩ := swap4nodes_perm e.neighbors 0 1 2 3 (by omega) (by omega) (by omega)
    (by omega)
  refine ⟨⟨l2, n1⟩, ?_, p2.trans p1, p3⟩
  simp only [permute_step, Res.bind_eq_bind, h1, Res.bind_ok, h2, swap4neighbors, h3,
    Res.pure_eq_ok]

/-- C29: for `N ≥ 2` and `k` in `0..3`, every node index that `flip` or `permute(k)`
passes to a node swap is `< N^2` and every neighbour index is `< 4`: on a quad state
with `N^2` node slots, 4 neighbour entries and 4 side and 4 edge boundary records both
calls pass every range check, and the node table (and the neighbour table) afterwards
is a permutation of the one before. -/
theorem flip_permute_reorder {ν η β : Type} (N k : Nat) (e : Elem ν η) (bi : BoundaryInfo β)
    (hN : 2 ≤ N) (hk : k < 4) (hn : e.nodes.length = N * N) (hnb : e.neighbors.length = 4)
    (hbs : bi.sides.length = 4) (hbe : bi.edges.length = 4) :
    (∀ i, i < N - 2 → N + 1 + i < N * N ∧ 4 * (N - 1) - i < N * N) ∧
    (∀ j, j < (N - 2) / 2 → 3 + j < N * N ∧ N + 2 - j < N * N ∧ 2 * N - 1 + j < N * N ∧
      3 * N - 2 - j < N * N) ∧
    (∀ j, j < N - 2 → 4 + j < N * N ∧ 4 + j + N - 2 < N * N ∧ 4 + j + 2 * N - 4 < N * N ∧
      4 + j + 3 * N - 6 < N * N) ∧
    (∃ r, flip N e (some bi) = .ok r ∧ r.1.nodes.Perm e.nodes ∧
      r.1.neighbors.Perm e.neighbors) ∧
    (∃ e', permute N e k = .ok e' ∧ e'.nodes.Perm e.nodes ∧
      e'.neighbors.Perm e.neighbors) := by
  obtain ⟨M, rfl⟩ : ∃ M, N = M + 2 := ⟨N - 2, by omega⟩
  have hb := sq_bound M
  have hsq : (M + 2) * (M + 2) = M * M + 4 * M + 4 := by ring
  have hMM : M ≤ M * M := Nat.le_mul_self M
  have r1 : ∀ i, i < M + 2 - 2 →
      M + 2 + 1 + i < (M + 2) * (M + 2) ∧ 4 * (M + 2 - 1) - i < (M + 2) * (M + 2) := by
    intro i hi
    constructor <;> omega
  have r2 : ∀ j, j < (M + 2 - 2) / 2 → 3 + j < (M + 2) * (M + 2) ∧
      M + 2 + 2 - j < (M + 2) * (M + 2) ∧ 2 * (M + 2) - 1 + j < (M + 2) * (M + 2) ∧
      3 * (M + 2) - 2 - j < (M + 2) * (M + 2) := by
    intro j hj
    refine ⟨by omega, by omega, by omega, by omega⟩
  have r3 : ∀ j, j < M + 2 - 2 → 4 + j < (M + 2) * (M + 2) ∧
      4 + j + (M + 2) - 2 < (M + 2) * (M + 2) ∧ 4 + j + 2 * (M + 2) - 4 < (M + 2) * (M + 2) ∧
      4 + j + 3 * (M + 2) - 6 < (M + 2) * (M + 2) := by
    intro j hj
    refine ⟨by omega, by omega, by omega, by omega⟩
  refine ⟨r1, r2, r3, ?_, ?_⟩
  · obtain ⟨l1, h1, p1⟩ := swap2nodes_perm e.nodes 0 1 (by omega) (by omega)
    obtain ⟨l2, h2, p2⟩ := swap2nodes_perm l1 2 3 (by rw [p1.length_eq]; omega)
      (by rw [p1.length_eq]; omega)
    have hl2 : l2.length = (M + 2) * (M + 2) := by rw [p2.length_eq, p1.length_eq, hn]
    obtain ⟨l3, h3, p3⟩ := forRange_perm (fun i nodes =>
        swap2nodes nodes (M + 2 + 1 + i) (4 * (M + 2 - 1) - i)) 0 (M + 2 - 2) l2
      (by
        intro i hi l' pl'
        have hl' : l'.length = (M + 2) * (M + 2) := by rw [pl'.length_eq, hl2]
        rw [Nat.zero_add]
        exact swap2nodes_perm l' _ _ (by rw [hl']; exact (r1 i hi).1)
          (by rw [hl']; exact (r1 i hi).2))
    have hl3 : l3.length = (M + 2) * (M + 2) := by rw [p3.length_eq, hl2]
    obtain ⟨l4, h4, p4⟩ := forRange_perm (fun j nodes => do
        let nodes ← swap2nodes nodes (3 + j) (M + 2 + 2 - j)
        swap2nodes nodes (2 * (M + 2) - 1 + j) (3 * (M + 2) - 2 - j)) 0 ((M + 2 - 2) / 2) l3
      (by
        intro j hj l' pl'
        have hl' : l'.length = (M + 2) * (M + 2) := by rw [pl'.length_eq, hl3]
        rw [Nat.zero_add]
        obtain ⟨b1, b2, b3, b4⟩ := r2 j hj
        obtain ⟨m1, hm1, pm1⟩ := swap2nodes_perm l' (3 + j) (M + 2 + 2 - j)
          (by rw [hl']; exact b1) (by rw [hl']; exact b2)
        obtain ⟨m2, hm2, pm2⟩ := swap2nodes_perm m1 (2 * (M + 2) - 1 + j)
          (3 * (M + 2) - 2 - j) (by rw [pm1.length_eq, hl']; exact b3)
          (by rw [pm1.length_eq, hl']; exact b4)
        exact ⟨m2, by simp only [Res.bind_eq_bind, hm1, Res.bind_ok, hm2], pm2.trans pm1⟩)
    obtain ⟨n1, h5, p5⟩ := swap2nodes_perm e.neighbors 1 3 (by omega) (by omega)
    obtain ⟨s1, h6, _⟩ := swap2nodes_perm bi.sides 1 3 (by omega) (by omega)
    obtain ⟨e1, h7, _⟩ := swap2nodes_perm bi.edges 1 3 (by omega) (by omega)
    refine ⟨(⟨l4, n1⟩, ⟨s1, e1⟩), ?_, ((p4.trans p3).trans p2).trans p1, p5⟩
    simp only [flip, Res.bind_eq_bind, h1, Res.bind_ok, h2, h3, swap2neighbors, h5,
      swap2boundarysides, h6, swap2boundaryedges, h7, Res.pure_eq_ok]
    simp only [Res.bind_eq_bind] at h4
    rw [h4]
    rfl
  · have ha : libmesh_assert (decide (k < 4)) = .ok () := libmesh_assert_of (by simp [hk])
    simp only [permute, Res.bind_eq_bind, ha, Res.bind_ok]
    clear ha hk
    induction k with
    | zero => exact ⟨e, rfl, List.Perm.refl _, List.Perm.refl _⟩
    | succ k ih =>
      obtain ⟨e1, he1, pn1, pb1⟩ := ih
      obtain ⟨e2, he2, pn2, pb2⟩ := permute_step_perm (M + 2) e1 hN
        (by rw [pn1.length_eq, hn]) (by rw [pb1.length_eq, hnb])
      exact ⟨e2, by rw [forRange, he1, Res.bind_ok, he2], pn2.trans pn1, pb2.trans pb1⟩

/-- Witness of C29: a 9-node quad, `permute(1)`. -/
theorem flip_permute_reorder_witness :
    (∀ i, i < 3 - 2 → 3 + 1 + i < 3 * 3 ∧ 4 * (3 - 1) - i < 3 * 3) ∧
    (∀ j, j < (3 - 2) / 2 → 3 + j < 3 * 3 ∧ 3 + 2 - j < 3 * 3 ∧ 2 * 3 - 1 + j < 3 * 3 ∧
      3 * 3 - 2 - j < 3 * 3) ∧
    (∀ j, j < 3 - 2 → 4 + j < 3 * 3 ∧ 4 + j + 3 - 2 < 3 * 3 ∧ 4 + j + 2 * 3 - 4 < 3 * 3 ∧
      4 + j + 3 * 3 - 6 < 3 * 3) ∧
    (∃ r, flip 3 (⟨[10, 11, 12, 13, 14, 15, 16, 17, 18], [0, 1, 2, 3]⟩ : Elem Nat Nat)
        (some (⟨[20, 21, 22, 23], [30, 31, 32, 33]⟩ : BoundaryInfo Nat)) = .ok r ∧
      r.1.nodes.Perm [10, 11, 12, 13, 14, 15, 16, 17, 18] ∧
      r.1.neighbors.Perm [0, 1, 2, 3]) ∧
    (∃ e', permute 3 (⟨[10, 11, 12, 13, 14, 15, 16, 17, 18], [0, 1, 2, 3]⟩ : Elem Nat Nat) 1 =
        .ok e' ∧ e'.nodes.Perm [10, 11, 12, 13, 14, 15, 16, 17, 18] ∧
      e'.neighbors.Perm [0, 1, 2, 3]) :=
  flip_permute_reorder 3 1 ⟨[10, 11, 12, 13, 14, 15, 16, 17, 18], [0, 1, 2, 3]⟩
    ⟨[20, 21, 22, 23], [30, 31, 32, 33]⟩ (by decide) (by decide) (by decide) (by decide)
    (by decide) (by decide)

end QuadNSq

namespace QuadNSq

/-- For `N ≥ 2`, a side `i < 4` and a position `n < N`, `local_side_node` returns a slot
of the quad's node table. -/
theorem local_side_node_in_range (N i n : Nat) (hN : 2 ≤ N) (hi : i < 4) (hn : n < N) :
    ∃ k, local_side_node N i n = .ok k ∧ k < N * N := by
  obtain ⟨M, rfl⟩ : ∃ M, N = M + 2 := ⟨N - 2, by omega⟩
  have hb := sq_bound M
  have h1 : libmesh_assert (decide (i < n_sides)) = .ok () :=
    libmesh_assert_of (by simp [n_sides, hi])
  have h2 : libmesh_assert (decide (n < nodes_per_side (M + 2))) = .ok () :=
    libmesh_assert_of (by simp [nodes_per_side]; omega)
  simp only [local_side_node, Res.bind_eq_bind, h1, h2, Res.bind_ok, Res.pure_eq_ok]
  by_cases c0 : n = 0
  · rw [if_pos c0]; exact ⟨i, rfl, by omega⟩
  · rw [if_neg c0]
    by_cases c1 : n = 1
    · rw [if_pos c1]; exact ⟨(i + 1) % 4, rfl, by omega⟩
    · rw [if_neg c1]
      have hiM : i * M ≤ 3 * M := Nat.mul_le_mul_right M (by omega)
      refine ⟨i * (M + 2 - 2) + 2, rfl, ?_⟩
      rw [Nat.add_sub_cancel]
      omega

/-- The node loop of `build_side_ptr` succeeds and takes every side node from the quad's
node table. -/
theorem build_side_nodes_spec {ν : Type} (N : Nat) (nodes : List ν) (i : Nat) (hN : 2 ≤ N)
    (hi : i < 4) (hlen : nodes.length = N * N) :
    ∃ l, build_side_nodes N nodes i = .ok l ∧ l.length = N ∧
      ∀ x, x ∈ l → ∃ k, k < N * N ∧ nodes[k]? = some x := by
  have key : ∀ n, n ≤ N → ∃ l, forRange (fun n side => do
        let k ← local_side_node N i n
        let p ← node_ptr nodes k
        pure (side ++ [p])) 0 n [] = .ok l ∧ l.length = n ∧
        ∀ x, x ∈ l → ∃ k, k < N * N ∧ nodes[k]? = some x := by
    intro n hn
    induction n with
    | zero => exact ⟨[], rfl, rfl, fun x hx => by cases hx⟩
    | succ n ih =>
      obtain ⟨l, hl, hlen', hmem⟩ := ih (by omega)
      obtain ⟨k, hk, hkb⟩ := local_side_node_in_range N i n hN hi (by omega)
      have hp : node_ptr nodes k = .ok nodes[k] := node_ptr_eq nodes k (by omega)
      refine ⟨l ++ [nodes[k]], ?_, by simp [hlen'], ?_⟩
      · rw [forRange, hl, Res.bind_ok, Nat.zero_add]
        simp only [Res.bind_eq_bind, hk, Res.bind_ok, hp, Res.pure_eq_ok]
      · intro x hx
        rcases List.mem_append.mp hx with h | h
        · exact hmem x h
        · have hx' : x = nodes[k] := by simpa using h
          exact ⟨k, hkb, by rw [hx']; exact List.getElem?_eq_getElem (by omega)⟩
  exact key N (le_refl N)

/-- C25: for `N ≥ 2` and a side `i < 4`, `build_side_ptr` on an existing side object of
the matching type succeeds; afterwards the side's subdomain id and mapping type (and its
p-level when refinement is enabled) equal the quad's, its interior parent is the quad
and its parent link is empty, it has `N` nodes, each a reference found in the quad's
node table, its type tag is kept, and the quad is unchanged. -/
theorem build_side_ptr_frame {ν ι : Type} (amr : Bool) (T : ElemTypeTags) (N : Nat) (self : ι)
    (quad side : ElemData ν ι) (i : Nat) (hN : 2 ≤ N) (hi : i < 4)
    (hlen : quad.nodes.length = N * N) (htype : side_type T N i = .ok side.type) :
    ∃ side', build_side_ptr amr T N self quad side i = .ok (quad, side') ∧
      side'.subdomain_id = quad.subdomain_id ∧ side'.mapping_type = quad.mapping_type ∧
      (amr = true → side'.p_level = quad.p_level) ∧
      (amr = false → side'.p_level = side.p_level) ∧
      side'.interior_parent = some self ∧ side'.parent = none ∧ side'.type = side.type ∧
      side'.nodes.length = N ∧
      ∀ x, x ∈ side'.nodes → ∃ k, k < N * N ∧ quad.nodes[k]? = some x := by
  obtain ⟨l, hl, hlN, hmem⟩ := build_side_nodes_spec N quad.nodes i hN hi hlen
  have h1 : libmesh_assert (decide (i < n_sides)) = .ok () :=
    libmesh_assert_of (by simp [n_sides, hi])
  have hne : ¬ side.type ≠ side.type := fun h => h rfl
  cases amr with
  | false =>
    refine ⟨⟨side.type, l, none, some self, quad.mapping_type, quad.subdomain_id,
      side.p_level⟩, ?_, rfl, rfl, ?_, fun _ => rfl, rfl, rfl, rfl, hlN, hmem⟩
    · simp only [build_side_ptr, Res.bind_eq_bind, h1, Res.bind_ok, htype, if_neg hne, hl,
        Res.pure_eq_ok]
      rfl
    · intro h
      exact Bool.noConfusion h
  | true =>
    refine ⟨⟨side.type, l, none, some self, quad.mapping_type, quad.subdomain_id,
      quad.p_level⟩, ?_, rfl, rfl, fun _ => rfl, ?_, rfl, rfl, rfl, hlN, hmem⟩
    · simp only [build_side_ptr, Res.bind_eq_bind, h1, Res.bind_ok, htype, if_neg hne, hl,
        Res.pure_eq_ok]
      rfl
    · intro h
      exact Bool.noConfusion h

/-- Witness of C25: side 1 of a 9-node quad, refreshed in an `EDGE3` side object. -/
theorem build_side_ptr_frame_witness :
    ∃ side', build_side_ptr true ⟨0, 1, 2, 50⟩ 3 (7 : Nat)
        (⟨60, [10, 11, 12, 13, 14, 15, 16, 17, 18], none, none, 1, 5, 2⟩ : ElemData Nat Nat)
        ⟨1, [0, 0, 0], some 3, none, 0, 0, 0⟩ 1 =
        .ok (⟨60, [10, 11, 12, 13, 14, 15, 16, 17, 18], none, none, 1, 5, 2⟩, side') ∧
      side'.subdomain_id = 5 ∧ side'.mapping_type = 1 ∧
      (true = true → side'.p_level = 2) ∧
      (true = false → side'.p_level = 0) ∧
      side'.interior_parent = some 7 ∧ side'.parent = none ∧ side'.type = 1 ∧
      side'.nodes.length = 3 ∧
      ∀ x, x ∈ side'.nodes → ∃ k, k < 3 * 3 ∧
        [10, 11, 12, 13, 14, 15, 16, 17, 18][k]? = some x :=
  build_side_ptr_frame true ⟨0, 1, 2, 50⟩ 3 7
    ⟨60, [10, 11, 12, 13, 14, 15, 16, 17, 18], none, none, 1, 5, 2⟩
    ⟨1, [0, 0, 0], some 3, none, 0, 0, 0⟩ 1 (by decide) (by decide) (by decide) (by decide)

end QuadNSq

namespace QuadNSq

/-- C31 (the code departs from the claim): for `N = 2` the divisor `N-2` of
`is_node_on_side` is zero, so for every node index `n` and every side `s < 4` the call
ends in an integer division by zero instead of a boolean. For every `N ≥ 3` the call
returns a boolean for every `n` and every `s < 4`. -/
theorem is_node_on_side_divides_by_zero (n s : Nat) (hs : s < 4) :
    is_node_on_side 2 n s = .fail .divisionByZero ∧
      ∀ N, 3 ≤ N → ∃ b, is_node_on_side N n s = .ok b := by
  have h1 : libmesh_assert (decide (s < n_sides)) = .ok () :=
    libmesh_assert_of (by simp [n_sides, hs])
  refine ⟨?_, ?_⟩
  · unfold is_node_on_side
    simp only [Res.bind_eq_bind, h1, Res.bind_ok]
    rfl
  · intro N hN
    obtain ⟨b, hb, _⟩ := is_node_on_side_eq N n s hN hs
    exact ⟨b, hb⟩

/-- Witness of C31: node 0 and side 0 of the 4-node quad. -/
theorem is_node_on_side_divides_by_zero_witness :
    is_node_on_side 2 0 0 = .fail .divisionByZero ∧
      ∀ N, 3 ≤ N → ∃ b, is_node_on_side N 0 0 = .ok b :=
  is_node_on_side_divides_by_zero 0 0 (by decide)

end QuadNSq

namespace QuadNSq

/-- On a regular grid corner 2 closes the parallelogram and the first face node sits one
step in each direction from corner 0. -/
theorem grid_corner_face (N : Nat) (hN : 3 ≤ N) (pts : List Point) (hgrid : RegularGrid N pts)
    (x : Fin 3) :
    pts.getD 2 0 x = pts.getD 1 0 x + pts.getD 3 0 x - pts.getD 0 0 x ∧
    pts.getD (4 * N - 4) 0 x = pts.getD 0 0 x +
      (pts.getD 1 0 x - pts.getD 0 0 x) / ((N - 1 : Nat) : ℚ) +
      (pts.getD 3 0 x - pts.getD 0 0 x) / ((N - 1 : Nat) : ℚ) := by
  have hc : ((N - 1 : Nat) : ℚ) ≠ 0 := Nat.cast_ne_zero.mpr (by omega)
  have hb : 4 + 4 * (N - 2) ≤ N * N := by
    obtain ⟨M, rfl⟩ : ∃ M, N = M + 2 := ⟨N - 2, by omega⟩
    exact sq_bound M
  have hlt : 3 * N - 3 + (N - 2) * 1 + 1 < N * N := by
    obtain ⟨M, rfl⟩ : ∃ M, N = M + 2 := ⟨N - 2, by omega⟩
    exact face_index_bound M 0 0 (by omega) (by omega)
  have hidx : 4 * N - 4 = 3 * N - 3 + (N - 2) * 1 + 1 := by omega
  constructor
  · rw [regularGrid_getD hgrid 2 (by omega), gridPoint, gridCoord_two]
    simp only [Pi.add_apply, Pi.smul_apply, Point.div_apply, Pi.sub_apply, smul_eq_mul]
    generalize ((N - 1 : Nat) : ℚ) = c at hc
    generalize pts.getD 0 0 x = q0
    generalize pts.getD 1 0 x = q1
    generalize pts.getD 3 0 x = q3
    field_simp
    ring
  · rw [hidx, regularGrid_getD hgrid _ hlt, gridPoint,
      gridCoord_face N 1 1 (le_refl 1) (by omega) (le_refl 1) (by omega)]
    simp only [Pi.add_apply, Pi.smul_apply, Point.div_apply, Pi.sub_apply, smul_eq_mul,
      Nat.cast_one, one_mul]

/-- Values of the iterated quarter turn at the corners and at the first face slot. -/
theorem rot_iterates (M : Nat) :
    (rot M)^[1] 0 = 1 ∧ (rot M)^[1] 1 = 2 ∧ (rot M)^[1] 3 = 0 ∧
    (rot M)^[2] 0 = 2 ∧ (rot M)^[2] 1 = 3 ∧ (rot M)^[2] 3 = 1 ∧
    (rot M)^[3] 0 = 3 ∧ (rot M)^[3] 1 = 0 ∧ (rot M)^[3] 3 = 2 ∧
    ∀ k, (rot M)^[k] (4 * (M + 2) - 4) = 4 * (M + 2) - 4 := by
  have r0 : rot M 0 = 1 := rot_low M 0 (by omega)
  have r1 : rot M 1 = 2 := rot_low M 1 (by omega)
  have r2 : rot M 2 = 3 := rot_low M 2 (by omega)
  have r3 : rot M 3 = 0 := rot_three M
  refine ⟨?_, ?_, ?_, ?_, ?_, ?_, ?_, ?_, ?_, ?_⟩
  · simp only [Function.iterate_succ_apply, Function.iterate_zero_apply, r0]
  · simp only [Function.iterate_succ_apply, Function.iterate_zero_apply, r1]
  · simp only [Function.iterate_succ_apply, Function.iterate_zero_apply, r3]
  · simp only [Function.iterate_succ_apply, Function.iterate_zero_apply, r0, r1]
  · simp only [Function.iterate_succ_apply, Function.iterate_zero_apply, r1, r2]
  · simp only [Function.iterate_succ_apply, Function.iterate_zero_apply, r3, r0]
  · simp only [Function.iterate_succ_apply, Function.iterate_zero_apply, r0, r1, r2]
  · simp only [Function.iterate_succ_apply, Function.iterate_zero_apply, r1, r2, r3]
  · simp only [Function.iterate_succ_apply, Function.iterate_zero_apply, r3, r0, r1]
  · intro k
    induction k with
    | zero => rfl
    | succ k ih =>
      rw [Function.iterate_succ_apply, rot_out M _ (by omega), ih]

/-- C32 (the code departs from the claim): `permute` rotates the corners and the
edge-interior nodes but leaves the `(N-2)^2` face nodes in their slots. For every
`N ≥ 4`, every `k` in `1..3` and every regular grid over a parallelogram with corner 0
different from the other three corners, `permute(k)` returns an element on which
`has_affine_map`, with a comparison that accepts only equal vectors, returns `false`:
the check of the first face node fails. -/
theorem permute_breaks_affine_map {η : Type} (feq : Point → Point → Bool) (N k : Nat)
    (e : Elem Point η) (hfeq : ∀ a b, feq a b = true → a = b) (hN : 4 ≤ N) (hk1 : 1 ≤ k)
    (hk : k < 4) (hgrid : RegularGrid N e.nodes) (hnb : e.neighbors.length = 4)
    (h1 : e.nodes.getD 1 0 ≠ e.nodes.getD 0 0) (h2 : e.nodes.getD 2 0 ≠ e.nodes.getD 0 0)
    (h3 : e.nodes.getD 3 0 ≠ e.nodes.getD 0 0) :
    ∃ e', permute N e k = .ok e' ∧ has_affine_map feq N e'.nodes = .ok false := by
  obtain ⟨e', he', hlen, _, hnodes, _⟩ := permute_spec N (by omega) k hk e hgrid.1 hnb
  refine ⟨e', he', ?_⟩
  obtain ⟨r, hr, hiff⟩ := quad_affine_spec feq N (by omega) e'.nodes hlen
  rw [hr]
  congr 1
  cases r with
  | false => rfl
  | true =>
    exfalso
    have hall := (hiff.mp rfl).2 0 (by omega)
    have hface := hfeq _ _ (hall.2.2.2.2 0 (by omega))
    have hget : ∀ p, e'.nodes.getD p 0 = e.nodes.getD ((rot (N - 2))^[k] p) 0 := by
      intro p
      simp only [List.getD_eq_getElem?_getD, hnodes p]
    obtain ⟨M, rfl⟩ : ∃ M, N = M + 2 := ⟨N - 2, by omega⟩
    obtain ⟨a10, a11, a13, a20, a21, a23, a30, a31, a33, afix⟩ := rot_iterates M
    have hidx : 3 * (M + 2) - 3 + (M + 2 - 2) * (1 + 0) + (1 + 0) = 4 * (M + 2) - 4 := by
      omega
    have hc3 : (3 : ℚ) ≤ ((M + 2 - 1 : Nat) : ℚ) := by
      exact_mod_cast (by omega : 3 ≤ M + 2 - 1)
    rw [hidx, hget 0, hget 1, hget 3, hget (4 * (M + 2) - 4), Nat.add_sub_cancel, afix k]
      at hface
    have hk' : k = 1 ∨ k = 2 ∨ k = 3 := by omega
    generalize hcdef : ((M + 2 - 1 : Nat) : ℚ) = c at hface hc3
    have hcoord : ∀ x : Fin 3,
        e.nodes.getD 2 0 x = e.nodes.getD 1 0 x + e.nodes.getD 3 0 x - e.nodes.getD 0 0 x ∧
        e.nodes.getD (4 * (M + 2) - 4) 0 x = e.nodes.getD 0 0 x +
          (e.nodes.getD 1 0 x - e.nodes.getD 0 0 x) / c +
          (e.nodes.getD 3 0 x - e.nodes.getD 0 0 x) / c := by
      intro x
      rw [← hcdef]
      exact grid_corner_face (M + 2) (by omega) e.nodes hgrid x
    have hc0 : c ≠ 0 := by
      intro h0
      rw [h0] at hc3
      norm_num at hc3
    have hc2 : c - 2 ≠ 0 := by
      intro h0
      have : c = 2 := by linarith
      rw [this] at hc3
      norm_num at hc3
    rcases hk' with rfl | rfl | rfl
    · rw [a10, a11, a13] at hface
      apply h1
      funext x
      have hx := congrFun hface x
      obtain ⟨e2, ef⟩ := hcoord x
      simp only [Pi.add_apply, Point.mul, Point.div_apply, Pi.sub_apply, Nat.cast_add,
        Nat.cast_one, Nat.cast_zero, add_zero, mul_one, ef, e2] at hx
      generalize e.nodes.getD 0 0 x = q0 at hx ⊢
      generalize e.nodes.getD 1 0 x = q1 at hx ⊢
      generalize e.nodes.getD 3 0 x = q3 at hx ⊢
      field_simp at hx
      have hz : (q1 - q0) * (c - 2) = 0 := by linear_combination hx
      rcases mul_eq_zero.mp hz with h | h
      · linarith
      · exact absurd h hc2
    · rw [a20, a21, a23] at hface
      apply h2
      funext x
      have hx := congrFun hface x
      obtain ⟨e2, ef⟩ := hcoord x
      simp only [Pi.add_apply, Point.mul, Point.div_apply, Pi.sub_apply, Nat.cast_add,
        Nat.cast_one, Nat.cast_zero, add_zero, mul_one, ef, e2] at hx
      rw [e2]
      generalize e.nodes.getD 0 0 x = q0 at hx ⊢
      generalize e.nodes.getD 1 0 x = q1 at hx ⊢
      generalize e.nodes.getD 3 0 x = q3 at hx ⊢
      field_simp at hx
      have hz : (q1 + q3 - 2 * q0) * (c - 2) = 0 := by linear_combination hx
      rcases mul_eq_zero.mp hz with h | h
      · linarith
      · exact absurd h hc2
    · rw [a30, a31, a33] at hface
      apply h3
      funext x
      have hx := congrFun hface x
      obtain ⟨e2, ef⟩ := hcoord x
      simp only [Pi.add_apply, Point.mul, Point.div_apply, Pi.sub_apply, Nat.cast_add,
        Nat.cast_one, Nat.cast_zero, add_zero, mul_one, ef, e2] at hx
      generalize e.nodes.getD 0 0 x = q0 at hx ⊢
      generalize e.nodes.getD 1 0 x = q1 at hx ⊢
      generalize e.nodes.getD 3 0 x = q3 at hx ⊢
      field_simp at hx
      have hz : (q3 - q0) * (c - 2) = 0 := by linear_combination hx
      rcases mul_eq_zero.mp hz with h | h
      · linarith
      · exact absurd h hc2

end QuadNSq

/-- A table of four entries, written out. -/
theorem list_four {α : Type} (l : List α) (hlen : l.length = 4) :
    ∃ x0 x1 x2 x3, [x0, x1, x2, x3] = l := by
  match l, hlen with
  | [x0, x1, x2, x3], _ => exact ⟨x0, x1, x2, x3, rfl⟩

/-- A table of nine entries, written out. -/
theorem list_nine {α : Type} (l : List α) (hlen : l.length = 9) :
    ∃ x0 x1 x2 x3 x4 x5 x6 x7 x8, [x0, x1, x2, x3, x4, x5, x6, x7, x8] = l := by
  match l, hlen with
  | [x0, x1, x2, x3, x4, x5, x6, x7, x8], _ => exact ⟨x0, x1, x2, x3, x4, x5, x6, x7, x8, rfl⟩

namespace QuadNSq

/-- The node table, the neighbour table and the boundary records after `flip` on a
9-node quad: slot 4 is exchanged with the face slot 8. -/
theorem flip_three {ν η β : Type} (p0 p1 p2 p3 p4 p5 p6 p7 p8 : ν) (n0 n1 n2 n3 : η)
    (s0 s1 s2 s3 d0 d1 d2 d3 : β) :
    flip 3 ⟨[p0, p1, p2, p3, p4, p5, p6, p7, p8], [n0, n1, n2, n3]⟩
      (some ⟨[s0, s1, s2, s3], [d0, d1, d2, d3]⟩) =
    .ok (⟨[p1, p0, p3, p2, p8, p5, p6, p7, p4], [n0, n3, n2, n1]⟩,
      ⟨[s0, s3, s2, s1], [d0, d3, d2, d1]⟩) := rfl

/-- C33 (the code departs from the claim): on a 9-node quad `flip` exchanges the
interior node of side 0 with the face node. For every regular grid over a parallelogram
with corner 3 different from corner 0, `flip` returns an element on which
`has_affine_map`, with a comparison that accepts only equal vectors, returns `false`:
the first side check reads the face node. -/
theorem flip_breaks_affine_map {η β : Type} (feq : Point → Point → Bool) (e : Elem Point η)
    (bi : BoundaryInfo β) (hfeq : ∀ a b, feq a b = true → a = b)
    (hgrid : RegularGrid 3 e.nodes) (hnb : e.neighbors.length = 4)
    (hbs : bi.sides.length = 4) (hbe : bi.edges.length = 4)
    (h3 : e.nodes.getD 3 0 ≠ e.nodes.getD 0 0) :
    ∃ r, flip 3 e (some bi) = .ok r ∧ has_affine_map feq 3 r.1.nodes = .ok false := by
  obtain ⟨nodes, nbs⟩ := e
  obtain ⟨sides, edges⟩ := bi
  obtain ⟨p0, p1, p2, p3, p4, p5, p6, p7, p8, rfl⟩ := list_nine nodes hgrid.1
  obtain ⟨n0, n1, n2, n3, rfl⟩ := list_four nbs hnb
  obtain ⟨s0, s1, s2, s3, rfl⟩ := list_four sides hbs
  obtain ⟨d0, d1, d2, d3, rfl⟩ := list_four edges hbe
  refine ⟨_, flip_three _ _ _ _ _ _ _ _ _ _ _ _ _ _ _ _ _ _ _ _ _, ?_⟩
  obtain ⟨r, hr, hiff⟩ := quad_affine_spec feq 3 (by omega)
    [p1, p0, p3, p2, p8, p5, p6, p7, p4] rfl
  rw [hr]
  congr 1
  cases r with
  | false => rfl
  | true =>
    exfalso
    have hall := (hiff.mp rfl).2 0 (by omega)
    have hside := hfeq _ _ hall.1
    apply h3
    funext x
    have hx := congrFun hside x
    obtain ⟨_, ef⟩ := grid_corner_face 3 (by omega) _ hgrid x
    have g0 : ([p0, p1, p2, p3, p4, p5, p6, p7, p8] : List Point).getD 0 0 = p0 := rfl
    have g1 : ([p0, p1, p2, p3, p4, p5, p6, p7, p8] : List Point).getD 1 0 = p1 := rfl
    have g3 : ([p0, p1, p2, p3, p4, p5, p6, p7, p8] : List Point).getD 3 0 = p3 := rfl
    have g8 : ([p0, p1, p2, p3, p4, p5, p6, p7, p8] : List Point).getD (4 * 3 - 4) 0 = p8 :=
      rfl
    have f0 : ([p1, p0, p3, p2, p8, p5, p6, p7, p4] : List Point).getD 0 0 = p1 := rfl
    have f1 : ([p1, p0, p3, p2, p8, p5, p6, p7, p4] : List Point).getD 1 0 = p0 := rfl
    have f4 : ([p1, p0, p3, p2, p8, p5, p6, p7, p4] : List Point).getD (3 + (1 + 0)) 0 = p8 :=
      rfl
    rw [g0, g1, g3, g8] at ef
    rw [g0, g3]
    rw [f0, f1, f4] at hx
    simp only [Point.mul, Point.div_apply, Pi.sub_apply, ef] at hx
    have hc : (((3 - 1 : Nat) : ℚ)) = 2 := by norm_num
    rw [hc] at hx
    have hc1 : (((1 + 0 : Nat) : ℚ)) = 1 := by norm_num
    rw [hc1] at hx
    linarith

end QuadNSq

namespace QuadNSq

/-- A concrete regular grid: sixteen nodes with unit steps over the square with corners
`(0,0), (3,0), (3,3), (0,3)`. -/
theorem grid4_regular :
    RegularGrid 4 [![0, 0, 0], ![3, 0, 0], ![3, 3, 0], ![0, 3, 0], ![1, 0, 0], ![2, 0, 0],
      ![3, 1, 0], ![3, 2, 0], ![2, 3, 0], ![1, 3, 0], ![0, 2, 0], ![0, 1, 0], ![1, 1, 0],
      ![2, 1, 0], ![1, 2, 0], ![2, 2, 0]] := by
  refine ⟨rfl, ?_⟩
  intro n hn
  have hn' : n < 16 := hn
  interval_cases n <;>
    simp only [gridPoint, gridCoord, List.getD, List.getElem?_cons_zero, List.getElem?_cons_succ,
      Option.getD_some, Option.some.injEq] <;>
    (funext k
     simp only [Pi.add_apply, Pi.smul_apply, Pi.sub_apply, Point.div_apply, smul_eq_mul]
     fin_cases k <;> norm_num)

/-- Witness of C32: the 16-node unit-step grid, one quarter turn, exact comparison. -/
theorem permute_breaks_affine_map_witness :
    ∃ e', permute 4 (⟨[![0, 0, 0], ![3, 0, 0], ![3, 3, 0], ![0, 3, 0], ![1, 0, 0], ![2, 0, 0],
        ![3, 1, 0], ![3, 2, 0], ![2, 3, 0], ![1, 3, 0], ![0, 2, 0], ![0, 1, 0], ![1, 1, 0],
        ![2, 1, 0], ![1, 2, 0], ![2, 2, 0]], [0, 1, 2, 3]⟩ : Elem Point Nat) 1 = .ok e' ∧
      has_affine_map (fun a b => decide (a = b)) 4 e'.nodes = .ok false :=
  permute_breaks_affine_map _ 4 1 _ (fun _ _ h => of_decide_eq_true h) (by decide) (by decide)
    (by decide) grid4_regular rfl
    (fun h => by have := congrFun h 0; norm_num [List.getD] at this)
    (fun h => by have := congrFun h 0; norm_num [List.getD] at this)
    (fun h => by have := congrFun h 1; norm_num [List.getD] at this)

/-- Witness of C33: the 9-node unit-step grid, exact comparison. -/
theorem flip_breaks_affine_map_witness :
    ∃ r, flip 3 (⟨[![0, 0, 0], ![2, 0, 0], ![2, 2, 0], ![0, 2, 0], ![1, 0, 0], ![2, 1, 0],
        ![1, 2, 0], ![0, 1, 0], ![1, 1, 0]], [0, 1, 2, 3]⟩ : Elem Point Nat)
        (some (⟨[20, 21, 22, 23], [30, 31, 32, 33]⟩ : BoundaryInfo Nat)) = .ok r ∧
      has_affine_map (fun a b => decide (a = b)) 3 r.1.nodes = .ok false :=
  flip_breaks_affine_map _ _ _ (fun _ _ h => of_decide_eq_true h) grid3_regular rfl rfl rfl
    (fun h => by have := congrFun h 1; norm_num [List.getD] at this)

end QuadNSq

namespace QuadNSq

/-- On a 4-node quad `has_affine_map` is the parallelogram check alone. -/
theorem has_affine_map_two (feq : Point → Point → Bool) (a0 a1 a2 a3 : Point) :
    has_affine_map feq 2 [a0, a1, a2, a3] = .ok (feq (a1 - a0) (a2 - a3)) := by
  have e : has_affine_map feq 2 [a0, a1, a2, a3] =
      if !(feq (a1 - a0) (a2 - a3)) then .ok false else .ok true := rfl
  rw [e]
  cases feq (a1 - a0) (a2 - a3) <;> rfl

/-- The tables after `permute(k)`, `k < 4`, and after `flip` on a 4-node quad. -/
theorem permute_flip_two {ν η β : Type} (a0 a1 a2 a3 : ν) (n0 n1 n2 n3 : η)
    (s0 s1 s2 s3 d0 d1 d2 d3 : β) :
    permute 2 ⟨[a0, a1, a2, a3], [n0, n1, n2, n3]⟩ 0 =
      .ok ⟨[a0, a1, a2, a3], [n0, n1, n2, n3]⟩ ∧
    permute 2 ⟨[a0, a1, a2, a3], [n0, n1, n2, n3]⟩ 1 =
      .ok ⟨[a1, a2, a3, a0], [n1, n2, n3, n0]⟩ ∧
    permute 2 ⟨[a0, a1, a2, a3], [n0, n1, n2, n3]⟩ 2 =
      .ok ⟨[a2, a3, a0, a1], [n2, n3, n0, n1]⟩ ∧
    permute 2 ⟨[a0, a1, a2, a3], [n0, n1, n2, n3]⟩ 3 =
      .ok ⟨[a3, a0, a1, a2], [n3, n0, n1, n2]⟩ ∧
    flip 2 ⟨[a0, a1, a2, a3], [n0, n1, n2, n3]⟩ (some ⟨[s0, s1, s2, s3], [d0, d1, d2, d3]⟩) =
      .ok (⟨[a1, a0, a3, a2], [n0, n3, n2, n1]⟩, ⟨[s0, s3, s2, s1], [d0, d3, d2, d1]⟩) := by
  refine ⟨rfl, ?_, ?_, ?_, rfl⟩ <;>
    simp [permute, permute_step, forRange, swap4nodes, swap2nodes, swap4neighbors, node_ptr,
      set_node, libmesh_assert]

/-- For `N = 2` the orientation operations keep the affine judgment: on a regular grid
(a parallelogram) `has_affine_map` is `true` after `permute(k)` for every `k < 4` and
after `flip`, for every comparison that accepts equal vectors. -/
theorem orientation_keeps_affine_two {η β : Type} (feq : Point → Point → Bool)
    (e : Elem Point η) (bi : BoundaryInfo β) (hfeq : ∀ v, feq v v = true)
    (hgrid : RegularGrid 2 e.nodes) (hnb : e.neighbors.length = 4)
    (hbs : bi.sides.length = 4) (hbe : bi.edges.length = 4) :
    (∀ k, k < 4 → ∃ e', permute 2 e k = .ok e' ∧ has_affine_map feq 2 e'.nodes = .ok true) ∧
    ∃ r, flip 2 e (some bi) = .ok r ∧ has_affine_map feq 2 r.1.nodes = .ok true := by
  obtain ⟨nodes, nbs⟩ := e
  obtain ⟨sides, edges⟩ := bi
  obtain ⟨p0, p1, p2, p3, rfl⟩ := list_four nodes hgrid.1
  obtain ⟨n0, n1, n2, n3, rfl⟩ := list_four nbs hnb
  obtain ⟨s0, s1, s2, s3, rfl⟩ := list_four sides hbs
  obtain ⟨d0, d1, d2, d3, rfl⟩ := list_four edges hbe
  have h2 : p2 = p1 + p3 - p0 := by
    have h := regularGrid_getD hgrid 2 (by omega)
    rw [gridPoint, gridCoord_two] at h
    have g0 : ([p0, p1, p2, p3] : List Point).getD 0 0 = p0 := rfl
    have g1 : ([p0, p1, p2, p3] : List Point).getD 1 0 = p1 := rfl
    have g2 : ([p0, p1, p2, p3] : List Point).getD 2 0 = p2 := rfl
    have g3 : ([p0, p1, p2, p3] : List Point).getD 3 0 = p3 := rfl
    rw [g0, g1, g2, g3] at h
    rw [h]
    funext x
    simp only [Pi.add_apply, Pi.smul_apply, Point.div_apply, Pi.sub_apply, smul_eq_mul]
    norm_num
    ring
  obtain ⟨e0, e1, e2, e3, ef⟩ := permute_flip_two p0 p1 p2 p3 n0 n1 n2 n3 s0 s1 s2 s3 d0 d1
    d2 d3
  refine ⟨?_, ?_⟩
  · intro k hk
    interval_cases k
    · refine ⟨_, e0, ?_⟩
      rw [has_affine_map_two, h2]
      have e : p1 + p3 - p0 - p3 = p1 - p0 := by abel
      rw [e, hfeq]
    · refine ⟨_, e1, ?_⟩
      rw [has_affine_map_two, h2]
      have e : p1 + p3 - p0 - p1 = p3 - p0 := by abel
      rw [e, hfeq]
    · refine ⟨_, e2, ?_⟩
      rw [has_affine_map_two, h2]
      have e : p3 - (p1 + p3 - p0) = p0 - p1 := by abel
      rw [e, hfeq]
    · refine ⟨_, e3, ?_⟩
      rw [has_affine_map_two, h2]
      have e : p1 - (p1 + p3 - p0) = p0 - p3 := by abel
      rw [e, hfeq]
  · refine ⟨_, ef, ?_⟩
    rw [has_affine_map_two, h2]
    have e : p3 - (p1 + p3 - p0) = p0 - p1 := by abel
    rw [e, hfeq]

end QuadNSq

namespace Netcdf

theorem bytes_le_length (w x : Nat) : (bytes_le w x).length = w := by
  induction w generalizing x with
  | zero => rfl
  | succ w ih => simp [bytes_le, ih]

theorem value_le_bytes_le (w x : Nat) : value_le (bytes_le w x) = x % 256 ^ w := by
  induction w generalizing x with
  | zero => simp [bytes_le, value_le, Nat.mod_one]
  | succ w ih =>
    simp only [bytes_le, value_le, ih, pow_succ]
    rw [Nat.mul_comm (256 ^ w) 256, Nat.mod_mul]

theorem encode_length (A : Target) (w x : Nat) : (encode A w x).length = w := by
  unfold encode
  split <;> simp [bytes_le_length]

/-- Reading back an object representation gives the bit pattern. -/
theorem decode_encode (A : Target) (w x : Nat) (h : x < 256 ^ w) :
    decode A (encode A w x) = x := by
  unfold decode encode
  split <;> simp [value_le_bytes_le, Nat.mod_eq_of_lt h]

theorem to_value_modEq (w : Nat) (s : Bool) (x : Nat) :
    to_value w s x ≡ (x : Int) [ZMOD 2 ^ (8 * w)] := by
  unfold to_value
  split
  · exact (Int.modEq_iff_dvd.mpr ⟨1, by ring⟩)
  · exact Int.ModEq.refl _

theorem of_value_modEq (w : Nat) (v : Int) :
    ((of_value w v : Nat) : Int) ≡ v [ZMOD 2 ^ (8 * w)] := by
  unfold of_value
  have hpos : (0 : Int) < 2 ^ (8 * w) := by positivity
  rw [Int.toNat_of_nonneg (Int.emod_nonneg _ (ne_of_gt hpos))]
  exact Int.mod_modEq _ _

theorem of_value_lt (w : Nat) (v : Int) : of_value w v < 256 ^ w := by
  unfold of_value
  have hpos : (0 : Int) < 2 ^ (8 * w) := by positivity
  have h1 := Int.emod_lt_of_pos v hpos
  have h2 := Int.emod_nonneg v (ne_of_gt hpos)
  have e : (256 : Nat) ^ w = 2 ^ (8 * w) := by
    rw [pow_mul]
    norm_num
  rw [e]
  zify
  rw [Int.toNat_of_nonneg h2]
  exact_mod_cast h1

/-- Converting an integer to a type at least as wide and back restores the bit
pattern. -/
theorem int_round_trip (wa wb : Nat) (sa sb : Bool) (x : Nat) (hw : wa ≤ wb)
    (hx : x < 256 ^ wa) :
    of_value wa (to_value wb sb (of_value wb (to_value wa sa x))) = x := by
  have hdvd : ((2 : Int) ^ (8 * wa)) ∣ 2 ^ (8 * wb) := pow_dvd_pow 2 (by omega)
  have h1 := to_value_modEq wa sa x
  have h2 := (of_value_modEq wb (to_value wa sa x)).of_dvd hdvd
  have h3 := (to_value_modEq wb sb (of_value wb (to_value wa sa x))).of_dvd hdvd
  have h4 := of_value_modEq wa (to_value wb sb (of_value wb (to_value wa sa x)))
  have h5 := ((h4.trans h3).trans h2).trans h1
  have hlt := of_value_lt wa (to_value wb sb (of_value wb (to_value wa sa x)))
  have e : (256 : Nat) ^ wa = 2 ^ (8 * wa) := by
    rw [pow_mul]
    norm_num
  rw [e] at hlt hx
  unfold Int.ModEq at h5
  have hx' : ((x : Int)) % 2 ^ (8 * wa) = x := Int.emod_eq_of_lt (by positivity)
    (by exact_mod_cast hx)
  have hy' : ((of_value wa (to_value wb sb (of_value wb (to_value wa sa x))) : Nat) : Int)
      % 2 ^ (8 * wa) = _ := Int.emod_eq_of_lt (by positivity) (by exact_mod_cast hlt)
  rw [hx', hy'] at h5
  exact_mod_cast h5

/-- Converting a value to its own integer type keeps the bit pattern. -/
theorem int_same_type (w : Nat) (s : Bool) (x : Nat) (hx : x < 256 ^ w) :
    of_value w (to_value w s x) = x := by
  have h1 := to_value_modEq w s x
  have h4 := of_value_modEq w (to_value w s x)
  have h5 := h4.trans h1
  have hlt := of_value_lt w (to_value w s x)
  have e : (256 : Nat) ^ w = 2 ^ (8 * w) := by
    rw [pow_mul]
    norm_num
  rw [e] at hlt hx
  unfold Int.ModEq at h5
  have hx' : ((x : Int)) % 2 ^ (8 * w) = x := Int.emod_eq_of_lt (by positivity)
    (by exact_mod_cast hx)
  have hy' : ((of_value w (to_value w s x) : Nat) : Int)
      % 2 ^ (8 * w) = _ := Int.emod_eq_of_lt (by positivity) (by exact_mod_cast hlt)
  rw [hx', hy'] at h5
  exact_mod_cast h5

end Netcdf

namespace Netcdf

theorem fst_unique {α β : Type} (l : List (α × β)) (h : (l.map Prod.fst).Nodup) (a : α)
    (b b' : β) (h1 : (a, b) ∈ l) (h2 : (a, b') ∈ l) : b = b' := by
  induction l with
  | nil => simp at h1
  | cons x xs ih =>
    rw [List.map_cons, List.nodup_cons] at h
    rcases List.mem_cons.mp h1 with e1 | m1
    · rcases List.mem_cons.mp h2 with e2 | m2
      · rw [← e1] at e2
        exact (Prod.mk.inj e2).2.symm ▸ rfl
      · exfalso
        apply h.1
        rw [← e1]
        exact List.mem_map.mpr ⟨(a, b'), m2, rfl⟩
    · rcases List.mem_cons.mp h2 with e2 | m2
      · exfalso
        apply h.1
        rw [← e2]
        exact List.mem_map.mpr ⟨(a, b), m1, rfl⟩
      · exact ih h.2 m1 m2

theorem int_arith_eq (v : Int) (h1 : -(2 ^ 31) ≤ v) (h2 : v < 2 ^ 31) : int_arith v = .ok v := by
  unfold int_arith
  rw [if_pos ⟨h1, h2⟩]

/-- Without overflow `CASE(nc1,nc2)` is `nc1*256+nc2`. -/
theorem CASE_eq (s d : Int) (hs1 : -(2 ^ 22) ≤ s) (hs2 : s < 2 ^ 22) (hd1 : -(2 ^ 22) ≤ d)
    (hd2 : d < 2 ^ 22) : CASE s d = .ok (s * 256 + d) := by
  unfold CASE
  simp only [Res.bind_eq_bind]
  rw [int_arith_eq (s * 256) (by omega) (by omega), Res.bind_ok,
    int_arith_eq (s * 256 + d) (by omega) (by omega)]

theorem mem_convertible (K : NcConst) (s : Int) (t : CType) (h : (s, t) ∈ type_table K) :
    s ∈ convertible K :=
  List.mem_map.mpr ⟨(s, t), h, rfl⟩

theorem mem_arms (K : NcConst) (a : Res Int × CType × CType) :
    a ∈ arms K ↔ ∃ s ts d td, (s, ts) ∈ type_table K ∧ (d, td) ∈ type_table K ∧
      a = (CASE s d, ts, td) := by
  unfold arms
  rw [List.mem_flatMap]
  constructor
  · rintro ⟨⟨s, ts⟩, hs, ha⟩
    obtain ⟨⟨d, td⟩, hd, rfl⟩ := List.mem_map.mp ha
    exact ⟨s, ts, d, td, hs, hd, rfl⟩
  · rintro ⟨s, ts, d, td, hs, hd, rfl⟩
    exact ⟨(s, ts), hs, List.mem_map.mpr ⟨(d, td), hd, rfl⟩⟩

/-- An arm is selected only by the label of one of the 121 type pairs. -/
theorem select_arm_some (K : NcConst) (sel : Int) (ts td : CType)
    (h : select_arm K sel = some (ts, td)) :
    ∃ s d, (s, ts) ∈ type_table K ∧ (d, td) ∈ type_table K ∧ CASE s d = .ok sel := by
  unfold select_arm at h
  cases hf : (arms K).find? (fun a => decide (a.1 = .ok sel)) with
  | none => rw [hf] at h; simp at h
  | some a =>
    rw [hf] at h
    have hp := List.find?_some hf
    have hm := List.mem_of_find?_eq_some hf
    obtain ⟨s, ts', d, td', hs, hd, rfl⟩ := (mem_arms K a).mp hm
    simp only [Option.map_some', Option.some.injEq, Prod.mk.injEq] at h
    obtain ⟨rfl, rfl⟩ := h
    exact ⟨s, d, hs, hd, of_decide_eq_true hp⟩

theorem select_arm_none (K : NcConst) (sel : Int)
    (h : ∀ s ts d td, (s, ts) ∈ type_table K → (d, td) ∈ type_table K → CASE s d ≠ .ok sel) :
    select_arm K sel = none := by
  cases hsel : select_arm K sel with
  | none => rfl
  | some p =>
    obtain ⟨ts, td⟩ := p
    obtain ⟨s, d, hs, hd, hc⟩ := select_arm_some K sel ts td hsel
    exact absurd hc (h s ts d td hs hd)

/-- With valid type codes the label of a pair of convertible types selects the arm of
that pair. -/
theorem select_arm_mem (K : NcConst) (hK : K.Valid) (s d : Int) (ts td : CType)
    (hs : (s, ts) ∈ type_table K) (hd : (d, td) ∈ type_table K) :
    CASE s d = .ok (s * 256 + d) ∧ select_arm K (s * 256 + d) = some (ts, td) := by
  have rs := hK.2 s (mem_convertible K s ts hs)
  have rd := hK.2 d (mem_convertible K d td hd)
  have hc : CASE s d = .ok (s * 256 + d) := CASE_eq s d (by omega) (by omega) (by omega)
    (by omega)
  refine ⟨hc, ?_⟩
  cases hsel : select_arm K (s * 256 + d) with
  | none =>
    exfalso
    unfold select_arm at hsel
    rw [Option.map_eq_none', List.find?_eq_none] at hsel
    have := hsel (CASE s d, ts, td) ((mem_arms K _).mpr ⟨s, ts, d, td, hs, hd, rfl⟩)
    simp [hc] at this
  | some p =>
    obtain ⟨ts', td'⟩ := p
    obtain ⟨s', d', hs', hd', hc'⟩ := select_arm_some K _ ts' td' hsel
    have rs' := hK.2 s' (mem_convertible K s' ts' hs')
    have rd' := hK.2 d' (mem_convertible K d' td' hd')
    rw [CASE_eq s' d' (by omega) (by omega) (by omega) (by omega)] at hc'
    have e := Res.ok.inj hc'
    have es : s' = s := by omega
    have ed : d' = d := by omega
    subst es
    subst ed
    rw [fst_unique _ hK.1 s' ts ts' hs hs', fst_unique _ hK.1 d' td td' hd hd']

/-- With valid type codes `nctypesizeof` of a convertible type is the size of its C
type. -/
theorem nctypesizeof_mem (K : NcConst) (A : Target) (hK : K.Valid) (s : Int) (t : CType)
    (hs : (s, t) ∈ type_table K) : nctypesizeof K A s = .ok (sizeof t) := by
  have hnd := hK.1
  simp only [convertible, type_table, List.map_cons, List.map_nil, List.nodup_cons,
    List.mem_cons, List.mem_singleton, not_or, List.not_mem_nil, not_false_eq_true,
    List.nodup_nil, and_true] at hnd
  simp only [type_table, List.mem_cons, List.mem_singleton, Prod.mk.injEq,
    List.not_mem_nil, or_false] at hs
  unfold nctypesizeof
  rcases hs with h | h | h | h | h | h | h | h | h | h | h <;>
    (obtain ⟨rfl, rfl⟩ := h
     simp [hnd, Ne.symm, eq_comm])

end Netcdf

namespace Netcdf

theorem convert_loop_succ (K : NcConst) (A : Target) (fcvt : CType → CType → Nat → Nat)
    (srctype dsttype : Int) (value : List Nat) (n : Nat) (memory : List Nat) (mo vo : Nat) :
    convert_loop K A fcvt srctype dsttype value (n + 1) memory mo vo =
      (CASE srctype dsttype).bind fun sel =>
        match select_arm K sel with
        | none => .ok (K.NC_EINVAL, memory)
        | some (ts, td) =>
          (ARM A fcvt ts td value vo memory mo).bind fun memory =>
            (nctypesizeof K A srctype).bind fun vstep =>
              (nctypesizeof K A dsttype).bind fun mstep =>
                convert_loop K A fcvt srctype dsttype value n memory (mo + mstep)
                  (vo + vstep) := rfl

/-- The loop returns `NC_EINVAL` only from the `default` branch of its first pass, with
the destination buffer as it was. -/
theorem convert_loop_einval (K : NcConst) (A : Target) (fcvt : CType → CType → Nat → Nat)
    (hne : K.NC_NOERR ≠ K.NC_EINVAL) (srctype dsttype : Int) (value : List Nat) (n : Nat)
    (memory : List Nat) (mo vo : Nat) (m : List Nat)
    (h : convert_loop K A fcvt srctype dsttype value n memory mo vo = .ok (K.NC_EINVAL, m)) :
    m = memory ∧ 0 < n ∧ ∃ sel, CASE srctype dsttype = .ok sel ∧ select_arm K sel = none := by
  induction n generalizing memory mo vo with
  | zero =>
    exfalso
    have e : convert_loop K A fcvt srctype dsttype value 0 memory mo vo =
        .ok (K.NC_NOERR, memory) := rfl
    rw [e] at h
    exact hne (Prod.mk.inj (Res.ok.inj h)).1
  | succ n ih =>
    rw [convert_loop_succ] at h
    cases hc : CASE srctype dsttype with
    | fail f => rw [hc] at h; exact Res.noConfusion h
    | ok sel =>
      rw [hc, Res.bind_ok] at h
      cases hsel : select_arm K sel with
      | none =>
        rw [hsel] at h
        exact ⟨((Prod.mk.inj (Res.ok.inj h)).2).symm, Nat.succ_pos n, sel, rfl, hsel⟩
      | some p =>
        exfalso
        obtain ⟨ts, td⟩ := p
        rw [hsel] at h
        simp only at h
        cases h1 : ARM A fcvt ts td value vo memory mo with
        | fail f => rw [h1] at h; exact Res.noConfusion h
        | ok mem1 =>
          rw [h1, Res.bind_ok] at h
          cases h2 : nctypesizeof K A srctype with
          | fail f => rw [h2] at h; exact Res.noConfusion h
          | ok vstep =>
            rw [h2, Res.bind_ok] at h
            cases h3 : nctypesizeof K A dsttype with
            | fail f => rw [h3] at h; exact Res.noConfusion h
            | ok mstep =>
              rw [h3, Res.bind_ok] at h
              obtain ⟨_, _, sel', hc', hsel'⟩ := ih mem1 (mo + mstep) (vo + vstep) h
              rw [hc] at hc'
              rw [← Res.ok.inj hc', hsel] at hsel'
              exact Option.noConfusion hsel'

/-- With at least one element and no arm for the type pair, the call returns
`NC_EINVAL` and leaves the destination buffer as it was. -/
theorem convert_default (K : NcConst) (A : Target) (fcvt : CType → CType → Nat → Nat)
    (srctype dsttype sel : Int) (memory value : List Nat) (count : Nat) (hcount : 0 < count)
    (hc : CASE srctype dsttype = .ok sel) (hsel : select_arm K sel = none) :
    NCD4_convert K A fcvt srctype dsttype memory value count = .ok (K.NC_EINVAL, memory) := by
  obtain ⟨n, rfl⟩ : ∃ n, count = n + 1 := ⟨count - 1, by omega⟩
  unfold NCD4_convert
  rw [convert_loop_succ, hc, Res.bind_ok, hsel]

/-- C35: whenever `NCD4_convert` returns `NC_EINVAL` (a status different from
`NC_NOERR`), the destination buffer after the call is the buffer before the call, for
every type pair, every count and every content of the two buffers: the status is set
by the `default` branch of the first pass, before any store. -/
theorem NCD4_convert_einval_no_write (K : NcConst) (A : Target)
    (fcvt : CType → CType → Nat → Nat) (srctype dsttype : Int) (memory value : List Nat)
    (count : Nat) (st : Int) (m : List Nat) (hne : K.NC_NOERR ≠ K.NC_EINVAL)
    (h : NCD4_convert K A fcvt srctype dsttype memory value count = .ok (st, m))
    (hst : st = K.NC_EINVAL) : m = memory := by
  subst hst
  exact (convert_loop_einval K A fcvt hne srctype dsttype value count memory 0 0 m h).1

/-- Witness of C35: with the codes `NC_BYTE = 1`, `NC_STRING = 12`, `NC_EINVAL = -36`,
converting two elements from type 1 to type 12 returns `-36` and the four destination
bytes are untouched. -/
theorem NCD4_convert_einval_no_write_witness :
    NCD4_convert ⟨0, -36, 1, 2, 3, 4, 5, 6, 7, 8, 9, 10, 11, 12⟩ ⟨true, false, false, 8⟩
        (fun _ _ b => b) 1 12 [5, 6, 7, 8] [255, 9] 2 = .ok (-36, [5, 6, 7, 8]) ∧
      ([5, 6, 7, 8] : List Nat) = [5, 6, 7, 8] :=
  ⟨by decide, NCD4_convert_einval_no_write ⟨0, -36, 1, 2, 3, 4, 5, 6, 7, 8, 9, 10, 11, 12⟩
    ⟨true, false, false, 8⟩ (fun _ _ b => b) 1 12 [5, 6, 7, 8] [255, 9] 2 (-36) [5, 6, 7, 8]
    (by decide) (by decide) rfl⟩

end Netcdf

namespace Netcdf

theorem load_at (A : Target) (t : CType) (pre rest : List Nat) (x : Nat)
    (hx : x < 256 ^ sizeof t) :
    load A t (pre ++ encode A (sizeof t) x ++ rest) pre.length = .ok x := by
  unfold load
  have hlen : pre.length + sizeof t ≤ (pre ++ encode A (sizeof t) x ++ rest).length := by
    simp only [List.length_append, encode_length]
    omega
  rw [if_pos hlen, List.append_assoc, List.drop_left,
    List.take_left' (encode_length A (sizeof t) x), decode_encode A _ x hx]

theorem store_at (A : Target) (t : CType) (mpre old mpost : List Nat) (bits : Nat)
    (hold : old.length = sizeof t) :
    store A t (mpre ++ old ++ mpost) mpre.length bits =
      .ok (mpre ++ encode A (sizeof t) bits ++ mpost) := by
  unfold store
  have hlen : mpre.length + sizeof t ≤ (mpre ++ old ++ mpost).length := by
    simp only [List.length_append]
    omega
  have e1 : (mpre ++ old ++ mpost).take mpre.length = mpre := by
    rw [List.append_assoc, List.take_left]
  have e2 : (mpre ++ old ++ mpost).drop (mpre.length + sizeof t) = mpost := by
    have hl : (mpre ++ old).length = mpre.length + sizeof t := by
      rw [List.length_append, hold]
    rw [← hl, List.drop_left]
  rw [if_pos hlen, e1, e2]

theorem encode_array_cons (A : Target) (t : CType) (x : Nat) (xs : List Nat) :
    encode_array A t (x :: xs) = encode A (sizeof t) x ++ encode_array A t xs := by
  simp [encode_array]

/-- The loop on an array of elements of a convertible type: every element is read,
cast and stored at its place of the destination array; the bytes before and after the
destination array are kept. -/
theorem convert_loop_spec (K : NcConst) (A : Target) (fcvt : CType → CType → Nat → Nat)
    (hK : K.Valid) (s d : Int) (ts td : CType) (hs : (s, ts) ∈ type_table K)
    (hd : (d, td) ∈ type_table K) (elems : List Nat)
    (helems : ∀ x ∈ elems, x < 256 ^ sizeof ts) (pre vpost mpre mmid mpost : List Nat)
    (hmid : mmid.length = elems.length * sizeof td) :
    convert_loop K A fcvt s d (pre ++ encode_array A ts elems ++ vpost) elems.length
        (mpre ++ mmid ++ mpost) mpre.length pre.length =
      .ok (K.NC_NOERR,
        mpre ++ encode_array A td (elems.map (c_cast A fcvt ts td)) ++ mpost) := by
  obtain ⟨hcase, hsel⟩ := select_arm_mem K hK s d ts td hs hd
  induction elems generalizing pre mpre mmid with
  | nil =>
    have hnil : mmid = [] := List.length_eq_zero.mp (by simpa using hmid)
    subst hnil
    rfl
  | cons x xs ih =>
    have hx : x < 256 ^ sizeof ts := helems x (List.mem_cons_self x xs)
    have hxs : ∀ y ∈ xs, y < 256 ^ sizeof ts := fun y hy =>
      helems y (List.mem_cons_of_mem x hy)
    have hmid' : mmid.length = xs.length * sizeof td + sizeof td := by
      rw [hmid, List.length_cons]
      ring
    have htake : (mmid.take (sizeof td)).length = sizeof td := by
      rw [List.length_take]
      omega
    have hdrop : (mmid.drop (sizeof td)).length = xs.length * sizeof td := by
      rw [List.length_drop]
      omega
    have hv : pre ++ encode_array A ts (x :: xs) ++ vpost =
        pre ++ encode A (sizeof ts) x ++ (encode_array A ts xs ++ vpost) := by
      rw [encode_array_cons]
      simp only [List.append_assoc]
    have hm : mpre ++ mmid ++ mpost =
        mpre ++ mmid.take (sizeof td) ++ (mmid.drop (sizeof td) ++ mpost) := by
      conv_lhs => rw [← List.take_append_drop (sizeof td) mmid]
      simp only [List.append_assoc]
    have harm : ARM A fcvt ts td (pre ++ encode_array A ts (x :: xs) ++ vpost) pre.length
        (mpre ++ mmid ++ mpost) mpre.length =
        .ok (mpre ++ encode A (sizeof td) (c_cast A fcvt ts td x) ++
          (mmid.drop (sizeof td) ++ mpost)) := by
      unfold ARM
      rw [hv, hm]
      simp only [Res.bind_eq_bind]
      rw [load_at A ts pre _ x hx, Res.bind_ok, store_at A td mpre _ _ _ htake]
    rw [List.length_cons, convert_loop_succ, hcase, Res.bind_ok, hsel]
    simp only
    rw [harm, Res.bind_ok, nctypesizeof_mem K A hK s ts hs, Res.bind_ok,
      nctypesizeof_mem K A hK d td hd, Res.bind_ok]
    have hv2 : pre ++ encode_array A ts (x :: xs) ++ vpost =
        (pre ++ encode A (sizeof ts) x) ++ encode_array A ts xs ++ vpost := by
      rw [encode_array_cons]
      simp only [List.append_assoc]
    have hm2 : mpre ++ encode A (sizeof td) (c_cast A fcvt ts td x) ++
          (mmid.drop (sizeof td) ++ mpost) =
        (mpre ++ encode A (sizeof td) (c_cast A fcvt ts td x)) ++ mmid.drop (sizeof td) ++
          mpost := by
      simp only [List.append_assoc]
    have hl1 : mpre.length + sizeof td =
        (mpre ++ encode A (sizeof td) (c_cast A fcvt ts td x)).length := by
      rw [List.length_append, encode_length]
    have hl2 : pre.length + sizeof ts = (pre ++ encode A (sizeof ts) x).length := by
      rw [List.length_append, encode_length]
    rw [hv2, hm2, hl1, hl2, ih hxs _ _ _ hdrop, List.map_cons, encode_array_cons]
    simp only [List.append_assoc]

end Netcdf

namespace Netcdf

theorem store_length (A : Target) (t : CType) (buf : List Nat) (off bits : Nat)
    (m : List Nat) (h : store A t buf off bits = .ok m) : m.length = buf.length := by
  unfold store at h
  split at h
  · rw [← Res.ok.inj h]
    simp only [List.length_append, List.length_take, List.length_drop, encode_length]
    omega
  · exact Res.noConfusion h

/-- With a pair of convertible types and buffers that hold the remaining elements, the
loop runs to its end and returns `NC_NOERR`. -/
theorem convert_loop_noerr (K : NcConst) (A : Target) (fcvt : CType → CType → Nat → Nat)
    (hK : K.Valid) (s d : Int) (ts td : CType) (hs : (s, ts) ∈ type_table K)
    (hd : (d, td) ∈ type_table K) (value : List Nat) (n : Nat) (memory : List Nat)
    (mo vo : Nat) (hv : vo + n * sizeof ts ≤ value.length)
    (hm : mo + n * sizeof td ≤ memory.length) :
    ∃ m, convert_loop K A fcvt s d value n memory mo vo = .ok (K.NC_NOERR, m) ∧
      m.length = memory.length := by
  obtain ⟨hcase, hsel⟩ := select_arm_mem K hK s d ts td hs hd
  induction n generalizing memory mo vo with
  | zero => exact ⟨memory, rfl, rfl⟩
  | succ n ih =>
    have e1 : (n + 1) * sizeof ts = n * sizeof ts + sizeof ts := by ring
    have e2 : (n + 1) * sizeof td = n * sizeof td + sizeof td := by ring
    have hl : load A ts value vo =
        .ok (decode A ((value.drop vo).take (sizeof ts))) := by
      unfold load
      rw [if_pos (by omega)]
    have hst : ∃ m1, store A td memory mo
        (c_cast A fcvt ts td (decode A ((value.drop vo).take (sizeof ts)))) = .ok m1 := by
      unfold store
      rw [if_pos (by omega)]
      exact ⟨_, rfl⟩
    obtain ⟨m1, hm1⟩ := hst
    have hlen1 := store_length A td memory mo _ m1 hm1
    obtain ⟨m, hmres, hmlen⟩ := ih m1 (mo + sizeof td) (vo + sizeof ts) (by omega) (by omega)
    refine ⟨m, ?_, by omega⟩
    rw [convert_loop_succ, hcase, Res.bind_ok, hsel]
    simp only
    unfold ARM
    simp only [Res.bind_eq_bind]
    rw [hl, Res.bind_ok, hm1, Res.bind_ok, nctypesizeof_mem K A hK s ts hs, Res.bind_ok,
      nctypesizeof_mem K A hK d td hd, Res.bind_ok, hmres]

/-- C34 (the code departs from the claim): the switch selects an arm by the single
number `srctype*256+dsttype`, which does not determine the pair. With valid type codes
and `NC_EINVAL` different from `NC_NOERR`: for `count = 0` the call returns `NC_NOERR`
for every type pair; for `count > 0`, a destination code in `0..255` and a source code
of magnitude below `2^22` it returns `NC_EINVAL` when one of the two codes is not
convertible; for two convertible codes and buffers that hold `count` elements it
returns `NC_NOERR`. But for convertible codes `s` and `d` the pair
`(s - 1, d + 256)`, whose destination code is not convertible, selects the arm of
`(s, d)`: for every `count > 0` the call does not return `NC_EINVAL`. -/
theorem NCD4_convert_case_collision (K : NcConst) (A : Target)
    (fcvt : CType → CType → Nat → Nat) (hK : K.Valid) (hne : K.NC_NOERR ≠ K.NC_EINVAL)
    (memory value : List Nat) :
    (∀ s d, NCD4_convert K A fcvt s d memory value 0 = .ok (K.NC_NOERR, memory)) ∧
    (∀ s d count, 0 < count → -(2 ^ 22) ≤ s → s < 2 ^ 22 → 0 ≤ d → d < 256 →
      ¬ (s ∈ convertible K ∧ d ∈ convertible K) →
      NCD4_convert K A fcvt s d memory value count = .ok (K.NC_EINVAL, memory)) ∧
    (∀ s d ts td count, (s, ts) ∈ type_table K → (d, td) ∈ type_table K →
      count * sizeof ts ≤ value.length → count * sizeof td ≤ memory.length →
      ∃ m, NCD4_convert K A fcvt s d memory value count = .ok (K.NC_NOERR, m)) ∧
    (∀ s d count, 0 < count → s ∈ convertible K → d ∈ convertible K →
      d + 256 ∉ convertible K ∧
      ∀ m, NCD4_convert K A fcvt (s - 1) (d + 256) memory value count ≠
        .ok (K.NC_EINVAL, m)) := by
  refine ⟨fun _ _ => rfl, ?_, ?_, ?_⟩
  · intro s d count hcount hs1 hs2 hd1 hd2 hnot
    apply convert_default K A fcvt s d (s * 256 + d) memory value count hcount
      (CASE_eq s d hs1 hs2 (by omega) (by omega))
    apply select_arm_none
    intro s' ts' d' td' hs' hd' hc
    have rs := hK.2 s' (mem_convertible K s' ts' hs')
    have rd := hK.2 d' (mem_convertible K d' td' hd')
    rw [CASE_eq s' d' (by omega) (by omega) (by omega) (by omega)] at hc
    have e := Res.ok.inj hc
    have es : s' = s := by omega
    have ed : d' = d := by omega
    subst es
    subst ed
    exact hnot ⟨mem_convertible K _ _ hs', mem_convertible K _ _ hd'⟩
  · intro s d ts td count hs hd hv hm
    obtain ⟨m, h, _⟩ := convert_loop_noerr K A fcvt hK s d ts td hs hd value count memory 0 0
      (by omega) (by omega)
    exact ⟨m, h⟩
  · intro s d count hcount hs hd
    obtain ⟨⟨s', ts⟩, hs', es⟩ := List.mem_map.mp hs
    obtain ⟨⟨d', td⟩, hd', ed⟩ := List.mem_map.mp hd
    simp only at es ed
    subst es
    subst ed
    have rs := hK.2 s' hs
    have rd := hK.2 d' hd
    refine ⟨fun hmem => ?_, ?_⟩
    · have := hK.2 _ hmem
      omega
    · intro m hm
      obtain ⟨_, _, sel, hc, hsel⟩ :=
        convert_loop_einval K A fcvt hne (s' - 1) (d' + 256) value count memory 0 0 m hm
      rw [CASE_eq (s' - 1) (d' + 256) (by omega) (by omega) (by omega) (by omega)] at hc
      have e : sel = s' * 256 + d' := by
        have := Res.ok.inj hc
        omega
      rw [e, (select_arm_mem K hK s' d' ts td hs' hd').2] at hsel
      exact Option.noConfusion hsel

/-- Witness of C34 with the codes `NC_NOERR = 0`, `NC_EINVAL = -36`, `NC_BYTE = 1`: the
type pair `(0, 257)` has the label `257` of the arm `(NC_BYTE, NC_BYTE)`. The call on
one element does not return `-36`; with `assert` active it stops in the `assert(0)` of
`nctypesizeof(0)`, after the store. -/
theorem NCD4_convert_case_collision_witness :
    ((1 : Int) + 256 ∉ convertible ⟨0, -36, 1, 2, 3, 4, 5, 6, 7, 8, 9, 10, 11, 12⟩ ∧
      ∀ m, NCD4_convert ⟨0, -36, 1, 2, 3, 4, 5, 6, 7, 8, 9, 10, 11, 12⟩
        ⟨true, false, false, 8⟩ (fun _ _ b => b) (1 - 1) (1 + 256) [0] [7] 1 ≠
          .ok ((-36 : Int), m)) ∧
    NCD4_convert ⟨0, -36, 1, 2, 3, 4, 5, 6, 7, 8, 9, 10, 11, 12⟩ ⟨true, false, false, 8⟩
      (fun _ _ b => b) 0 257 [0] [7] 1 = .fail .assertion :=
  ⟨(NCD4_convert_case_collision ⟨0, -36, 1, 2, 3, 4, 5, 6, 7, 8, 9, 10, 11, 12⟩
      ⟨true, false, false, 8⟩ (fun _ _ b => b) (by decide) (by decide) [0] [7]).2.2.2 1 1 1
      (by decide) (by decide) (by decide),
    by decide⟩

/-- C36: for two integer types `A` and `B` of the conversion table with `B` at least as
wide as `A`, and an array of elements of type `A`, `NCD4_convert` from `A` to `B`
returns `NC_NOERR` and fills the destination with the array of the cast elements
(element `i` of the result is the cast of element `i` of the input); converting that
array back from `B` to `A` returns `NC_NOERR` and gives the original array, bit for
bit; and converting from `A` to `A` copies the array unchanged. Conversions between
integer types are reductions modulo `2^width` of the destination type. -/
theorem NCD4_convert_round_trip (K : NcConst) (A : Target) (fcvt : CType → CType → Nat → Nat)
    (hK : K.Valid) (sa sb : Int) (ta tb : CType) (ha : (sa, ta) ∈ type_table K)
    (hb : (sb, tb) ∈ type_table K) (hia : is_floating ta = false)
    (hib : is_floating tb = false) (hw : sizeof ta ≤ sizeof tb) (elems : List Nat)
    (helems : ∀ x ∈ elems, x < 256 ^ sizeof ta) (mem1 mem2 : List Nat)
    (h1 : mem1.length = elems.length * sizeof tb)
    (h2 : mem2.length = elems.length * sizeof ta) :
    NCD4_convert K A fcvt sa sb mem1 (encode_array A ta elems) elems.length =
      .ok (K.NC_NOERR, encode_array A tb (elems.map (c_cast A fcvt ta tb))) ∧
    (∀ x, c_cast A fcvt ta tb x =
      of_value (sizeof tb) (to_value (sizeof ta) (is_signed A ta) x)) ∧
    NCD4_convert K A fcvt sb sa mem2 (encode_array A tb (elems.map (c_cast A fcvt ta tb)))
        elems.length = .ok (K.NC_NOERR, encode_array A ta elems) ∧
    NCD4_convert K A fcvt sa sa mem2 (encode_array A ta elems) elems.length =
      .ok (K.NC_NOERR, encode_array A ta elems) := by
  have hcast : ∀ x, c_cast A fcvt ta tb x =
      of_value (sizeof tb) (to_value (sizeof ta) (is_signed A ta) x) := by
    intro x
    simp [c_cast, hia, hib]
  have hback : ∀ x, c_cast A fcvt tb ta x =
      of_value (sizeof ta) (to_value (sizeof tb) (is_signed A tb) x) := by
    intro x
    simp [c_cast, hia, hib]
  have hsame : ∀ x, c_cast A fcvt ta ta x =
      of_value (sizeof ta) (to_value (sizeof ta) (is_signed A ta) x) := by
    intro x
    simp [c_cast, hia]
  have spec := fun (s d : Int) (ts td : CType) hs hd (xs : List Nat) hxs (mem : List Nat)
      (hmem : mem.length = xs.length * sizeof td) =>
    convert_loop_spec K A fcvt hK s d ts td hs hd xs hxs [] [] [] mem [] hmem
  simp only [List.nil_append, List.append_nil, List.length_nil] at spec
  refine ⟨spec sa sb ta tb ha hb elems helems mem1 h1, hcast, ?_, ?_⟩
  · have hmid : ∀ y ∈ elems.map (c_cast A fcvt ta tb), y < 256 ^ sizeof tb := by
      intro y hy
      obtain ⟨x, _, rfl⟩ := List.mem_map.mp hy
      rw [hcast]
      exact of_value_lt _ _
    have hrt : (elems.map (c_cast A fcvt ta tb)).map (c_cast A fcvt tb ta) = elems := by
      rw [List.map_map]
      conv_rhs => rw [← List.map_id elems]
      apply List.map_congr_left
      intro x hx
      simp only [Function.comp_apply, id_eq, hcast, hback]
      exact int_round_trip _ _ _ _ x hw (helems x hx)
    have := spec sb sa tb ta hb ha (elems.map (c_cast A fcvt ta tb)) hmid mem2
      (by rw [List.length_map]; exact h2)
    rw [List.length_map, hrt] at this
    exact this
  · have hid : elems.map (c_cast A fcvt ta ta) = elems := by
      conv_rhs => rw [← List.map_id elems]
      apply List.map_congr_left
      intro x hx
      simp only [id_eq, hsame]
      exact int_same_type _ _ x (helems x hx)
    have := spec sa sa ta ta ha ha elems helems mem2 h2
    rw [hid] at this
    exact this

end Netcdf

namespace Netcdf

/-- Witness of C36 with the codes `NC_BYTE = 1`, `NC_INT = 4` on a little-endian target:
the `signed char` array `-1, 9` becomes the `int` array `-1, 9` and comes back. -/
theorem NCD4_convert_round_trip_witness :
    NCD4_convert ⟨0, -36, 1, 2, 3, 4, 5, 6, 7, 8, 9, 10, 11, 12⟩ ⟨true, false, false, 8⟩
        (fun _ _ b => b) 1 4 [0, 0, 0, 0, 0, 0, 0, 0] [255, 9] 2 =
      .ok (0, [255, 255, 255, 255, 9, 0, 0, 0]) ∧
    NCD4_convert ⟨0, -36, 1, 2, 3, 4, 5, 6, 7, 8, 9, 10, 11, 12⟩ ⟨true, false, false, 8⟩
        (fun _ _ b => b) 4 1 [0, 0] [255, 255, 255, 255, 9, 0, 0, 0] 2 = .ok (0, [255, 9]) ∧
    NCD4_convert ⟨0, -36, 1, 2, 3, 4, 5, 6, 7, 8, 9, 10, 11, 12⟩ ⟨true, false, false, 8⟩
        (fun _ _ b => b) 1 1 [0, 0] [255, 9] 2 = .ok (0, [255, 9]) :=
  have h := NCD4_convert_round_trip ⟨0, -36, 1, 2, 3, 4, 5, 6, 7, 8, 9, 10, 11, 12⟩
    ⟨true, false, false, 8⟩ (fun _ _ b => b) (by decide) 1 4 .schar .int (by decide)
    (by decide) rfl rfl (by decide) [255, 9] (by decide) [0, 0, 0, 0, 0, 0, 0, 0] [0, 0]
    rfl rfl
  ⟨h.1, h.2.2.1, h.2.2.2⟩

end Netcdf

namespace MeshPerElemTest

/-- The three renumbering calls, with a temporary id that no element has and that is
neither of the two ids, exchange the two ids. -/
theorem exchange_ids {ι : Type} (ids : ι → Nat) (a b m : Nat) (hfree : ∀ e, ids e ≠ m)
    (ha : a ≠ m) (hb : b ≠ m) (e : ι) :
    renumber_elem (renumber_elem (renumber_elem ids a m) b a) m b e =
      if ids e = a then b else if ids e = b then a else ids e := by
  have hm := hfree e
  simp only [renumber_elem]
  split_ifs <;> omega

theorem elem_loop_cons {α ι : Type} (m : Nat) (id1 : α → Nat) (locator : α → Option ι)
    (e1 : α) (rest : List α) (ids : ι → Nat) (e2 : ι) (h : locator e1 = some e2) :
    elem_loop m id1 locator (e1 :: rest) ids =
      elem_loop m id1 locator rest
        (if id1 e1 ≠ ids e2 then
          renumber_elem (renumber_elem (renumber_elem ids (id1 e1) m) (ids e2) (id1 e1)) m
            (ids e2)
        else ids) := by
  rw [elem_loop, h]

/-- Invariant of the element loop: the ids stay pairwise different and below the
temporary id, every element still to be visited ends with the id of its counterpart,
and an element of `other_mesh` whose id is wanted by no element still to be visited,
and which is the counterpart of none of them, keeps its id. -/
theorem elem_loop_inv {α ι : Type} (m : Nat) (id1 : α → Nat) (locator : α → Option ι)
    (elems : List α) (ids : ι → Nat) (hinj : Function.Injective ids)
    (hfree : ∀ e, ids e ≠ m) (hfree1 : ∀ e1 ∈ elems, id1 e1 ≠ m)
    (hloc : ∀ e1 ∈ elems, locator e1 ≠ none)
    (hdist : elems.Pairwise fun x y => id1 x ≠ id1 y ∧ locator x ≠ locator y) :
    ∃ ids', elem_loop m id1 locator elems ids = .ok ids' ∧ Function.Injective ids' ∧
      (∀ e, ids' e ≠ m) ∧
      (∀ e1 ∈ elems, ∃ e2, locator e1 = some e2 ∧ ids' e2 = id1 e1) ∧
      (∀ y, (∀ e1 ∈ elems, id1 e1 ≠ ids y ∧ locator e1 ≠ some y) → ids' y = ids y) := by
  induction elems generalizing ids with
  | nil =>
    exact ⟨ids, rfl, hinj, hfree, fun _ h => absurd h (List.not_mem_nil _), fun _ _ => rfl⟩
  | cons e1 rest ih =>
    obtain ⟨e2, he2⟩ := Option.ne_none_iff_exists'.mp (hloc e1 (List.mem_cons_self e1 rest))
    have ha : id1 e1 ≠ m := hfree1 e1 (List.mem_cons_self e1 rest)
    rw [List.pairwise_cons] at hdist
    obtain ⟨hd1, hdrest⟩ := hdist
    have hswap : ∀ e, (if id1 e1 ≠ ids e2 then
          renumber_elem (renumber_elem (renumber_elem ids (id1 e1) m) (ids e2) (id1 e1)) m
            (ids e2)
        else ids) e = if ids e = id1 e1 then ids e2 else if ids e = ids e2 then id1 e1
          else ids e := by
      intro e
      by_cases hne : id1 e1 ≠ ids e2
      · rw [if_pos hne, exchange_ids ids _ _ m hfree ha (hfree e2) e]
      · have heq : id1 e1 = ids e2 := not_not.mp hne
        rw [if_neg hne]
        by_cases h1 : ids e = id1 e1
        · rw [if_pos h1, h1, heq]
        · rw [if_neg h1, if_neg (by rw [← heq]; exact h1)]
    generalize hids1 : (if id1 e1 ≠ ids e2 then
          renumber_elem (renumber_elem (renumber_elem ids (id1 e1) m) (ids e2) (id1 e1)) m
            (ids e2)
        else ids) = ids1 at hswap
    have hinj1 : Function.Injective ids1 := by
      intro x y hxy
      rw [hswap x, hswap y] at hxy
      apply hinj
      by_cases hx1 : ids x = id1 e1
      · by_cases hy1 : ids y = id1 e1
        · rw [hx1, hy1]
        · rw [if_pos hx1, if_neg hy1] at hxy
          by_cases hy2 : ids y = ids e2
          · rw [if_pos hy2] at hxy
            rw [hx1, hy2, hxy]
          · rw [if_neg hy2] at hxy
            exact absurd hxy.symm hy2
      · rw [if_neg hx1] at hxy
        by_cases hx2 : ids x = ids e2
        · rw [if_pos hx2] at hxy
          by_cases hy1 : ids y = id1 e1
          · rw [if_pos hy1] at hxy
            rw [hx2, hy1, hxy]
          · rw [if_neg hy1] at hxy
            by_cases hy2 : ids y = ids e2
            · rw [hx2, hy2]
            · rw [if_neg hy2] at hxy
              exact absurd hxy.symm hy1
        · rw [if_neg hx2] at hxy
          by_cases hy1 : ids y = id1 e1
          · rw [if_pos hy1] at hxy
            exact absurd hxy hx2
          · rw [if_neg hy1] at hxy
            by_cases hy2 : ids y = ids e2
            · rw [if_pos hy2] at hxy
              exact absurd hxy hx1
            · rw [if_neg hy2] at hxy
              exact hxy
    have hfree' : ∀ e, ids1 e ≠ m := by
      intro e
      rw [hswap e]
      by_cases h1 : ids e = id1 e1
      · rw [if_pos h1]
        exact hfree e2
      · rw [if_neg h1]
        by_cases h2 : ids e = ids e2
        · rw [if_pos h2]
          exact ha
        · rw [if_neg h2]
          exact hfree e
    have he2id : ids1 e2 = id1 e1 := by
      rw [hswap e2]
      by_cases h1 : ids e2 = id1 e1
      · rw [if_pos h1, h1]
      · rw [if_neg h1, if_pos rfl]
    obtain ⟨ids', hres, hinj', hfree2, hmatch, hkeep⟩ := ih ids1 hinj1 hfree'
      (fun e he => hfree1 e (List.mem_cons_of_mem e1 he))
      (fun e he => hloc e (List.mem_cons_of_mem e1 he)) hdrest
    refine ⟨ids', ?_, hinj', hfree2, ?_, ?_⟩
    · rw [elem_loop_cons m id1 locator e1 rest ids e2 he2, hids1]
      exact hres
    · intro x hx
      rcases List.mem_cons.mp hx with rfl | hx'
      · refine ⟨e2, he2, ?_⟩
        rw [hkeep e2 ?_, he2id]
        intro e he
        have := hd1 e he
        rw [he2id]
        refine ⟨fun h => this.1 h.symm, fun h => this.2 ?_⟩
        rw [he2, h]
      · exact hmatch x hx'
    · intro y hy
      have hy1 := hy e1 (List.mem_cons_self e1 rest)
      have hne1 : ids y ≠ id1 e1 := fun h => hy1.1 h.symm
      have hne2 : ids y ≠ ids e2 := by
        intro h
        apply hy1.2
        rw [he2, hinj h]
      have hsame : ids1 y = ids y := by
        rw [hswap y, if_neg hne1, if_neg hne2]
      rw [← hsame]
      apply hkeep y
      intro e he
      rw [hsame]
      exact hy e (List.mem_cons_of_mem e1 he)

/-- The node loop is the element loop on the node tables, with the node found by the
inner loop as counterpart. -/
theorem node_loop_eq {ν μ ε P : Type} [DecidableEq P] (m : Nat) (id1 : ν → Nat)
    (pt1 : ν → P) (pt2 : μ → P) (locator : ν → Option ε) (elem_nodes : ε → List μ)
    (nodes : List ν) (ids : μ → Nat) :
    node_loop m id1 pt1 pt2 locator elem_nodes nodes ids =
      elem_loop m id1 (node_match pt1 pt2 locator elem_nodes) nodes ids := by
  induction nodes generalizing ids with
  | nil => rfl
  | cons n1 rest ih =>
    cases h1 : locator n1 with
    | none =>
      have hm : node_match pt1 pt2 locator elem_nodes n1 = none := by
        rw [node_match, h1]
        rfl
      rw [node_loop, h1, elem_loop, hm]
    | some e1c =>
      cases h2 : find_n2 (fun n => decide (pt1 n1 = pt2 n)) (elem_nodes e1c) with
      | none =>
        have hm : node_match pt1 pt2 locator elem_nodes n1 = none := by
          rw [node_match, h1]
          exact h2
        rw [node_loop, h1, elem_loop, hm]
        simp only [h2]
      | some n2 =>
        have hm : node_match pt1 pt2 locator elem_nodes n1 = some n2 := by
          rw [node_match, h1]
          exact h2
        rw [node_loop, h1, elem_loop_cons m id1 _ n1 rest ids n2 hm]
        simp only [h2]
        exact ih _

end MeshPerElemTest

namespace MeshPerElemTest

/-- C37: in `meshes_equal_enough`, with the ids of `other_mesh` pairwise different and
the temporary id (`max_elem_id`, `max_node_id`) held by no element or node of either
mesh, the three `renumber_elem` calls exchange the ids `e1_id` and `e2_id` and keep
every other id, and likewise the three `renumber_node` calls. When distinct elements of
this mesh have distinct ids and distinct counterparts in `other_mesh`, the element loop
runs through and afterwards every element of this mesh has the id of its counterpart,
the ids of `other_mesh` still being pairwise different; the same holds for the node
loop, the counterpart of a node being the node found by the inner loop. -/
theorem meshes_equal_enough_renumbering {α ι ν μ ε P : Type} [DecidableEq P]
    (max_elem_id max_node_id : Nat) (elems : List α) (eid1 : α → Nat)
    (elocator : α → Option ι) (eids : ι → Nat) (nodes : List ν) (nid1 : ν → Nat)
    (pt1 : ν → P) (pt2 : μ → P) (nlocator : ν → Option ε) (elem_nodes : ε → List μ)
    (nids : μ → Nat)
    (he_inj : Function.Injective eids) (he_free : ∀ e, eids e ≠ max_elem_id)
    (he_free1 : ∀ e1 ∈ elems, eid1 e1 ≠ max_elem_id)
    (he_loc : ∀ e1 ∈ elems, elocator e1 ≠ none)
    (he_dist : elems.Pairwise fun x y => eid1 x ≠ eid1 y ∧ elocator x ≠ elocator y)
    (hn_inj : Function.Injective nids) (hn_free : ∀ n, nids n ≠ max_node_id)
    (hn_free1 : ∀ n1 ∈ nodes, nid1 n1 ≠ max_node_id)
    (hn_loc : ∀ n1 ∈ nodes, node_match pt1 pt2 nlocator elem_nodes n1 ≠ none)
    (hn_dist : nodes.Pairwise fun x y => nid1 x ≠ nid1 y ∧
      node_match pt1 pt2 nlocator elem_nodes x ≠ node_match pt1 pt2 nlocator elem_nodes y) :
    (∀ e1_id e2_id e, e1_id ≠ max_elem_id → e2_id ≠ max_elem_id →
      renumber_elem (renumber_elem (renumber_elem eids e1_id max_elem_id) e2_id e1_id)
          max_elem_id e2_id e =
        if eids e = e1_id then e2_id else if eids e = e2_id then e1_id else eids e) ∧
    (∀ n1_id n2_id n, n1_id ≠ max_node_id → n2_id ≠ max_node_id →
      renumber_node (renumber_node (renumber_node nids n1_id max_node_id) n2_id n1_id)
          max_node_id n2_id n =
        if nids n = n1_id then n2_id else if nids n = n2_id then n1_id else nids n) ∧
    (∃ ids', elem_loop max_elem_id eid1 elocator elems eids = .ok ids' ∧
      Function.Injective ids' ∧
      ∀ e1 ∈ elems, ∃ e2, elocator e1 = some e2 ∧ ids' e2 = eid1 e1) ∧
    (∃ ids', node_loop max_node_id nid1 pt1 pt2 nlocator elem_nodes nodes nids = .ok ids' ∧
      Function.Injective ids' ∧
      ∀ n1 ∈ nodes, ∃ n2, node_match pt1 pt2 nlocator elem_nodes n1 = some n2 ∧
        ids' n2 = nid1 n1) := by
  refine ⟨?_, ?_, ?_, ?_⟩
  · intro a b e ha hb
    exact exchange_ids eids a b max_elem_id he_free ha hb e
  · intro a b n ha hb
    exact exchange_ids nids a b max_node_id hn_free ha hb n
  · obtain ⟨ids', h, hinj, _, hmatch, _⟩ :=
      elem_loop_inv max_elem_id eid1 elocator elems eids he_inj he_free he_free1 he_loc he_dist
    exact ⟨ids', h, hinj, hmatch⟩
  · obtain ⟨ids', h, hinj, _, hmatch, _⟩ :=
      elem_loop_inv max_node_id nid1 (node_match pt1 pt2 nlocator elem_nodes) nodes nids
        hn_inj hn_free hn_free1 hn_loc hn_dist
    refine ⟨ids', ?_, hinj, hmatch⟩
    rw [node_loop_eq]
    exact h

/-- Witness of C37: three elements with ids `0, 1, 2` whose counterparts have the ids
`1, 2, 0`, and two nodes at the positions `0` and `10` of one element of `other_mesh`
that lists them in the other order; the temporary ids are `3` and `2`. -/
theorem meshes_equal_enough_renumbering_witness :
    (∃ ids', elem_loop 3 (fun e : Fin 3 => e.val) (fun e : Fin 3 => some e)
        [0, 1, 2] ![1, 2, 0] = .ok ids' ∧ Function.Injective ids' ∧
      ∀ e1 ∈ ([0, 1, 2] : List (Fin 3)), ∃ e2, (fun e : Fin 3 => some e) e1 = some e2 ∧
        ids' e2 = (fun e : Fin 3 => e.val) e1) ∧
    (∃ ids', node_loop 2 (fun n : Fin 2 => n.val) (fun n : Fin 2 => 10 * n.val) ![10, 0]
        (fun _ : Fin 2 => some ()) (fun _ : Unit => ([0, 1] : List (Fin 2))) [0, 1] ![0, 1]
        = .ok ids' ∧ Function.Injective ids' ∧
      ∀ n1 ∈ ([0, 1] : List (Fin 2)), ∃ n2,
        node_match (fun n : Fin 2 => 10 * n.val) ![10, 0] (fun _ : Fin 2 => some ())
          (fun _ : Unit => ([0, 1] : List (Fin 2))) n1 = some n2 ∧
        ids' n2 = (fun n : Fin 2 => n.val) n1) :=
  (meshes_equal_enough_renumbering 3 2 [0, 1, 2] (fun e : Fin 3 => e.val)
    (fun e : Fin 3 => some e) ![1, 2, 0] [0, 1] (fun n : Fin 2 => n.val)
    (fun n : Fin 2 => 10 * n.val) ![10, 0] (fun _ : Fin 2 => some ())
    (fun _ : Unit => ([0, 1] : List (Fin 2))) ![0, 1]
    (by decide) (by decide) (by decide) (by decide) (by decide)
    (by decide) (by decide) (by decide) (by decide) (by decide)).2.2

end MeshPerElemTest

namespace QuadNSq

/-- C23 (corrected): for every `perm_num ≥ 4`, in a build with assertions enabled
`permute(perm_num)` is rejected by its assertion before any swap: the call fails as a
precondition violation and produces no new node or neighbour table, whatever the state.
In a build where the assertion macros are empty the call is not rejected: for `N ≥ 2`,
a table of `N^2` nodes and 4 neighbours it runs its loop `perm_num` times and returns
the tables that `permute(perm_num mod 4)` returns. -/
theorem permute_rejects {ν η : Type} (N perm_num : Nat) (e : Elem ν η) (h : 4 ≤ perm_num) :
    permute N e perm_num = .fail .assertion ∧
    permute_in true N e perm_num = .fail .assertion ∧
    (2 ≤ N → e.nodes.length = N * N → e.neighbors.length = 4 →
      ∃ e', permute_in false N e perm_num = .ok e' ∧
        permute N e (perm_num % 4) = .ok e') := by
  have ha : libmesh_assert (decide (perm_num < 4)) = .fail .assertion := by
    have : decide (perm_num < 4) = false := decide_eq_false (by omega)
    rw [this]; rfl
  have hp : permute N e perm_num = .fail .assertion := by
    simp only [permute, Res.bind_eq_bind, ha, Res.bind_fail]
  refine ⟨hp, hp, ?_⟩
  intro hN hn hnb
  obtain ⟨e1, h1, _, _, g1, b1⟩ := permute_loop_spec N hN perm_num e hn hnb
  obtain ⟨e2, h2, _, _, g2, b2⟩ := permute_spec N hN (perm_num % 4) (Nat.mod_lt _ (by omega))
    e hn hnb
  have he : e1 = e2 := by
    apply elem_ext
    · intro p
      rw [g1, g2, iterate_mod_four _ (rot_four (N - 2)) perm_num]
    · intro p
      rw [b1, b2, iterate_mod_four _ (rot_four 0) perm_num]
  refine ⟨e1, ?_, by rw [he]; exact h2⟩
  have hb : libmesh_assert_in false (decide (perm_num < 4)) = .ok () := rfl
  simp only [permute_in, Res.bind_eq_bind, hb, Res.bind_ok]
  exact h1

/-- Witness of C23: `permute(4)` on a 4-node quad. -/
theorem permute_rejects_witness :
    permute 2 (⟨[10, 11, 12, 13], [0, 1, 2, 3]⟩ : Elem Nat Nat) 4 = .fail .assertion ∧
    permute_in true 2 (⟨[10, 11, 12, 13], [0, 1, 2, 3]⟩ : Elem Nat Nat) 4 =
      .fail .assertion ∧
    (2 ≤ 2 → ([10, 11, 12, 13] : List Nat).length = 2 * 2 →
      ([0, 1, 2, 3] : List Nat).length = 4 →
      ∃ e', permute_in false 2 (⟨[10, 11, 12, 13], [0, 1, 2, 3]⟩ : Elem Nat Nat) 4 = .ok e' ∧
        permute 2 (⟨[10, 11, 12, 13], [0, 1, 2, 3]⟩ : Elem Nat Nat) (4 % 4) = .ok e') :=
  permute_rejects 2 4 _ (by decide)

/-- Counterexample to C23 as claimed: compiled without assertions, `permute(5)` on a
9-node quad is not rejected and changes both tables; it makes one quarter turn. -/
theorem permute_five_rotates :
    permute_in false 3 (⟨[10, 11, 12, 13, 14, 15, 16, 17, 18], [0, 1, 2, 3]⟩ : Elem Nat Nat)
        5 = .ok ⟨[11, 12, 13, 10, 15, 16, 17, 14, 18], [1, 2, 3, 0]⟩ := by
  decide

end QuadNSq

end LibMesh
